import Mathlib

namespace limiter

/-! # Shallow embedding of the token-bucket limiter (limit.go, rate.go)

The Go sources compute on float64, int, time.Duration and time.Time.  The embedding
models float64 exactly (IEEE 754 binary64, round to nearest, ties to even), so that the
theorems below speak about the values the program really computes.

Modelling choices:
* every float64 operation is rounded on its own (no fused multiply-add), as the gc
  compiler does on amd64;
* int is 64 bits wide; time.Duration is a count of nanoseconds;
* a time.Time is the instant it denotes, and Time.Sub saturates as documented;
* the result of an out-of-range float64 to int64 conversion, which Go leaves to the
  implementation, is a parameter of the functions that convert;
* the mutex of a Limiter is a flag; methods are state transformers that return their
  result together with the limiter after the call.
-/

/-- Bit length of a natural number, computed with an explicit fuel argument. -/
def bitLenAux : Nat → Nat → Nat
  | 0, _ => 0
  | f + 1, n => if n = 0 then 0 else bitLenAux f (n / 2) + 1

/-- Bit length of n: the least k with n < 2 ^ k. -/
def bitLen (n : Nat) : Nat := bitLenAux n n

/-- Floor of the base-2 logarithm of a positive rational. -/
def ilog2 (q : ℚ) : Int :=
  let a : Int := (bitLen q.num.natAbs : Int) - (bitLen q.den : Int)
  if (2 : ℚ) ^ a ≤ q then a else a - 1

/-- Round a rational to the nearest integer, ties to the even one. -/
def rne (x : ℚ) : Int :=
  if x - (⌊x⌋ : ℚ) < 1 / 2 then ⌊x⌋
  else if 1 / 2 < x - (⌊x⌋ : ℚ) then ⌊x⌋ + 1
  else if ⌊x⌋ % 2 = 0 then ⌊x⌋ else ⌊x⌋ + 1

/-- Exponent of the binade in which the positive rational q is rounded (the least
binade is that of the subnormal numbers). -/
def expOf (q : ℚ) : Int := max (ilog2 q) (-1022)

/-- The positive rational q rounded to 53 significant bits, before the overflow test. -/
def magVal (q : ℚ) : ℚ :=
  (rne (q / (2 : ℚ) ^ (expOf q - 52)) : ℚ) * (2 : ℚ) ^ (expOf q - 52)

/-- Extended value of the rounding of q: the value of round q, as a rational. -/
def rext (q : ℚ) : ℚ :=
  if q = 0 then 0
  else if q < 0 then -(min (magVal (-q)) ((2 : ℚ) ^ (1024 : ℤ)))
  else min (magVal q) ((2 : ℚ) ^ (1024 : ℤ))

/-- Reduce a natural number into a finite range (the reduction is the identity on every
value the rounding function produces). -/
def mkFin (n : Nat) (h : 0 < n) (a : Nat) : Fin n := ⟨a % n, Nat.mod_lt a h⟩

/-- A float64 value: NaN, a signed infinity, or a finite value given by its sign bit, its
11-bit biased exponent field (0 .. 2046) and its 52-bit fraction field.  Every float64 bit
pattern is one of these (NaN payloads are not distinguished). -/
inductive F64 where
  | nan : F64
  | inf (neg : Bool) : F64
  | fin (neg : Bool) (e : Fin 2047) (m : Fin 4503599627370496) : F64
  deriving DecidableEq, Repr

namespace F64

/-- Integer significand of a finite value (the hidden bit is set for normal numbers). -/
def sig : F64 → Nat
  | fin _ e m => if e.val = 0 then m.val else 4503599627370496 + m.val
  | _ => 0

/-- Exponent of the last significand bit of a finite value. -/
def ex : F64 → Int
  | fin _ e _ => if e.val = 0 then -1074 else (e.val : Int) - 1075
  | _ => 0

/-- Sign bit. -/
def sign : F64 → Bool
  | fin neg _ _ => neg
  | inf neg => neg
  | nan => false

/-- The rational number a finite value denotes (0 for NaN and the infinities). -/
def toRat (x : F64) : ℚ :=
  (if x.sign then -1 else 1) * (x.sig : ℚ) * (2 : ℚ) ^ x.ex

/-- Extended value: finite values denote themselves, the infinities are placed at
plus and minus 2 ^ 1024, beyond every finite float64. -/
def ext : F64 → ℚ
  | nan => 0
  | inf neg => if neg then -(2 : ℚ) ^ (1024 : ℤ) else (2 : ℚ) ^ (1024 : ℤ)
  | x => x.toRat

/-- The value is NaN. -/
def isNaN : F64 → Bool
  | nan => true
  | _ => false

/-- The value is finite (neither NaN nor an infinity). -/
def isFinite : F64 → Bool
  | fin _ _ _ => true
  | _ => false

/-- The value is one of the two zeros. -/
def isZero : F64 → Bool
  | fin _ e m => e.val = 0 && m.val = 0
  | _ => false

/-- Go comparison x < y (false when either side is NaN). -/
def lt (x y : F64) : Bool := !x.isNaN && !y.isNaN && decide (x.ext < y.ext)

/-- Go comparison x <= y (false when either side is NaN). -/
def le (x y : F64) : Bool := !x.isNaN && !y.isNaN && decide (x.ext ≤ y.ext)

/-- Go comparison x > y. -/
def gt (x y : F64) : Bool := lt y x

/-- Go comparison x >= y. -/
def ge (x y : F64) : Bool := le y x

/-- Go comparison x == y (false when either side is NaN; the two zeros are equal). -/
def eq (x y : F64) : Bool := !x.isNaN && !y.isNaN && decide (x.ext = y.ext)

/-- Positive zero. -/
def zero : F64 := fin false (mkFin 2047 (by decide) 0) (mkFin 4503599627370496 (by decide) 0)

/-- Assemble a float64 from a sign, a binade exponent e and an integer significand M of
at most 53 bits plus a possible carry (M = 2 ^ 53 moves to the next binade); values
beyond the largest finite float64 overflow to infinity. -/
def pack (neg : Bool) (e : Int) (M : Nat) : F64 :=
  let e1 : Int := if M = 9007199254740992 then e + 1 else e
  let M1 : Nat := if M = 9007199254740992 then 4503599627370496 else M
  if 1023 < e1 then inf neg
  else if M1 < 4503599627370496 then
    fin neg (mkFin 2047 (by decide) 0) (mkFin 4503599627370496 (by decide) M1)
  else
    fin neg (mkFin 2047 (by decide) (e1 + 1023).toNat)
      (mkFin 4503599627370496 (by decide) (M1 - 4503599627370496))

/-- Round the positive rational q to binary64 with the given sign. -/
def ofMag (neg : Bool) (q : ℚ) : F64 :=
  pack neg (expOf q) (rne (q / (2 : ℚ) ^ (expOf q - 52))).toNat

/-- Round a rational to binary64 (nearest, ties to even); zneg is the sign given to an
exact zero result. -/
def round (zneg : Bool) (q : ℚ) : F64 :=
  if q = 0 then fin zneg (mkFin 2047 (by decide) 0) (mkFin 4503599627370496 (by decide) 0)
  else if q < 0 then ofMag true (-q) else ofMag false q

/-- Float64 addition. -/
def add : F64 → F64 → F64
  | nan, _ => nan
  | _, nan => nan
  | inf a, inf b => if a = b then inf a else nan
  | inf a, fin _ _ _ => inf a
  | fin _ _ _, inf b => inf b
  | fin a e m, fin b e2 m2 => round (a && b) ((fin a e m).toRat + (fin b e2 m2).toRat)

/-- Float64 multiplication. -/
def mul : F64 → F64 → F64
  | nan, _ => nan
  | _, nan => nan
  | inf a, inf b => inf (xor a b)
  | inf a, fin b e m => if (fin b e m).isZero then nan else inf (xor a b)
  | fin a e m, inf b => if (fin a e m).isZero then nan else inf (xor a b)
  | fin a e m, fin b e2 m2 => round (xor a b) ((fin a e m).toRat * (fin b e2 m2).toRat)

/-- Float64 division. -/
def div : F64 → F64 → F64
  | nan, _ => nan
  | _, nan => nan
  | inf _, inf _ => nan
  | inf a, fin b _ _ => inf (xor a b)
  | fin a _ _, inf b =>
    fin (xor a b) (mkFin 2047 (by decide) 0) (mkFin 4503599627370496 (by decide) 0)
  | fin a e m, fin b e2 m2 =>
    if (fin b e2 m2).isZero then
      (if (fin a e m).isZero then nan else inf (xor a b))
    else round (xor a b) ((fin a e m).toRat / (fin b e2 m2).toRat)

/-- Conversion of an integer to float64: float64(n). -/
def ofInt (n : Int) : F64 := round false (n : ℚ)

/-- Truncation of a rational towards zero. -/
def truncQ (q : ℚ) : Int := if 0 ≤ q then ⌊q⌋ else -⌊-q⌋

/-- Conversion float64 to int64.  The fraction is discarded; when the value does not fit
(NaN and the infinities included) Go leaves the result implementation-dependent: it is
the parameter oor (the minimum int64 on amd64, a saturated value on arm64). -/
def toInt64 (oor : Int) : F64 → Int
  | fin a e m =>
    if -9223372036854775808 ≤ truncQ (fin a e m).toRat
        ∧ truncQ (fin a e m).toRat ≤ 9223372036854775807 then
      truncQ (fin a e m).toRat
    else oor
  | _ => oor

/-- Go builtin min on float64: NaN if either argument is NaN, and negative zero is
smaller than positive zero. -/
def fmin (x y : F64) : F64 :=
  if x.isNaN || y.isNaN then nan
  else if x.isZero && y.isZero then (if x.sign then x else y)
  else if lt x y then x else y

/-- Two floats denote the same value: both NaN, or equal under Go ==. -/
def same (x y : F64) : Bool := (x.isNaN && y.isNaN) || eq x y

/-- The constant math.MaxFloat64. -/
def maxFloat64 : F64 :=
  fin false (mkFin 2047 (by decide) 2046)
    (mkFin 4503599627370496 (by decide) 4503599627370495)

end F64

/-! ## time.Duration and time.Time (Go standard library) -/

/-- A time.Duration: a count of nanoseconds (an int64 in Go). -/
abbrev Duration := Int

/-- The constant time.Second, in nanoseconds. -/
def Second : Duration := 1000000000

/-- The constant math.MaxInt64. -/
def MaxInt64 : Int := 9223372036854775807

/-- The constant math.MinInt64. -/
def MinInt64 : Int := -9223372036854775808

/-- Method Duration.Seconds of the time package:
sec := d / Second; nsec := d % Second; return float64(sec) + float64(nsec)/1e9
(Go integer division and remainder truncate towards zero). -/
def Duration.Seconds (d : Duration) : F64 :=
  F64.add (F64.ofInt (Int.tdiv d Second))
    (F64.div (F64.ofInt (Int.tmod d Second)) (F64.ofInt 1000000000))

/-- A time.Time, as the instant it denotes: nanoseconds since January 1, year 1, 00:00:00
UTC, which is the zero value of time.Time.  The location and the monotonic clock reading
are not modelled: all instants lie on one time line. -/
structure Time where
  ns : Int
  deriving DecidableEq, Repr

/-- Method Time.Before: t is strictly before u. -/
def Time.Before (t u : Time) : Bool := decide (t.ns < u.ns)

/-- Method Time.Sub: the duration t - u, saturated at the least and greatest Duration
as the time package documents. -/
def Time.Sub (t u : Time) : Duration :=
  if t.ns - u.ns < MinInt64 then MinInt64
  else if MaxInt64 < t.ns - u.ns then MaxInt64
  else t.ns - u.ns

/-! ## limit.go -/

/-- Type Limit of limit.go: a float64 number of events per second. -/
abbrev Limit := F64

/-- Constant Inf = Limit(math.MaxFloat64). -/
def Inf : Limit := F64.maxFloat64

/-- Constant InfDuration = time.Duration(math.MaxInt64). -/
def InfDuration : Duration := MaxInt64

/-- Method Limit.tokensFormDuration of limit.go. -/
def tokensFormDuration (limit : Limit) (d : Duration) : F64 :=
  if F64.le limit F64.zero then F64.zero
  else F64.mul (Duration.Seconds d) limit

/-- Method Limit.durationFormTokens of limit.go.  The parameter oor is the
implementation-dependent result of an out-of-range float64 to int64 conversion. -/
def durationFormTokens (oor : Int) (limit : Limit) (tokens : F64) : Duration :=
  if F64.le limit F64.zero then InfDuration
  else
    let duration := F64.mul (F64.div tokens limit) (F64.ofInt Second)
    if F64.gt duration (F64.ofInt MaxInt64) then InfDuration
    else F64.toInt64 oor duration

/-! ## rate.go -/

/-- Function Every of rate.go. -/
def Every (interval : Duration) : Limit :=
  if interval ≤ 0 then Inf
  else F64.div (F64.ofInt 1) (Duration.Seconds interval)

/-- A Go int (64 bits wide). -/
abbrev GoInt := { z : Int // -9223372036854775808 ≤ z ∧ z ≤ 9223372036854775807 }

/-- Struct Limiter of rate.go.  The field mu records whether the mutex is held. -/
structure Limiter where
  mu : Bool
  limit : Limit
  burst : GoInt
  tokens : F64
  last : Time
  lastEvent : Time
  deriving DecidableEq

/-- Acquire the mutex: Lock returns with the mutex held. -/
def Limiter.Lock (lim : Limiter) : Limiter := { lim with mu := true }

/-- Release the mutex. -/
def Limiter.Unlock (lim : Limiter) : Limiter := { lim with mu := false }

/-- Function NewLimiter of rate.go: the fields not named in the composite literal take
their zero values. -/
def NewLimiter (r : Limit) (b : GoInt) : Limiter :=
  { mu := false, limit := r, burst := b, tokens := F64.ofInt b.val,
    last := ⟨0⟩, lastEvent := ⟨0⟩ }

/-- Method Limiter.advance of rate.go: the token count at time t; lim is only read. -/
def Limiter.advance (lim : Limiter) (t : Time) : F64 :=
  let last := if t.Before lim.last then t else lim.last
  let elapsed := t.Sub last
  let delta := tokensFormDuration lim.limit elapsed
  let tokens := F64.add lim.tokens delta
  let burst := F64.ofInt lim.burst.val
  if F64.gt tokens burst then burst else tokens

/-- Method Limiter.TokensAt of rate.go, as a state transformer: the returned value and the
limiter after the call (Lock, advance, deferred Unlock). -/
def Limiter.TokensAt (lim : Limiter) (t : Time) : F64 × Limiter :=
  let lim1 := lim.Lock
  let tokens := lim1.advance t
  (tokens, lim1.Unlock)

/-- Method Limiter.Tokens of rate.go; now is the reading of time.Now(). -/
def Limiter.Tokens (lim : Limiter) (now : Time) : F64 × Limiter :=
  lim.TokensAt now

/-- Method Limiter.Limit of rate.go, as a state transformer. -/
def Limiter.Limit (lim : Limiter) : Limit × Limiter :=
  let lim1 := lim.Lock
  (lim1.limit, lim1.Unlock)

/-- Method Limiter.Burst of rate.go, as a state transformer. -/
def Limiter.Burst (lim : Limiter) : GoInt × Limiter :=
  let lim1 := lim.Lock
  (lim1.burst, lim1.Unlock)

/-- Projection of section 4.2 of the specification:
min(tokens + tokensForDuration(rate, t - last), burst), the reference instant being t
itself when t is before the last update. -/
def advanceSpec (lim : Limiter) (t : Time) : F64 :=
  F64.fmin
    (F64.add lim.tokens
      (tokensFormDuration lim.limit (t.Sub (if t.Before lim.last then t else lim.last))))
    (F64.ofInt lim.burst.val)

/-! ## Constants of the rounding analysis -/

/-- The unit roundoff of float64, 2 ^ (-53): the relative error of one rounding. -/
def unitRoundoff : ℚ := 1 / 9007199254740992

/-- The largest float64 below 1, which is 1 - 2 ^ (-53). -/
def predOne : F64 :=
  F64.fin false (mkFin 2047 (by decide) 1022)
    (mkFin 4503599627370496 (by decide) 4503599627370495)

/-! ## Concrete inputs used by the closed statements below -/

/-- A burst of one token. -/
def burstOne : GoInt := ⟨1, by decide⟩

/-- A burst of three tokens. -/
def burstThree : GoInt := ⟨3, by decide⟩

/-- The limiter NewLimiter(NaN, 1). -/
def nanLimiter : Limiter := NewLimiter F64.nan burstOne

/-- A limiter of rate 2 per second and burst 3, empty at the zero time. -/
def sampleLimiter : Limiter :=
  { mu := false, limit := F64.ofInt 2, burst := burstThree, tokens := F64.zero,
    last := ⟨0⟩, lastEvent := ⟨0⟩ }

/-- A limiter with the closed rate 0, holding one token of a burst of three. -/
def closedLimiter : Limiter :=
  { mu := false, limit := F64.zero, burst := burstThree, tokens := F64.ofInt 1,
    last := ⟨0⟩, lastEvent := ⟨0⟩ }

/-- A burst of minus one token. -/
def burstNegOne : GoInt := ⟨-1, by decide⟩

/-- A limiter with the unlimited rate Inf and burst 3, empty at the zero time. -/
def unlimitedLimiter : Limiter :=
  { mu := false, limit := Inf, burst := burstThree, tokens := F64.zero,
    last := ⟨0⟩, lastEvent := ⟨0⟩ }

/-- A limiter of rate Every(1s) and burst 3, empty at the zero time. -/
def everyLimiter : Limiter :=
  { mu := false, limit := Every 1000000000, burst := burstThree, tokens := F64.zero,
    last := ⟨0⟩, lastEvent := ⟨0⟩ }

/-- A limiter of rate Every(3ns) and burst 3, empty at the zero time. -/
def everyThreeLimiter : Limiter :=
  { mu := false, limit := Every 3, burst := burstThree, tokens := F64.zero,
    last := ⟨0⟩, lastEvent := ⟨0⟩ }

/-- The limiter NewLimiter(+Inf, 1), whose rate is the IEEE infinity. -/
def infLimiter : Limiter := NewLimiter (F64.inf false) burstOne

/-! # Theory of the float64 model -/

/-! ### Powers of two and the binary logarithm -/

theorem two_zpow_pos (k : ℤ) : (0 : ℚ) < (2 : ℚ) ^ k := zpow_pos (by norm_num) k

theorem two_zpow_le {a b : ℤ} (h : a ≤ b) : (2 : ℚ) ^ a ≤ (2 : ℚ) ^ b :=
  zpow_le_zpow_right₀ (by norm_num) h

theorem two_zpow_lt {a b : ℤ} (h : a < b) : (2 : ℚ) ^ a < (2 : ℚ) ^ b :=
  zpow_lt_zpow_right₀ (by norm_num) h

theorem two_zpow_succ (k : ℤ) : (2 : ℚ) ^ (k + 1) = 2 * (2 : ℚ) ^ k := by
  rw [zpow_add_one₀ (by norm_num : (2 : ℚ) ≠ 0)]; ring

theorem two_zpow_sub (a b : ℤ) : (2 : ℚ) ^ (a - b) = (2 : ℚ) ^ a / (2 : ℚ) ^ b :=
  zpow_sub₀ (by norm_num) a b

theorem two_zpow_add (a b : ℤ) : (2 : ℚ) ^ (a + b) = (2 : ℚ) ^ a * (2 : ℚ) ^ b :=
  zpow_add₀ (by norm_num) a b

theorem bitLenAux_spec : ∀ (f n : Nat), n ≤ f →
    n < 2 ^ bitLenAux f n ∧ (n ≠ 0 → 0 < bitLenAux f n ∧ 2 ^ (bitLenAux f n - 1) ≤ n) := by
  intro f
  induction f with
  | zero =>
    intro n hn
    have : n = 0 := by omega
    subst this
    simp [bitLenAux]
  | succ f ih =>
    intro n hn
    by_cases h0 : n = 0
    · subst h0; simp [bitLenAux]
    · have hle : n / 2 ≤ f := by omega
      obtain ⟨h1, h2⟩ := ih (n / 2) hle
      simp only [bitLenAux, h0, if_false]
      refine ⟨?_, fun _ => ⟨by omega, ?_⟩⟩
      · rw [pow_succ]; omega
      · simp only [Nat.add_sub_cancel]
        by_cases h3 : n / 2 = 0
        · have hb : bitLenAux f (n / 2) = 0 := by
            rw [h3]; cases f <;> simp [bitLenAux]
          rw [hb]; simp; omega
        · obtain ⟨h4, h5⟩ := h2 h3
          have : 2 ^ bitLenAux f (n / 2) = 2 ^ (bitLenAux f (n / 2) - 1) * 2 := by
            rw [← pow_succ]; congr 1; omega
          omega

theorem bitLen_lt (n : Nat) : n < 2 ^ bitLen n := (bitLenAux_spec n n le_rfl).1

theorem bitLen_pos {n : Nat} (h : n ≠ 0) : 0 < bitLen n := ((bitLenAux_spec n n le_rfl).2 h).1

theorem bitLen_le {n : Nat} (h : n ≠ 0) : 2 ^ (bitLen n - 1) ≤ n :=
  ((bitLenAux_spec n n le_rfl).2 h).2

/-- The number ilog2 q brackets a positive rational between consecutive powers of two. -/
theorem ilog2_spec {q : ℚ} (hq : 0 < q) :
    (2 : ℚ) ^ (ilog2 q) ≤ q ∧ q < (2 : ℚ) ^ (ilog2 q + 1) := by
  have hn : 0 < q.num := Rat.num_pos.mpr hq
  have hd : 0 < q.den := q.den_pos
  have hnn : q.num.natAbs ≠ 0 := by omega
  have hdn : q.den ≠ 0 := by omega
  set a := bitLen q.num.natAbs with ha
  set b := bitLen q.den with hb
  have ha1 := bitLen_lt q.num.natAbs
  have ha2 := bitLen_le hnn
  have ha3 := bitLen_pos hnn
  have hb1 := bitLen_lt q.den
  have hb2 := bitLen_le hdn
  have hb3 := bitLen_pos hdn
  rw [← ha] at ha1 ha2 ha3
  rw [← hb] at hb1 hb2 hb3
  have hqe : q = (q.num.natAbs : ℚ) / (q.den : ℚ) := by
    have h1 : ((q.num.natAbs : ℕ) : ℚ) = (q.num : ℚ) := by
      rw [← Int.cast_natCast, Int.natAbs_of_nonneg hn.le]
    rw [h1]; exact (Rat.num_div_den q).symm
  have hdq : (0 : ℚ) < (q.den : ℚ) := by exact_mod_cast hd
  -- numerator and denominator bounds in ℚ
  have n_lt : (q.num.natAbs : ℚ) < (2 : ℚ) ^ (a : ℤ) := by
    rw [zpow_natCast]; exact_mod_cast ha1
  have n_ge : (2 : ℚ) ^ ((a : ℤ) - 1) ≤ (q.num.natAbs : ℚ) := by
    have : ((a : ℤ) - 1) = ((a - 1 : ℕ) : ℤ) := by omega
    rw [this, zpow_natCast]; exact_mod_cast ha2
  have d_lt : (q.den : ℚ) < (2 : ℚ) ^ (b : ℤ) := by
    rw [zpow_natCast]; exact_mod_cast hb1
  have d_ge : (2 : ℚ) ^ ((b : ℤ) - 1) ≤ (q.den : ℚ) := by
    have : ((b : ℤ) - 1) = ((b - 1 : ℕ) : ℤ) := by omega
    rw [this, zpow_natCast]; exact_mod_cast hb2
  have hb0 := two_zpow_pos (b : ℤ)
  have hb10 := two_zpow_pos ((b : ℤ) - 1)
  -- q < 2 ^ (a - b + 1)
  have up : q < (2 : ℚ) ^ ((a : ℤ) - b + 1) := by
    have e : ((a : ℤ) - b + 1) = (a : ℤ) - ((b : ℤ) - 1) := by ring
    rw [e, two_zpow_sub, hqe, div_lt_div_iff₀ hdq hb10]
    calc (q.num.natAbs : ℚ) * (2 : ℚ) ^ ((b : ℤ) - 1)
        ≤ (q.num.natAbs : ℚ) * (q.den : ℚ) := by
          apply mul_le_mul_of_nonneg_left d_ge; positivity
      _ < (2 : ℚ) ^ (a : ℤ) * (q.den : ℚ) := by
          apply mul_lt_mul_of_pos_right n_lt hdq
  -- 2 ^ (a - b - 1) ≤ q
  have lo : (2 : ℚ) ^ ((a : ℤ) - b - 1) ≤ q := by
    have e : ((a : ℤ) - b - 1) = ((a : ℤ) - 1) - (b : ℤ) := by ring
    rw [e, two_zpow_sub, hqe, div_le_div_iff₀ hb0 hdq]
    calc (2 : ℚ) ^ ((a : ℤ) - 1) * (q.den : ℚ)
        ≤ (q.num.natAbs : ℚ) * (q.den : ℚ) := by
          apply mul_le_mul_of_nonneg_right n_ge hdq.le
      _ ≤ (q.num.natAbs : ℚ) * (2 : ℚ) ^ (b : ℤ) := by
          apply mul_le_mul_of_nonneg_left d_lt.le; positivity
  unfold ilog2
  simp only [← ha, ← hb]
  split_ifs with h
  · exact ⟨h, up⟩
  · refine ⟨lo, ?_⟩
    have e : ((a : ℤ) - b - 1 + 1) = (a : ℤ) - b := by ring
    rw [e]; exact lt_of_not_le h

theorem ilog2_unique {q : ℚ} {k : ℤ} (hq : 0 < q) (h1 : (2 : ℚ) ^ k ≤ q)
    (h2 : q < (2 : ℚ) ^ (k + 1)) : ilog2 q = k := by
  obtain ⟨s1, s2⟩ := ilog2_spec hq
  have a1 : (2 : ℚ) ^ k < (2 : ℚ) ^ (ilog2 q + 1) := lt_of_le_of_lt h1 s2
  have a2 : (2 : ℚ) ^ (ilog2 q) < (2 : ℚ) ^ (k + 1) := lt_of_le_of_lt s1 h2
  rw [zpow_lt_zpow_iff_right₀ (by norm_num : (1 : ℚ) < 2)] at a1 a2
  omega

theorem ilog2_mono {p q : ℚ} (hp : 0 < p) (hpq : p ≤ q) : ilog2 p ≤ ilog2 q := by
  obtain ⟨s1, _⟩ := ilog2_spec hp
  obtain ⟨_, t2⟩ := ilog2_spec (lt_of_lt_of_le hp hpq)
  have : (2 : ℚ) ^ (ilog2 p) < (2 : ℚ) ^ (ilog2 q + 1) :=
    lt_of_le_of_lt (le_trans s1 hpq) t2
  rw [zpow_lt_zpow_iff_right₀ (by norm_num : (1 : ℚ) < 2)] at this
  omega

theorem le_ilog2 {q : ℚ} {k : ℤ} (hq : 0 < q) (h : (2 : ℚ) ^ k ≤ q) : k ≤ ilog2 q := by
  obtain ⟨_, t2⟩ := ilog2_spec hq
  have : (2 : ℚ) ^ k < (2 : ℚ) ^ (ilog2 q + 1) := lt_of_le_of_lt h t2
  rw [zpow_lt_zpow_iff_right₀ (by norm_num : (1 : ℚ) < 2)] at this
  omega

theorem ilog2_lt {q : ℚ} {k : ℤ} (hq : 0 < q) (h : q < (2 : ℚ) ^ k) : ilog2 q < k := by
  obtain ⟨s1, _⟩ := ilog2_spec hq
  have : (2 : ℚ) ^ (ilog2 q) < (2 : ℚ) ^ k := lt_of_le_of_lt s1 h
  rwa [zpow_lt_zpow_iff_right₀ (by norm_num : (1 : ℚ) < 2)] at this

/-! ## Rounding to the nearest integer and to 53 significant bits -/

theorem rne_intCast (z : ℤ) : rne (z : ℚ) = z := by
  unfold rne
  simp

theorem rne_cases (x : ℚ) : rne x = ⌊x⌋ ∨ rne x = ⌊x⌋ + 1 := by
  unfold rne
  split_ifs <;> simp

theorem rne_mono {x y : ℚ} (h : x ≤ y) : rne x ≤ rne y := by
  have hf : ⌊x⌋ ≤ ⌊y⌋ := Int.floor_mono h
  rcases lt_or_eq_of_le hf with hlt | heq
  · rcases rne_cases x with h1 | h1 <;> rcases rne_cases y with h2 | h2 <;> omega
  · have hxy : x - (⌊x⌋ : ℚ) ≤ y - (⌊y⌋ : ℚ) := by rw [heq]; linarith
    unfold rne
    rw [heq]
    rw [heq] at hxy
    split_ifs <;> first | omega | (exfalso; linarith)

theorem rne_nonneg {x : ℚ} (h : 0 ≤ x) : 0 ≤ rne x := by
  have := rne_mono h
  rwa [show ((0 : ℚ)) = ((0 : ℤ) : ℚ) by simp, rne_intCast] at this

theorem rne_le_of_le_int {x : ℚ} {z : ℤ} (h : x ≤ (z : ℚ)) : rne x ≤ z := by
  have := rne_mono h
  rwa [rne_intCast] at this

theorem le_rne_of_int_le {x : ℚ} {z : ℤ} (h : (z : ℚ) ≤ x) : z ≤ rne x := by
  have := rne_mono h
  rwa [rne_intCast] at this

theorem zp52 (k : ℤ) :
    (2 : ℚ) ^ k = ((4503599627370496 : ℤ) : ℚ) * (2 : ℚ) ^ (k - 52) := by
  have h : k = 52 + (k - 52) := by ring
  have e : (2 : ℚ) ^ k = (2 : ℚ) ^ (52 : ℤ) * (2 : ℚ) ^ (k - 52) := by
    rw [← two_zpow_add, ← h]
  rw [e]; norm_num

theorem zp53 (k : ℤ) :
    (2 : ℚ) ^ (k + 1) = ((9007199254740992 : ℤ) : ℚ) * (2 : ℚ) ^ (k - 52) := by
  have h : k + 1 = 53 + (k - 52) := by ring
  have e : (2 : ℚ) ^ (k + 1) = (2 : ℚ) ^ (53 : ℤ) * (2 : ℚ) ^ (k - 52) := by
    rw [← two_zpow_add, ← h]
  rw [e]; norm_num

theorem expOf_ge (q : ℚ) : -1022 ≤ expOf q := le_max_right _ _

theorem expOf_mono {p q : ℚ} (hp : 0 < p) (hpq : p ≤ q) : expOf p ≤ expOf q :=
  max_le_max (ilog2_mono hp hpq) le_rfl

/-- Below the top of its binade. -/
theorem lt_expOf {q : ℚ} (hq : 0 < q) : q < (2 : ℚ) ^ (expOf q + 1) := by
  obtain ⟨_, h2⟩ := ilog2_spec hq
  refine lt_of_lt_of_le h2 (two_zpow_le ?_)
  have := le_max_left (ilog2 q) (-1022)
  unfold expOf; omega

theorem scaled_lt {q : ℚ} (hq : 0 < q) :
    q / (2 : ℚ) ^ (expOf q - 52) < ((9007199254740992 : ℤ) : ℚ) := by
  have hp := two_zpow_pos (expOf q - 52)
  rw [div_lt_iff₀ hp]
  have h := lt_expOf hq
  have e := zp53 (expOf q)
  rwa [e] at h

theorem scaled_ge {q : ℚ} (hq : 0 < q) (hn : -1022 ≤ ilog2 q) :
    ((4503599627370496 : ℤ) : ℚ) ≤ q / (2 : ℚ) ^ (expOf q - 52) := by
  have hp := two_zpow_pos (expOf q - 52)
  rw [le_div_iff₀ hp]
  obtain ⟨h1, _⟩ := ilog2_spec hq
  have he : expOf q = ilog2 q := max_eq_left hn
  have e : (2 : ℚ) ^ (ilog2 q) = ((4503599627370496 : ℤ) : ℚ) * (2 : ℚ) ^ (expOf q - 52) := by
    rw [← he]; exact zp52 _
  rwa [e] at h1

theorem scaled_lt_sub {q : ℚ} (hq : 0 < q) (hn : ilog2 q < -1022) :
    q / (2 : ℚ) ^ (expOf q - 52) < ((4503599627370496 : ℤ) : ℚ) := by
  have hp := two_zpow_pos (expOf q - 52)
  rw [div_lt_iff₀ hp]
  obtain ⟨_, h2⟩ := ilog2_spec hq
  have he : expOf q = -1022 := max_eq_right (by omega)
  have h3 : q < (2 : ℚ) ^ (-1022 : ℤ) := lt_of_lt_of_le h2 (two_zpow_le (by omega))
  have e : (2 : ℚ) ^ (-1022 : ℤ) = ((4503599627370496 : ℤ) : ℚ) * (2 : ℚ) ^ (expOf q - 52) := by
    rw [← he]; exact zp52 _
  rwa [e] at h3

theorem rne_scaled_le {q : ℚ} (hq : 0 < q) :
    rne (q / (2 : ℚ) ^ (expOf q - 52)) ≤ 9007199254740992 :=
  rne_le_of_le_int (scaled_lt hq).le

theorem rne_scaled_ge {q : ℚ} (hq : 0 < q) (hn : -1022 ≤ ilog2 q) :
    4503599627370496 ≤ rne (q / (2 : ℚ) ^ (expOf q - 52)) :=
  le_rne_of_int_le (scaled_ge hq hn)

theorem rne_scaled_le_sub {q : ℚ} (hq : 0 < q) (hn : ilog2 q < -1022) :
    rne (q / (2 : ℚ) ^ (expOf q - 52)) ≤ 4503599627370496 :=
  rne_le_of_le_int (scaled_lt_sub hq hn).le

theorem rne_scaled_nonneg {q : ℚ} (hq : 0 < q) :
    0 ≤ rne (q / (2 : ℚ) ^ (expOf q - 52)) :=
  rne_nonneg (div_nonneg hq.le (two_zpow_pos _).le)

theorem magVal_nonneg {q : ℚ} (hq : 0 < q) : 0 ≤ magVal q := by
  unfold magVal
  apply mul_nonneg _ (two_zpow_pos _).le
  exact_mod_cast rne_scaled_nonneg hq

theorem magVal_le_top {q : ℚ} (hq : 0 < q) : magVal q ≤ (2 : ℚ) ^ (expOf q + 1) := by
  unfold magVal
  have e := zp53 (expOf q)
  rw [e]
  apply mul_le_mul_of_nonneg_right _ (two_zpow_pos _).le
  exact_mod_cast rne_scaled_le hq

theorem magVal_ge_bot {q : ℚ} (hq : 0 < q) (hn : -1022 ≤ ilog2 q) :
    (2 : ℚ) ^ (expOf q) ≤ magVal q := by
  unfold magVal
  have e := zp52 (expOf q)
  rw [e]
  apply mul_le_mul_of_nonneg_right _ (two_zpow_pos _).le
  exact_mod_cast rne_scaled_ge hq hn

/-- Rounding a positive magnitude is monotone. -/
theorem magVal_mono {p q : ℚ} (hp : 0 < p) (hpq : p ≤ q) : magVal p ≤ magVal q := by
  have hq : 0 < q := lt_of_lt_of_le hp hpq
  rcases lt_or_eq_of_le (expOf_mono hp hpq) with hlt | heq
  · -- different binades
    have hn : -1022 ≤ ilog2 q := by
      by_contra hc
      have : expOf q = -1022 := max_eq_right (by omega)
      have := expOf_ge p
      omega
    calc magVal p ≤ (2 : ℚ) ^ (expOf p + 1) := magVal_le_top hp
      _ ≤ (2 : ℚ) ^ (expOf q) := two_zpow_le (by omega)
      _ ≤ magVal q := magVal_ge_bot hq hn
  · unfold magVal
    rw [heq]
    apply mul_le_mul_of_nonneg_right _ (two_zpow_pos _).le
    have : rne (p / (2 : ℚ) ^ (expOf q - 52)) ≤ rne (q / (2 : ℚ) ^ (expOf q - 52)) :=
      rne_mono (div_le_div_of_nonneg_right hpq (two_zpow_pos _).le)
    exact_mod_cast this

theorem rext_zero : rext 0 = 0 := by simp [rext]

theorem rext_nonneg {q : ℚ} (hq : 0 ≤ q) : 0 ≤ rext q := by
  unfold rext
  split_ifs with h1 h2
  · exact le_rfl
  · exact absurd h2 (not_lt.mpr hq)
  · have : 0 < q := lt_of_le_of_ne hq (Ne.symm h1)
    exact le_min (magVal_nonneg this) (two_zpow_pos _).le

theorem rext_nonpos {q : ℚ} (hq : q ≤ 0) : rext q ≤ 0 := by
  unfold rext
  split_ifs with h1 h2
  · exact le_rfl
  · have : 0 < -q := by linarith
    have := le_min (magVal_nonneg this) (two_zpow_pos (1024 : ℤ)).le
    linarith
  · exact absurd (lt_of_le_of_ne hq h1) h2

/-- Rounding is monotone. -/
theorem rext_mono {p q : ℚ} (h : p ≤ q) : rext p ≤ rext q := by
  rcases lt_trichotomy q 0 with hq | hq | hq
  · -- both negative
    have hp : p < 0 := lt_of_le_of_lt h hq
    unfold rext
    rw [if_neg hp.ne, if_pos hp, if_neg hq.ne, if_pos hq]
    have : magVal (-q) ≤ magVal (-p) := magVal_mono (by linarith) (by linarith)
    have := min_le_min_right ((2 : ℚ) ^ (1024 : ℤ)) this
    linarith
  · subst hq
    rw [rext_zero]; exact rext_nonpos h
  · rcases le_or_lt p 0 with hp | hp
    · exact le_trans (rext_nonpos hp) (rext_nonneg hq.le)
    · unfold rext
      rw [if_neg hp.ne', if_neg (not_lt.mpr hp.le), if_neg hq.ne', if_neg (not_lt.mpr hq.le)]
      exact min_le_min_right _ (magVal_mono hp h)

theorem rext_le_top (q : ℚ) : rext q ≤ (2 : ℚ) ^ (1024 : ℤ) := by
  unfold rext
  have := (two_zpow_pos (1024 : ℤ)).le
  split_ifs with h1 h2
  · exact this
  · have : 0 < -q := by linarith
    have := le_min (magVal_nonneg this) (two_zpow_pos (1024 : ℤ)).le
    linarith
  · exact min_le_right _ _

theorem rext_ge_bot (q : ℚ) : -(2 : ℚ) ^ (1024 : ℤ) ≤ rext q := by
  unfold rext
  have := (two_zpow_pos (1024 : ℤ)).le
  split_ifs with h1 h2
  · linarith
  · have := min_le_right (magVal (-q)) ((2 : ℚ) ^ (1024 : ℤ))
    linarith
  · have hq : 0 < q := lt_of_le_of_ne (not_lt.mp h2) (Ne.symm h1)
    have := le_min (magVal_nonneg hq) (two_zpow_pos (1024 : ℤ)).le
    linarith

theorem rext_neg (q : ℚ) : rext (-q) = -rext q := by
  unfold rext
  rcases lt_trichotomy q 0 with hq | hq | hq
  · have h1 : ¬ (-q = 0) := by intro h; linarith
    have h2 : ¬ (-q < 0) := by intro h; linarith
    rw [if_neg h1, if_neg h2, if_neg hq.ne, if_pos hq]; simp
  · subst hq; simp
  · have h1 : ¬ (-q = 0) := by intro h; linarith
    have h2 : (-q < 0) := by linarith
    rw [if_neg h1, if_pos h2, if_neg hq.ne', if_neg (not_lt.mpr hq.le)]; simp

/-! ## The rounding function on float64 -/
namespace F64

theorem mkFin_val (n : Nat) (h : 0 < n) (a : Nat) : (mkFin n h a).val = a % n := rfl

theorem mkFin_val_of_lt {n : Nat} (h : 0 < n) {a : Nat} (ha : a < n) :
    (mkFin n h a).val = a := Nat.mod_eq_of_lt ha

theorem mkFin_self {n : Nat} (h : 0 < n) (a : Fin n) : mkFin n h a.val = a :=
  Fin.ext (Nat.mod_eq_of_lt a.isLt)

theorem sgn_cases (neg : Bool) : (if neg = true then (-1 : ℚ) else 1) = -1 ∨
    (if neg = true then (-1 : ℚ) else 1) = 1 := by
  cases neg <;> simp

theorem toRat_fin (neg : Bool) (e : Fin 2047) (m : Fin 4503599627370496) :
    (fin neg e m).toRat =
      (if neg = true then (-1 : ℚ) else 1) * ((fin neg e m).sig : ℚ) * (2 : ℚ) ^ (fin neg e m).ex :=
  rfl

theorem ext_fin (neg : Bool) (e : Fin 2047) (m : Fin 4503599627370496) :
    (fin neg e m).ext = (fin neg e m).toRat := rfl

theorem toRat_mk_normal (neg : Bool) (e1 : ℤ) (M1 : ℕ) (he : -1022 ≤ e1) (he2 : e1 ≤ 1023)
    (hM : 4503599627370496 ≤ M1) (hM2 : M1 < 9007199254740992) :
    (fin neg (mkFin 2047 (by decide) (e1 + 1023).toNat)
      (mkFin 4503599627370496 (by decide) (M1 - 4503599627370496))).toRat
      = (if neg = true then (-1 : ℚ) else 1) * (M1 : ℚ) * (2 : ℚ) ^ (e1 - 52) := by
  have h1 : (mkFin 2047 (by decide) (e1 + 1023).toNat).val = (e1 + 1023).toNat :=
    mkFin_val_of_lt _ (by omega)
  have h2 : (mkFin 4503599627370496 (by decide) (M1 - 4503599627370496)).val
      = M1 - 4503599627370496 := mkFin_val_of_lt _ (by omega)
  have h3 : (e1 + 1023).toNat ≠ 0 := by omega
  rw [toRat_fin]
  simp only [sig, ex, h1, h2, h3, if_false]
  have h4 : 4503599627370496 + (M1 - 4503599627370496) = M1 := by omega
  have h5 : (((e1 + 1023).toNat : ℕ) : ℤ) - 1075 = e1 - 52 := by omega
  rw [h4, h5]

theorem toRat_mk_sub (neg : Bool) (M1 : ℕ) (hM : M1 < 4503599627370496) :
    (fin neg (mkFin 2047 (by decide) 0) (mkFin 4503599627370496 (by decide) M1)).toRat
      = (if neg = true then (-1 : ℚ) else 1) * (M1 : ℚ) * (2 : ℚ) ^ (-1074 : ℤ) := by
  have h2 : (mkFin 4503599627370496 (by decide) M1).val = M1 := mkFin_val_of_lt _ hM
  have h1 : (mkFin 2047 (by decide) 0).val = 0 := rfl
  rw [toRat_fin]
  simp only [sig, ex, h1, h2, if_true]

theorem pack_def (neg : Bool) (e : ℤ) (M : ℕ) : pack neg e M =
    (if 1023 < (if M = 9007199254740992 then e + 1 else e) then inf neg
     else if (if M = 9007199254740992 then 4503599627370496 else M) < 4503599627370496 then
      fin neg (mkFin 2047 (by decide) 0)
        (mkFin 4503599627370496 (by decide)
          (if M = 9007199254740992 then 4503599627370496 else M))
     else
      fin neg (mkFin 2047 (by decide)
          ((if M = 9007199254740992 then e + 1 else e) + 1023).toNat)
        (mkFin 4503599627370496 (by decide)
          ((if M = 9007199254740992 then 4503599627370496 else M) - 4503599627370496))) := rfl

/-- Value, sign and class of the rounding of a positive magnitude. -/
theorem ofMag_spec (neg : Bool) {q : ℚ} (hq : 0 < q) :
    (ofMag neg q).isNaN = false ∧ (ofMag neg q).sign = neg ∧
      (ofMag neg q).ext
        = (if neg = true then (-1 : ℚ) else 1) * min (magVal q) ((2 : ℚ) ^ (1024 : ℤ)) := by
  have hR0 := rne_scaled_nonneg hq
  have hR1 := rne_scaled_le hq
  have hge := expOf_ge q
  set R := rne (q / (2 : ℚ) ^ (expOf q - 52)) with hR
  have hMR : ((R.toNat : ℕ) : ℤ) = R := Int.toNat_of_nonneg hR0
  have hMQ : ((R.toNat : ℕ) : ℚ) = (R : ℚ) := by
    have h := congrArg (Int.cast : ℤ → ℚ) hMR
    rw [Int.cast_natCast] at h
    exact h
  have hmv : magVal q = (R : ℚ) * (2 : ℚ) ^ (expOf q - 52) := rfl
  have hdef : ofMag neg q = pack neg (expOf q) R.toNat := rfl
  rw [hdef, pack_def]
  by_cases hM : R.toNat = 9007199254740992
  · -- carry into the next binade
    have hRv : R = 9007199254740992 := by omega
    have hval : magVal q = (2 : ℚ) ^ (expOf q + 1) := by
      rw [hmv, hRv, zp53]
    simp only [hM, if_true]
    by_cases hov : 1023 < expOf q + 1
    · rw [if_pos hov]
      refine ⟨rfl, rfl, ?_⟩
      have : (2 : ℚ) ^ (1024 : ℤ) ≤ magVal q := by
        rw [hval]; exact two_zpow_le (by omega)
      rw [min_eq_right this]
      cases neg <;> simp [ext]
    · rw [if_neg hov, if_neg (by decide)]
      refine ⟨rfl, rfl, ?_⟩
      rw [ext_fin, toRat_mk_normal neg (expOf q + 1) 4503599627370496 (by omega) (by omega)
        (by decide) (by decide)]
      have : magVal q ≤ (2 : ℚ) ^ (1024 : ℤ) := by
        rw [hval]; exact two_zpow_le (by omega)
      rw [min_eq_left this, hval, mul_assoc]
      congr 1
      rw [zp52 (expOf q + 1)]
      norm_num
  · simp only [hM, if_false]
    have hlt : R.toNat < 9007199254740992 := by omega
    by_cases hov : 1023 < expOf q
    · rw [if_pos hov]
      refine ⟨rfl, rfl, ?_⟩
      have hn : -1022 ≤ ilog2 q := by
        by_contra hc
        have : expOf q = -1022 := max_eq_right (by omega)
        omega
      have : (2 : ℚ) ^ (1024 : ℤ) ≤ magVal q :=
        le_trans (two_zpow_le (by omega)) (magVal_ge_bot hq hn)
      rw [min_eq_right this]
      cases neg <;> simp [ext]
    · rw [if_neg hov]
      have htop : magVal q ≤ (2 : ℚ) ^ (1024 : ℤ) :=
        le_trans (magVal_le_top hq) (two_zpow_le (by omega))
      rw [min_eq_left htop]
      by_cases hsub : R.toNat < 4503599627370496
      · rw [if_pos hsub]
        refine ⟨rfl, rfl, ?_⟩
        have hn : ilog2 q < -1022 := by
          by_contra hc
          have := rne_scaled_ge hq (not_lt.mp hc)
          omega
        have he : expOf q = -1022 := max_eq_right (by omega)
        rw [ext_fin, toRat_mk_sub neg _ hsub, hmv, he, hMQ, mul_assoc]
        norm_num
      · rw [if_neg hsub]
        refine ⟨rfl, rfl, ?_⟩
        rw [ext_fin, toRat_mk_normal neg (expOf q) R.toNat hge (by omega) (by omega) hlt,
          hmv, hMQ, mul_assoc]

theorem ofMag_isNaN (neg : Bool) {q : ℚ} (hq : 0 < q) : (ofMag neg q).isNaN = false :=
  (ofMag_spec neg hq).1

theorem round_def (z : Bool) (q : ℚ) : round z q =
    if q = 0 then fin z (mkFin 2047 (by decide) 0) (mkFin 4503599627370496 (by decide) 0)
    else if q < 0 then ofMag true (-q) else ofMag false q := rfl

/-- The rounding of q is a number (not NaN) whose extended value is rext q. -/
theorem round_spec (z : Bool) (q : ℚ) :
    (round z q).isNaN = false ∧ (round z q).ext = rext q := by
  rw [round_def]
  unfold rext
  by_cases h0 : q = 0
  · rw [if_pos h0, if_pos h0]
    refine ⟨rfl, ?_⟩
    rw [ext_fin, toRat_mk_sub z 0 (by decide)]
    simp
  · rw [if_neg h0, if_neg h0]
    by_cases hneg : q < 0
    · rw [if_pos hneg, if_pos hneg]
      obtain ⟨h1, _, h3⟩ := ofMag_spec true (q := -q) (by linarith)
      refine ⟨h1, ?_⟩
      rw [h3]; simp
    · rw [if_neg hneg, if_neg hneg]
      have hq : 0 < q := lt_of_le_of_ne (not_lt.mp hneg) (Ne.symm h0)
      obtain ⟨h1, _, h3⟩ := ofMag_spec false hq
      refine ⟨h1, ?_⟩
      rw [h3]; simp

theorem round_isNaN (z : Bool) (q : ℚ) : (round z q).isNaN = false := (round_spec z q).1

theorem round_ext (z : Bool) (q : ℚ) : (round z q).ext = rext q := (round_spec z q).2

theorem round_sign_of_pos (z : Bool) {q : ℚ} (hq : 0 < q) : (round z q).sign = false := by
  rw [round_def, if_neg hq.ne', if_neg (not_lt.mpr hq.le)]
  exact (ofMag_spec false hq).2.1

theorem round_sign_of_neg (z : Bool) {q : ℚ} (hq : q < 0) : (round z q).sign = true := by
  rw [round_def, if_neg hq.ne, if_pos hq]
  exact (ofMag_spec true (q := -q) (by linarith)).2.1

theorem round_sign_zero (z : Bool) : (round z 0).sign = z := by
  rw [round_def, if_pos rfl]; rfl

end F64

/-! ## Finite values are fixed points of rounding -/
namespace F64

theorem fin_congr {neg : Bool} {e e2 : Fin 2047} {m m2 : Fin 4503599627370496}
    (he : e = e2) (hm : m = m2) : fin neg e m = fin neg e2 m2 := by
  subst he; subst hm; rfl

theorem sig_lt (neg : Bool) (e : Fin 2047) (m : Fin 4503599627370496) :
    (fin neg e m).sig < 9007199254740992 := by
  have := m.isLt
  simp only [sig]
  split_ifs <;> omega

theorem ex_le (neg : Bool) (e : Fin 2047) (m : Fin 4503599627370496) :
    (fin neg e m).ex ≤ 971 := by
  have := e.isLt
  simp only [ex]
  split_ifs <;> omega

theorem ex_ge (neg : Bool) (e : Fin 2047) (m : Fin 4503599627370496) :
    -1074 ≤ (fin neg e m).ex := by
  simp only [ex]
  split_ifs <;> omega

/-- Magnitude of a finite value. -/
theorem mag_lt (neg : Bool) (e : Fin 2047) (m : Fin 4503599627370496) :
    ((fin neg e m).sig : ℚ) * (2 : ℚ) ^ (fin neg e m).ex < (2 : ℚ) ^ (1024 : ℤ) := by
  have h1 : ((fin neg e m).sig : ℚ) < ((9007199254740992 : ℤ) : ℚ) := by
    exact_mod_cast sig_lt neg e m
  have h2 := ex_le neg e m
  have hp := two_zpow_pos (fin neg e m).ex
  calc ((fin neg e m).sig : ℚ) * (2 : ℚ) ^ (fin neg e m).ex
      < ((9007199254740992 : ℤ) : ℚ) * (2 : ℚ) ^ (fin neg e m).ex :=
        mul_lt_mul_of_pos_right h1 hp
    _ = (2 : ℚ) ^ ((fin neg e m).ex + 53) := by
        rw [two_zpow_add]; norm_num; ring
    _ ≤ (2 : ℚ) ^ (1024 : ℤ) := two_zpow_le (by omega)

theorem toRat_lt_top (neg : Bool) (e : Fin 2047) (m : Fin 4503599627370496) :
    (fin neg e m).toRat < (2 : ℚ) ^ (1024 : ℤ) := by
  have h := mag_lt neg e m
  have h0 : (0 : ℚ) ≤ ((fin neg e m).sig : ℚ) * (2 : ℚ) ^ (fin neg e m).ex :=
    mul_nonneg (by positivity) (two_zpow_pos _).le
  rw [toRat_fin, mul_assoc]
  rcases sgn_cases neg with hs | hs <;> rw [hs] <;> linarith

theorem toRat_gt_bot (neg : Bool) (e : Fin 2047) (m : Fin 4503599627370496) :
    -(2 : ℚ) ^ (1024 : ℤ) < (fin neg e m).toRat := by
  have h := mag_lt neg e m
  have h0 : (0 : ℚ) ≤ ((fin neg e m).sig : ℚ) * (2 : ℚ) ^ (fin neg e m).ex :=
    mul_nonneg (by positivity) (two_zpow_pos _).le
  rw [toRat_fin, mul_assoc]
  rcases sgn_cases neg with hs | hs <;> rw [hs] <;> linarith

theorem pack_sub (neg : Bool) (e : ℤ) {M : ℕ} (hM : M < 4503599627370496) (he : e ≤ 1023) :
    pack neg e M
      = fin neg (mkFin 2047 (by decide) 0) (mkFin 4503599627370496 (by decide) M) := by
  rw [pack_def]
  have h1 : ¬ M = 9007199254740992 := by omega
  simp only [h1, if_false]
  rw [if_neg (by omega), if_pos hM]

theorem pack_normal (neg : Bool) (e : ℤ) {M : ℕ} (hM : 4503599627370496 ≤ M)
    (hM2 : M < 9007199254740992) (he : e ≤ 1023) :
    pack neg e M
      = fin neg (mkFin 2047 (by decide) (e + 1023).toNat)
          (mkFin 4503599627370496 (by decide) (M - 4503599627370496)) := by
  rw [pack_def]
  have h1 : ¬ M = 9007199254740992 := by omega
  simp only [h1, if_false]
  rw [if_neg (by omega), if_neg (by omega)]

/-- A finite float64 is a fixed point of rounding: rounding the value a float denotes
gives that float back. -/
theorem round_toRat (neg : Bool) (e : Fin 2047) (m : Fin 4503599627370496) :
    round neg (fin neg e m).toRat = fin neg e m := by
  have hm := m.isLt
  have he := e.isLt
  by_cases hs : (fin neg e m).sig = 0
  · -- a zero
    have hz : e.val = 0 ∧ m.val = 0 := by
      simp only [sig] at hs
      split_ifs at hs with h <;> first | exact ⟨h, hs⟩ | omega
    have hq : (fin neg e m).toRat = 0 := by rw [toRat_fin, hs]; simp
    rw [hq, round_def, if_pos rfl]
    apply fin_congr
    · exact Fin.ext hz.1.symm
    · exact Fin.ext hz.2.symm
  · have hspos : (0 : ℚ) < ((fin neg e m).sig : ℚ) := by
      have : 0 < (fin neg e m).sig := Nat.pos_of_ne_zero hs
      exact_mod_cast this
    set A : ℚ := ((fin neg e m).sig : ℚ) * (2 : ℚ) ^ (fin neg e m).ex with hA
    have hApos : 0 < A := mul_pos hspos (two_zpow_pos _)
    have hround : round neg (fin neg e m).toRat = ofMag neg A := by
      rw [toRat_fin, mul_assoc, ← hA, round_def]
      cases neg
      · simp only [Bool.false_eq_true, if_false, one_mul]
        rw [if_neg hApos.ne', if_neg (not_lt.mpr hApos.le)]
      · simp only [if_true]
        rw [if_neg (by linarith), if_pos (by linarith)]
        congr 1; ring
    rw [hround]
    by_cases h0 : e.val = 0
    · -- subnormal
      have hsig : (fin neg e m).sig = m.val := by simp [sig, h0]
      have hex : (fin neg e m).ex = -1074 := by simp [ex, h0]
      have hmpos : 0 < m.val := by rw [← hsig]; exact Nat.pos_of_ne_zero hs
      have hAlt : A < (2 : ℚ) ^ (-1022 : ℤ) := by
        rw [hA, hex, zp52 (-1022), hsig]
        have : ((m.val : ℕ) : ℚ) < ((4503599627370496 : ℤ) : ℚ) := by exact_mod_cast hm
        have := mul_lt_mul_of_pos_right this (two_zpow_pos (-1074 : ℤ))
        norm_num at this ⊢
        exact this
      have hlog : ilog2 A < -1022 := ilog2_lt hApos hAlt
      have hexp : expOf A = -1022 := max_eq_right (by omega)
      have hsc : A / (2 : ℚ) ^ (expOf A - 52) = ((m.val : ℤ) : ℚ) := by
        rw [hexp, hA, hex, hsig]
        have := two_zpow_pos (-1074 : ℤ)
        norm_num
      have hR : (rne (A / (2 : ℚ) ^ (expOf A - 52))).toNat = m.val := by
        rw [hsc, rne_intCast, Int.toNat_ofNat]
      unfold ofMag
      rw [hR, hexp, pack_sub neg _ hm (by norm_num)]
      apply fin_congr
      · exact Fin.ext h0.symm
      · exact mkFin_self _ m
    · -- normal
      have hsig : (fin neg e m).sig = 4503599627370496 + m.val := by simp [sig, h0]
      have hex : (fin neg e m).ex = (e.val : ℤ) - 1075 := by simp [ex, h0]
      have hAge : (2 : ℚ) ^ ((e.val : ℤ) - 1023) ≤ A := by
        rw [hA, hex, zp52 ((e.val : ℤ) - 1023), hsig]
        have e1 : (e.val : ℤ) - 1023 - 52 = (e.val : ℤ) - 1075 := by ring
        rw [e1]
        apply mul_le_mul_of_nonneg_right _ (two_zpow_pos _).le
        push_cast; 
        have : (0 : ℚ) ≤ (m.val : ℚ) := by positivity
        linarith
      have hAlt : A < (2 : ℚ) ^ ((e.val : ℤ) - 1023 + 1) := by
        rw [hA, hex, zp53 ((e.val : ℤ) - 1023), hsig]
        have e1 : (e.val : ℤ) - 1023 - 52 = (e.val : ℤ) - 1075 := by ring
        rw [e1]
        apply mul_lt_mul_of_pos_right _ (two_zpow_pos _)
        have : ((m.val : ℕ) : ℚ) < 4503599627370496 := by exact_mod_cast hm
        push_cast
        linarith
      have hlog : ilog2 A = (e.val : ℤ) - 1023 := ilog2_unique hApos hAge hAlt
      have hexp : expOf A = (e.val : ℤ) - 1023 := by
        unfold expOf; rw [hlog]; exact max_eq_left (by omega)
      have hsc : A / (2 : ℚ) ^ (expOf A - 52)
          = (((4503599627370496 + m.val : ℕ) : ℤ) : ℚ) := by
        rw [hexp, hA, hex, hsig]
        have e1 : (e.val : ℤ) - 1023 - 52 = (e.val : ℤ) - 1075 := by ring
        rw [e1]
        have := (two_zpow_pos ((e.val : ℤ) - 1075)).ne'
        field_simp
      have hR : (rne (A / (2 : ℚ) ^ (expOf A - 52))).toNat = 4503599627370496 + m.val := by
        rw [hsc, rne_intCast, Int.toNat_ofNat]
      unfold ofMag
      rw [hR, hexp, pack_normal neg _ (by omega) (by omega) (by omega)]
      apply fin_congr
      · apply Fin.ext
        rw [mkFin_val_of_lt _ (by omega)]
        omega
      · apply Fin.ext
        rw [mkFin_val_of_lt _ (by omega)]
        omega

/-- Rounding leaves the value of a finite float64 unchanged. -/
theorem rext_toRat (neg : Bool) (e : Fin 2047) (m : Fin 4503599627370496) :
    rext (fin neg e m).toRat = (fin neg e m).toRat := by
  have h := round_ext neg (fin neg e m).toRat
  rw [round_toRat] at h
  exact h.symm

theorem toRat_neg_iff (neg : Bool) (e : Fin 2047) (m : Fin 4503599627370496)
    (h : (fin neg e m).toRat ≠ 0) : ((fin neg e m).toRat < 0 ↔ neg = true) := by
  have h0 : (0 : ℚ) ≤ ((fin neg e m).sig : ℚ) * (2 : ℚ) ^ (fin neg e m).ex :=
    mul_nonneg (by positivity) (two_zpow_pos _).le
  rw [toRat_fin, mul_assoc] at h ⊢
  cases neg
  · simp only [Bool.false_eq_true, if_false, one_mul] at h ⊢
    simp only [iff_false, not_lt]; exact h0
  · simp only [if_true] at h ⊢
    simp only [iff_true]
    have : ((fin true e m).sig : ℚ) * (2 : ℚ) ^ (fin true e m).ex ≠ 0 := by
      intro hc; apply h; rw [hc]; simp
    have := lt_of_le_of_ne h0 (Ne.symm this)
    linarith

theorem isZero_iff_toRat (neg : Bool) (e : Fin 2047) (m : Fin 4503599627370496) :
    (fin neg e m).isZero = true ↔ (fin neg e m).toRat = 0 := by
  constructor
  · intro h
    simp only [isZero, Bool.and_eq_true, decide_eq_true_eq] at h
    rw [toRat_fin]
    simp [sig, h.1, h.2]
  · intro h
    rw [toRat_fin] at h
    have hp := (two_zpow_pos (fin neg e m).ex).ne'
    have hs : (if neg = true then (-1 : ℚ) else 1) ≠ 0 := by cases neg <;> simp
    have h1 : ((fin neg e m).sig : ℚ) = 0 := by
      rcases mul_eq_zero.mp h with h2 | h2
      · rcases mul_eq_zero.mp h2 with h3 | h3
        · exact absurd h3 hs
        · exact h3
      · exact absurd h2 hp
    have h2 : (fin neg e m).sig = 0 := by exact_mod_cast h1
    simp only [sig] at h2
    simp only [isZero, Bool.and_eq_true, decide_eq_true_eq]
    split_ifs at h2 with h3
    · exact ⟨h3, h2⟩
    · omega

/-- Two numbers with the same extended value are the same float64, unless they are the
two zeros. -/
theorem ext_inj {x y : F64} (hx : x.isNaN = false) (hy : y.isNaN = false)
    (h : x.ext = y.ext) (hz : ¬ (x.isZero = true ∧ y.isZero = true)) : x = y := by
  have hp := two_zpow_pos (1024 : ℤ)
  cases x with
  | nan => simp [isNaN] at hx
  | inf a =>
    cases y with
    | nan => simp [isNaN] at hy
    | inf b =>
      cases a <;> cases b <;> simp [ext] at h ⊢ <;> linarith
    | fin b e m =>
      exfalso
      have h1 := toRat_lt_top b e m
      have h2 := toRat_gt_bot b e m
      rw [ext_fin] at h
      cases a <;> simp [ext] at h <;> linarith
  | fin a e m =>
    cases y with
    | nan => simp [isNaN] at hy
    | inf b =>
      exfalso
      have h1 := toRat_lt_top a e m
      have h2 := toRat_gt_bot a e m
      rw [ext_fin] at h
      cases b <;> simp [ext] at h <;> linarith
    | fin b e2 m2 =>
      rw [ext_fin, ext_fin] at h
      have hne : (fin a e m).toRat ≠ 0 := by
        intro hc
        apply hz
        exact ⟨(isZero_iff_toRat a e m).mpr hc, (isZero_iff_toRat b e2 m2).mpr (h ▸ hc)⟩
      have hs : a = b := by
        have h1 := toRat_neg_iff a e m hne
        have h2 := toRat_neg_iff b e2 m2 (h ▸ hne)
        rw [h] at h1
        cases a <;> cases b <;> simp_all
      subst hs
      rw [← round_toRat a e m, ← round_toRat a e2 m2, h]

end F64

/-! ## Comparisons, arithmetic and integer conversion -/
namespace F64

/-! ### Comparisons -/

theorem lt_iff (x y : F64) :
    lt x y = true ↔ x.isNaN = false ∧ y.isNaN = false ∧ x.ext < y.ext := by
  simp [lt, and_assoc]

theorem le_iff (x y : F64) :
    le x y = true ↔ x.isNaN = false ∧ y.isNaN = false ∧ x.ext ≤ y.ext := by
  simp [le, and_assoc]

theorem gt_iff (x y : F64) :
    gt x y = true ↔ x.isNaN = false ∧ y.isNaN = false ∧ y.ext < x.ext := by
  unfold gt; rw [lt_iff]; tauto

theorem ge_iff (x y : F64) :
    ge x y = true ↔ x.isNaN = false ∧ y.isNaN = false ∧ y.ext ≤ x.ext := by
  unfold ge; rw [le_iff]; tauto

theorem eq_iff (x y : F64) :
    eq x y = true ↔ x.isNaN = false ∧ y.isNaN = false ∧ x.ext = y.ext := by
  simp [eq, and_assoc]

theorem same_iff (x y : F64) :
    same x y = true ↔ (x.isNaN = true ∧ y.isNaN = true) ∨
      (x.isNaN = false ∧ y.isNaN = false ∧ x.ext = y.ext) := by
  simp [same, eq, and_assoc]

theorem same_refl (x : F64) : same x x = true := by
  rw [same_iff]
  cases h : x.isNaN <;> simp

theorem same_of_eq {x y : F64} (h : x = y) : same x y = true := h ▸ same_refl x

theorem zero_ext : zero.ext = 0 := by
  have : zero = fin false (mkFin 2047 (by decide) 0) (mkFin 4503599627370496 (by decide) 0) :=
    rfl
  rw [this, ext_fin, toRat_mk_sub false 0 (by decide)]; simp

theorem zero_isNaN : zero.isNaN = false := rfl

theorem ext_lt_top (x : F64) : x.ext ≤ (2 : ℚ) ^ (1024 : ℤ) := by
  have hp := two_zpow_pos (1024 : ℤ)
  cases x with
  | nan => simp only [ext]; exact hp.le
  | inf a =>
    cases a with
    | false => simp [ext]
    | true => simp [ext]; positivity
  | fin a e m => rw [ext_fin]; exact (toRat_lt_top a e m).le

theorem ext_gt_bot (x : F64) : -(2 : ℚ) ^ (1024 : ℤ) ≤ x.ext := by
  have hp := two_zpow_pos (1024 : ℤ)
  cases x with
  | nan => simp only [ext]; linarith
  | inf a =>
    cases a with
    | false => simp [ext]; positivity
    | true => simp [ext]
  | fin a e m => rw [ext_fin]; exact (toRat_gt_bot a e m).le

/-- A number strictly inside the finite range is a finite float64. -/
theorem isFinite_of_ext {x : F64} (hn : x.isNaN = false)
    (h1 : -(2 : ℚ) ^ (1024 : ℤ) < x.ext) (h2 : x.ext < (2 : ℚ) ^ (1024 : ℤ)) :
    x.isFinite = true := by
  cases x with
  | nan => simp [isNaN] at hn
  | inf a => cases a <;> simp [ext] at h1 h2
  | fin a e m => rfl

theorem ext_of_isFinite {x : F64} (h : x.isFinite = true) :
    x.isNaN = false ∧ -(2 : ℚ) ^ (1024 : ℤ) < x.ext ∧ x.ext < (2 : ℚ) ^ (1024 : ℤ) := by
  cases x with
  | nan => simp [isFinite] at h
  | inf a => simp [isFinite] at h
  | fin a e m => exact ⟨rfl, toRat_gt_bot a e m, toRat_lt_top a e m⟩

theorem isZero_iff_ext {x : F64} (h : x.isFinite = true) : x.isZero = true ↔ x.ext = 0 := by
  cases x with
  | nan => simp [isFinite] at h
  | inf a => simp [isFinite] at h
  | fin a e m => rw [ext_fin]; exact isZero_iff_toRat a e m

theorem rext_ext {x : F64} (h : x.isFinite = true) : rext x.ext = x.ext := by
  cases x with
  | nan => simp [isFinite] at h
  | inf a => simp [isFinite] at h
  | fin a e m => rw [ext_fin]; exact rext_toRat a e m

/-! ### Arithmetic on finite operands -/

theorem add_fin {x y : F64} (hx : x.isFinite = true) (hy : y.isFinite = true) :
    (add x y).isNaN = false ∧ (add x y).ext = rext (x.ext + y.ext) := by
  cases x with
  | nan => simp [isFinite] at hx
  | inf a => simp [isFinite] at hx
  | fin a e m =>
    cases y with
    | nan => simp [isFinite] at hy
    | inf b => simp [isFinite] at hy
    | fin b e2 m2 =>
      simp only [add, ext_fin]
      exact round_spec _ _

theorem mul_fin {x y : F64} (hx : x.isFinite = true) (hy : y.isFinite = true) :
    (mul x y).isNaN = false ∧ (mul x y).ext = rext (x.ext * y.ext) := by
  cases x with
  | nan => simp [isFinite] at hx
  | inf a => simp [isFinite] at hx
  | fin a e m =>
    cases y with
    | nan => simp [isFinite] at hy
    | inf b => simp [isFinite] at hy
    | fin b e2 m2 =>
      simp only [mul, ext_fin]
      exact round_spec _ _

theorem div_fin {x y : F64} (hx : x.isFinite = true) (hy : y.isFinite = true)
    (h0 : y.ext ≠ 0) :
    (div x y).isNaN = false ∧ (div x y).ext = rext (x.ext / y.ext) := by
  cases x with
  | nan => simp [isFinite] at hx
  | inf a => simp [isFinite] at hx
  | fin a e m =>
    cases y with
    | nan => simp [isFinite] at hy
    | inf b => simp [isFinite] at hy
    | fin b e2 m2 =>
      have hz : (fin b e2 m2).isZero = false := by
        cases hh : (fin b e2 m2).isZero
        · rfl
        · exact absurd ((isZero_iff_toRat b e2 m2).mp hh) h0
      simp only [div, hz, ext_fin]
      exact round_spec _ _

/-! ### Conversion from integers -/

theorem ofInt_isNaN (n : ℤ) : (ofInt n).isNaN = false := round_isNaN _ _

theorem ofInt_ext (n : ℤ) : (ofInt n).ext = rext (n : ℚ) := round_ext _ _

/-- Powers of two in the normal range are float64 values. -/
theorem rext_two_zpow {k : ℤ} (h1 : -1022 ≤ k) (h2 : k ≤ 1023) :
    rext ((2 : ℚ) ^ k) = (2 : ℚ) ^ k := by
  have hp := two_zpow_pos k
  have hlog : ilog2 ((2 : ℚ) ^ k) = k :=
    ilog2_unique hp le_rfl (two_zpow_lt (by omega))
  have hexp : expOf ((2 : ℚ) ^ k) = k := by
    unfold expOf; rw [hlog]; exact max_eq_left h1
  have hmv : magVal ((2 : ℚ) ^ k) = (2 : ℚ) ^ k := by
    unfold magVal
    rw [hexp]
    have : (2 : ℚ) ^ k / (2 : ℚ) ^ (k - 52) = ((4503599627370496 : ℤ) : ℚ) := by
      rw [div_eq_iff (two_zpow_pos _).ne']; exact zp52 k
    rw [this, rne_intCast]
    exact (zp52 k).symm
  unfold rext
  rw [if_neg hp.ne', if_neg (not_lt.mpr hp.le), hmv]
  exact min_eq_left (two_zpow_le (by omega))

theorem rext_one : rext 1 = 1 := by
  have := rext_two_zpow (k := 0) (by norm_num) (by norm_num)
  simpa using this

/-- Integers of at most 53 bits are float64 values. -/
theorem rext_nat {n : ℕ} (hn : n ≤ 9007199254740992) : rext (n : ℚ) = (n : ℚ) := by
  rcases Nat.eq_zero_or_pos n with h0 | hpos
  · subst h0; simp [rext_zero]
  rcases Nat.lt_or_ge n 9007199254740992 with hlt | hge
  swap
  · have : n = 9007199254740992 := by omega
    subst this
    have := rext_two_zpow (k := 53) (by norm_num) (by norm_num)
    norm_num at this ⊢
    exact this
  have hq : (0 : ℚ) < (n : ℚ) := by exact_mod_cast hpos
  have h1 : (1 : ℚ) ≤ (n : ℚ) := by exact_mod_cast hpos
  have hlog0 : 0 ≤ ilog2 (n : ℚ) := le_ilog2 hq (by simpa using h1)
  have hlog52 : ilog2 (n : ℚ) < 53 := by
    apply ilog2_lt hq
    have : (n : ℚ) < ((9007199254740992 : ℕ) : ℚ) := by exact_mod_cast hlt
    norm_num at this ⊢
    exact this
  have hexp : expOf (n : ℚ) = ilog2 (n : ℚ) := max_eq_left (by omega)
  set k := ilog2 (n : ℚ) with hk
  obtain ⟨j, hj⟩ : ∃ j : ℕ, (j : ℤ) = 52 - k := ⟨(52 - k).toNat, by omega⟩
  have hpow : (2 : ℚ) ^ (k - 52) = ((2 : ℚ) ^ j)⁻¹ := by
    have : k - 52 = -(j : ℤ) := by omega
    rw [this, zpow_neg, zpow_natCast]
  have hsc : (n : ℚ) / (2 : ℚ) ^ (k - 52) = (((n * 2 ^ j : ℕ) : ℤ) : ℚ) := by
    rw [hpow]; push_cast; field_simp
  have hmv : magVal (n : ℚ) = (n : ℚ) := by
    unfold magVal
    rw [hexp, hsc, rne_intCast, hpow]
    push_cast
    field_simp
  unfold rext
  rw [if_neg hq.ne', if_neg (not_lt.mpr hq.le), hmv]
  apply min_eq_left
  calc (n : ℚ) ≤ ((9007199254740992 : ℕ) : ℚ) := by exact_mod_cast hn
    _ = (2 : ℚ) ^ (53 : ℤ) := by norm_num
    _ ≤ (2 : ℚ) ^ (1024 : ℤ) := two_zpow_le (by norm_num)

theorem rext_int {n : ℤ} (h1 : -9007199254740992 ≤ n) (h2 : n ≤ 9007199254740992) :
    rext (n : ℚ) = (n : ℚ) := by
  rcases le_or_lt 0 n with h | h
  · obtain ⟨k, rfl⟩ := Int.eq_ofNat_of_zero_le h
    have := rext_nat (n := k) (by omega)
    simpa using this
  · obtain ⟨k, hk⟩ := Int.eq_ofNat_of_zero_le (show 0 ≤ -n by omega)
    have h3 := rext_nat (n := k) (by omega)
    have h4 : (n : ℚ) = -((k : ℕ) : ℚ) := by
      have : n = -(k : ℤ) := by omega
      rw [this]; push_cast; ring
    rw [h4, rext_neg, h3]

/-- Every int64 converts to a finite float64 of absolute value at most 2 ^ 63. -/
theorem ofInt_bounds {n : ℤ} (h1 : -9223372036854775808 ≤ n) (h2 : n ≤ 9223372036854775807) :
    (ofInt n).isFinite = true ∧ -(2 : ℚ) ^ (63 : ℤ) ≤ (ofInt n).ext ∧
      (ofInt n).ext ≤ (2 : ℚ) ^ (63 : ℤ) := by
  have hb : -(2 : ℚ) ^ (63 : ℤ) ≤ (ofInt n).ext ∧ (ofInt n).ext ≤ (2 : ℚ) ^ (63 : ℤ) := by
    rw [ofInt_ext]
    have e63 := rext_two_zpow (k := 63) (by norm_num) (by norm_num)
    have hn1 : -(2 : ℚ) ^ (63 : ℤ) ≤ (n : ℚ) := by
      have : ((-9223372036854775808 : ℤ) : ℚ) ≤ (n : ℚ) := by exact_mod_cast h1
      norm_num at this ⊢; exact this
    have hn2 : (n : ℚ) ≤ (2 : ℚ) ^ (63 : ℤ) := by
      have : (n : ℚ) ≤ ((9223372036854775807 : ℤ) : ℚ) := by exact_mod_cast h2
      norm_num at this ⊢; linarith
    constructor
    · have := rext_mono hn1
      rwa [rext_neg, e63] at this
    · have := rext_mono hn2
      rwa [e63] at this
  refine ⟨?_, hb⟩
  have hlt : (2 : ℚ) ^ (63 : ℤ) < (2 : ℚ) ^ (1024 : ℤ) := two_zpow_lt (by norm_num)
  exact isFinite_of_ext (ofInt_isNaN n) (by linarith [hb.1]) (by linarith [hb.2])

theorem ofInt_ext_of_small {n : ℤ} (h1 : -9007199254740992 ≤ n) (h2 : n ≤ 9007199254740992) :
    (ofInt n).ext = (n : ℚ) := by
  rw [ofInt_ext, rext_int h1 h2]

theorem ofInt_isFinite_of_small {n : ℤ} (h1 : -9007199254740992 ≤ n)
    (h2 : n ≤ 9007199254740992) : (ofInt n).isFinite = true :=
  (ofInt_bounds (by omega) (by omega)).1

/-- The float64 of an integer is never negative zero. -/
theorem ofInt_zero_sign (n : ℤ) (h : (ofInt n).isZero = true) : (ofInt n).sign = false := by
  rcases lt_trichotomy n 0 with hn | hn | hn
  · exfalso
    have hfin : (ofInt n).isFinite = true := by
      cases hh : ofInt n with
      | nan => rw [hh] at h; simp [isZero] at h
      | inf a => rw [hh] at h; simp [isZero] at h
      | fin a e m => rfl
    have h0 := (isZero_iff_ext hfin).mp h
    rw [ofInt_ext] at h0
    have hle : (n : ℚ) ≤ -1 := by
      have : n ≤ -1 := by omega
      exact_mod_cast this
    have := rext_mono hle
    rw [rext_neg, rext_one, h0] at this
    linarith
  · subst hn
    unfold ofInt
    simp only [Int.cast_zero]
    exact round_sign_zero false
  · unfold ofInt
    exact round_sign_of_pos false (by exact_mod_cast hn)

end F64

/-! # The limiter -/

/-! ### The cap of advance is the Go minimum -/
namespace F64

theorem isNaN_eq_true {x : F64} (h : x.isNaN = true) : x = nan := by
  cases x <;> simp [isNaN] at h ⊢

theorem isFinite_of_isZero {x : F64} (h : x.isZero = true) : x.isFinite = true := by
  cases x with
  | nan => simp [isZero] at h
  | inf a => simp [isZero] at h
  | fin a e m => rfl

theorem eq_of_isZero {x y : F64} (hx : x.isZero = true) (hy : y.isZero = true)
    (hs : x.sign = y.sign) : x = y := by
  cases x with
  | nan => simp [isZero] at hx
  | inf a => simp [isZero] at hx
  | fin a e m =>
    cases y with
    | nan => simp [isZero] at hy
    | inf b => simp [isZero] at hy
    | fin b e2 m2 =>
      simp only [isZero, Bool.and_eq_true, decide_eq_true_eq] at hx hy
      simp only [sign] at hs
      subst hs
      exact fin_congr (Fin.ext (by omega)) (Fin.ext (by omega))

/-- The conditional of advance (if tokens > burst then burst else tokens) is the Go
minimum, as soon as the bound is a number other than negative zero. -/
theorem ite_gt_eq_fmin (x y : F64) (hy : y.isNaN = false)
    (hyz : y.isZero = true → y.sign = false) :
    (if gt x y = true then y else x) = fmin x y := by
  cases hx : x.isNaN
  swap
  · have := isNaN_eq_true hx
    subst this
    simp [gt, lt, fmin, isNaN]
  · unfold fmin
    rw [hx, hy]
    simp only [Bool.or_self, Bool.false_eq_true, if_false]
    by_cases hz : (x.isZero && y.isZero) = true
    · rw [if_pos hz]
      simp only [Bool.and_eq_true] at hz
      have hx0 := (isZero_iff_ext (isFinite_of_isZero hz.1)).mp hz.1
      have hy0 := (isZero_iff_ext (isFinite_of_isZero hz.2)).mp hz.2
      have hgt : ¬ gt x y = true := by
        rw [gt_iff]; intro h; rw [hx0, hy0] at h; exact lt_irrefl _ h.2.2
      rw [if_neg hgt]
      by_cases hs : x.sign = true
      · rw [if_pos hs]
      · rw [if_neg hs]
        apply eq_of_isZero hz.1 hz.2
        rw [hyz hz.2]
        simpa using hs
    · rw [if_neg hz]
      by_cases h1 : lt x y = true
      · rw [if_pos h1]
        have hgt : ¬ gt x y = true := by
          rw [gt_iff]; intro h
          rw [lt_iff] at h1
          exact lt_asymm h.2.2 h1.2.2
        rw [if_neg hgt]
      · rw [if_neg h1]
        by_cases h2 : gt x y = true
        · rw [if_pos h2]
        · rw [if_neg h2]
          have e : x.ext = y.ext := by
            rw [gt_iff] at h2
            rw [lt_iff] at h1
            have a1 : ¬ x.ext < y.ext := fun h => h1 ⟨hx, hy, h⟩
            have a2 : ¬ y.ext < x.ext := fun h => h2 ⟨hx, hy, h⟩
            exact le_antisymm (not_lt.mp a2) (not_lt.mp a1)
          apply ext_inj hx hy e
          simpa using hz

/-- Value of the Go minimum of two numbers. -/
theorem fmin_spec {x y : F64} (hx : x.isNaN = false) (hy : y.isNaN = false) :
    (fmin x y).isNaN = false ∧ (fmin x y).ext = min x.ext y.ext := by
  unfold fmin
  rw [hx, hy]
  simp only [Bool.or_self, Bool.false_eq_true, if_false]
  by_cases hz : (x.isZero && y.isZero) = true
  · rw [if_pos hz]
    simp only [Bool.and_eq_true] at hz
    have hx0 := (isZero_iff_ext (isFinite_of_isZero hz.1)).mp hz.1
    have hy0 := (isZero_iff_ext (isFinite_of_isZero hz.2)).mp hz.2
    split_ifs
    · exact ⟨hx, by rw [hx0, hy0]; simp⟩
    · exact ⟨hy, by rw [hx0, hy0]; simp⟩
  · rw [if_neg hz]
    by_cases h1 : lt x y = true
    · rw [if_pos h1]
      rw [lt_iff] at h1
      exact ⟨hx, (min_eq_left h1.2.2.le).symm⟩
    · rw [if_neg h1]
      rw [lt_iff] at h1
      have a1 : ¬ x.ext < y.ext := fun h => h1 ⟨hx, hy, h⟩
      exact ⟨hy, (min_eq_right (not_lt.mp a1)).symm⟩

theorem fmin_nan_left (y : F64) : fmin nan y = nan := by simp [fmin, isNaN]

/-- Adding positive zero keeps the value; only negative zero changes (to positive zero). -/
theorem add_zero_spec (x : F64) :
    (add x zero).isNaN = x.isNaN ∧ (add x zero).ext = x.ext := by
  cases x with
  | nan => exact ⟨rfl, rfl⟩
  | inf a => exact ⟨rfl, rfl⟩
  | fin a e m =>
    have h : add (fin a e m) zero
        = round (a && false) ((fin a e m).toRat + zero.toRat) := rfl
    have hz : zero.toRat = 0 := by
      have := zero_ext
      exact this
    rw [h, hz, add_zero]
    refine ⟨round_isNaN _ _, ?_⟩
    rw [round_ext, ext_fin, rext_toRat]

end F64

/-! ### time -/

theorem elapsed_eq (last t : Time) :
    t.Sub (if t.Before last = true then t else last)
      = min (max (t.ns - last.ns) 0) 9223372036854775807 := by
  unfold Time.Before Time.Sub MaxInt64 MinInt64 Duration
  rw [min_def, max_def]
  by_cases h : t.ns < last.ns
  · simp only [h, decide_True, if_true]
    split_ifs <;> omega
  · simp only [h, decide_False, Bool.false_eq_true, if_false]
    split_ifs <;> omega

theorem elapsed_nonneg (last t : Time) :
    0 ≤ t.Sub (if t.Before last = true then t else last) := by
  rw [elapsed_eq, min_def, max_def]; unfold Duration; split_ifs <;> omega

theorem elapsed_le (last t : Time) :
    t.Sub (if t.Before last = true then t else last) ≤ 9223372036854775807 := by
  rw [elapsed_eq, min_def, max_def]; unfold Duration; split_ifs <;> omega

theorem elapsed_mono (last : Time) {t1 t2 : Time} (h : t1.ns ≤ t2.ns) :
    t1.Sub (if t1.Before last = true then t1 else last)
      ≤ t2.Sub (if t2.Before last = true then t2 else last) := by
  rw [elapsed_eq, elapsed_eq]
  simp only [min_def, max_def]; unfold Duration; split_ifs <;> omega

theorem elapsed_stale (last t : Time) (h : t.ns ≤ last.ns) :
    t.Sub (if t.Before last = true then t else last) = 0 := by
  rw [elapsed_eq, min_def, max_def]; unfold Duration; split_ifs <;> omega

theorem elapsed_pos (last t : Time) (h : last.ns < t.ns) :
    0 < t.Sub (if t.Before last = true then t else last) := by
  rw [elapsed_eq, min_def, max_def]; unfold Duration; split_ifs <;> omega

/-! ### limit.go and rate.go -/

theorem tokensFormDuration_closed {limit : Limit} (h : F64.le limit F64.zero = true)
    (d : Duration) : tokensFormDuration limit d = F64.zero := by
  unfold tokensFormDuration; rw [if_pos h]

theorem advance_def (lim : Limiter) (t : Time) :
    lim.advance t =
      if F64.gt (F64.add lim.tokens (tokensFormDuration lim.limit
            (t.Sub (if t.Before lim.last = true then t else lim.last))))
          (F64.ofInt lim.burst.val) = true
      then F64.ofInt lim.burst.val
      else F64.add lim.tokens (tokensFormDuration lim.limit
            (t.Sub (if t.Before lim.last = true then t else lim.last))) := rfl

theorem TokensAt_fst (lim : Limiter) (t : Time) : (lim.TokensAt t).1 = lim.advance t := rfl

/-- The method advance computes the projection of section 4.2 of the specification. -/
theorem advance_eq_spec (lim : Limiter) (t : Time) : lim.advance t = advanceSpec lim t := by
  rw [advance_def]
  unfold advanceSpec
  exact F64.ite_gt_eq_fmin _ _ (F64.ofInt_isNaN _) (F64.ofInt_zero_sign _)

/-- C1. For every limiter state and every query time t, TokensAt(t), which is advance(t),
equals min(tokens + tokensFormDuration(limit, t - last1), burst), where last1 is t when t
is before last and last otherwise (min being the Go minimum on float64). -/
theorem C1_tokensAt_eq_min (lim : Limiter) (t : Time) :
    (lim.TokensAt t).1 = advanceSpec lim t ∧ lim.advance t = advanceSpec lim t :=
  ⟨advance_eq_spec lim t, advance_eq_spec lim t⟩

/-- C5. TokensAt(t) is a read-only projection (advance only reads the limiter): the
fields limit, burst, tokens, last and lastEvent are the same after the call as before
it, the mutex is released again, a limiter whose mutex was free is left unchanged as a
whole, and a second TokensAt(t) returns the same value. -/
theorem C5_tokensAt_read_only (lim : Limiter) (t : Time) :
    (lim.TokensAt t).2.limit = lim.limit ∧ (lim.TokensAt t).2.burst = lim.burst ∧
      (lim.TokensAt t).2.tokens = lim.tokens ∧ (lim.TokensAt t).2.last = lim.last ∧
      (lim.TokensAt t).2.lastEvent = lim.lastEvent ∧ (lim.TokensAt t).2.mu = false ∧
      (lim.mu = false → (lim.TokensAt t).2 = lim) ∧
      ((lim.TokensAt t).2.TokensAt t).1 = (lim.TokensAt t).1 := by
  refine ⟨rfl, rfl, rfl, rfl, rfl, rfl, ?_, rfl⟩
  intro h
  cases lim
  simp only [Limiter.TokensAt, Limiter.Lock, Limiter.Unlock] at h ⊢
  rw [h]

/-- C6. A closed gate never accrues: when limit <= 0, for every query time t the value
TokensAt(t) is the float64 value min(tokens, burst) (the same value: both NaN, or
equal under ==; under == itself whenever the stored tokens are not NaN), and it is the
value at every other query time. -/
theorem C6_closed_gate (lim : Limiter) (t : Time) (h : F64.le lim.limit F64.zero = true) :
    F64.same (lim.TokensAt t).1 (F64.fmin lim.tokens (F64.ofInt lim.burst.val)) = true ∧
      (lim.tokens.isNaN = false →
        F64.eq (lim.TokensAt t).1 (F64.fmin lim.tokens (F64.ofInt lim.burst.val)) = true) ∧
      ∀ u : Time, (lim.TokensAt u).1 = (lim.TokensAt t).1 := by
  have hB := F64.ofInt_isNaN lim.burst.val
  have hadd := F64.add_zero_spec lim.tokens
  have key : ∀ u : Time, (lim.TokensAt u).1
      = F64.fmin (F64.add lim.tokens F64.zero) (F64.ofInt lim.burst.val) := by
    intro u
    rw [TokensAt_fst, advance_eq_spec]
    unfold advanceSpec
    rw [tokensFormDuration_closed h]
  have hnum : lim.tokens.isNaN = false →
      F64.eq (lim.TokensAt t).1 (F64.fmin lim.tokens (F64.ofInt lim.burst.val)) = true := by
    intro hx
    rw [key t, F64.eq_iff]
    have hx2 : (F64.add lim.tokens F64.zero).isNaN = false := by rw [hadd.1, hx]
    obtain ⟨a1, a2⟩ := F64.fmin_spec hx2 hB
    obtain ⟨b1, b2⟩ := F64.fmin_spec hx hB
    exact ⟨a1, b1, by rw [a2, b2, hadd.2]⟩
  refine ⟨?_, hnum, fun u => by rw [key u, key t]⟩
  cases hx : lim.tokens.isNaN
  · have := hnum hx
    rw [F64.eq_iff] at this
    rw [F64.same_iff]
    exact Or.inr this
  · rw [key t, F64.same_iff]
    left
    have e1 := F64.isNaN_eq_true hx
    have e2 : F64.add lim.tokens F64.zero = F64.nan :=
      F64.isNaN_eq_true (by rw [hadd.1, hx])
    rw [e2, e1, F64.fmin_nan_left]
    exact ⟨rfl, rfl⟩

/-! ### Duration.Seconds -/

theorem billion_isFinite : (F64.ofInt 1000000000).isFinite = true :=
  F64.ofInt_isFinite_of_small (by norm_num) (by norm_num)

theorem billion_ext : (F64.ofInt 1000000000).ext = 1000000000 := by
  rw [F64.ofInt_ext_of_small (by norm_num) (by norm_num)]; norm_num

theorem Seconds_def (d : ℤ) : Duration.Seconds d =
    F64.add (F64.ofInt (Int.tdiv d 1000000000))
      (F64.div (F64.ofInt (Int.tmod d 1000000000)) (F64.ofInt 1000000000)) := rfl

/-- The fraction part float64(nsec)/1e9 of Seconds, for 0 <= nsec < 1e9. -/
theorem frac_spec {n : ℤ} (h0 : 0 ≤ n) (h1 : n < 1000000000) :
    (F64.div (F64.ofInt n) (F64.ofInt 1000000000)).isFinite = true ∧
      (F64.div (F64.ofInt n) (F64.ofInt 1000000000)).ext = rext ((n : ℚ) / 1000000000) ∧
      0 ≤ rext ((n : ℚ) / 1000000000) ∧ rext ((n : ℚ) / 1000000000) ≤ 1 := by
  have hN := F64.ofInt_isFinite_of_small (n := n) (by omega) (by omega)
  have hNe := F64.ofInt_ext_of_small (n := n) (by omega) (by omega)
  obtain ⟨a1, a2⟩ := F64.div_fin hN billion_isFinite (by rw [billion_ext]; norm_num)
  rw [hNe, billion_ext] at a2
  have hn0 : (0 : ℚ) ≤ (n : ℚ) := by exact_mod_cast h0
  have hn1 : (n : ℚ) ≤ 1000000000 := by exact_mod_cast h1.le
  have b0 : 0 ≤ rext ((n : ℚ) / 1000000000) := rext_nonneg (div_nonneg hn0 (by norm_num))
  have b1 : rext ((n : ℚ) / 1000000000) ≤ 1 := by
    have : (n : ℚ) / 1000000000 ≤ 1 := by
      rw [div_le_one (by norm_num)]; exact hn1
    have := rext_mono this
    rwa [F64.rext_one] at this
  refine ⟨?_, a2, b0, b1⟩
  have hp : (1 : ℚ) < (2 : ℚ) ^ (1024 : ℤ) := by
    have := two_zpow_lt (a := 0) (b := 1024) (by norm_num)
    simpa using this
  apply F64.isFinite_of_ext a1 <;> rw [a2] <;> linarith

/-- Value of Seconds on a non-negative int64 duration. -/
theorem Seconds_spec {d : ℤ} (h0 : 0 ≤ d) (h1 : d ≤ 9223372036854775807) :
    (Duration.Seconds d).isFinite = true ∧
      (Duration.Seconds d).ext
        = rext (((d / 1000000000 : ℤ) : ℚ) + rext (((d % 1000000000 : ℤ) : ℚ) / 1000000000)) ∧
      0 ≤ (Duration.Seconds d).ext := by
  rw [Seconds_def, Int.tdiv_eq_ediv h0 (by norm_num), Int.tmod_eq_emod h0 (by norm_num)]
  have hs0 : 0 ≤ d / 1000000000 := Int.ediv_nonneg h0 (by norm_num)
  have hs1 : d / 1000000000 ≤ 9223372036 := by omega
  have hn0 : 0 ≤ d % 1000000000 := Int.emod_nonneg _ (by norm_num)
  have hn1 : d % 1000000000 < 1000000000 := Int.emod_lt_of_pos _ (by norm_num)
  obtain ⟨f1, f2, f3, f4⟩ := frac_spec hn0 hn1
  have hA := F64.ofInt_isFinite_of_small (n := d / 1000000000) (by omega) (by omega)
  have hAe := F64.ofInt_ext_of_small (n := d / 1000000000) (by omega) (by omega)
  obtain ⟨a1, a2⟩ := F64.add_fin hA f1
  rw [hAe, f2] at a2
  have hsq0 : (0 : ℚ) ≤ ((d / 1000000000 : ℤ) : ℚ) := by exact_mod_cast hs0
  have hsq1 : ((d / 1000000000 : ℤ) : ℚ) ≤ 9223372036 := by exact_mod_cast hs1
  have lo : 0 ≤ rext (((d / 1000000000 : ℤ) : ℚ)
      + rext (((d % 1000000000 : ℤ) : ℚ) / 1000000000)) := by
    have := rext_mono (show (0 : ℚ) ≤ ((d / 1000000000 : ℤ) : ℚ)
      + rext (((d % 1000000000 : ℤ) : ℚ) / 1000000000) by linarith)
    rwa [rext_zero] at this
  have hi : rext (((d / 1000000000 : ℤ) : ℚ)
      + rext (((d % 1000000000 : ℤ) : ℚ) / 1000000000)) ≤ (2 : ℚ) ^ (34 : ℤ) := by
    have : ((d / 1000000000 : ℤ) : ℚ) + rext (((d % 1000000000 : ℤ) : ℚ) / 1000000000)
        ≤ (2 : ℚ) ^ (34 : ℤ) := by norm_num; linarith
    have := rext_mono this
    rwa [F64.rext_two_zpow (by norm_num) (by norm_num)] at this
  refine ⟨?_, a2, by rw [a2]; exact lo⟩
  have hp : (2 : ℚ) ^ (34 : ℤ) < (2 : ℚ) ^ (1024 : ℤ) := two_zpow_lt (by norm_num)
  have hp0 := two_zpow_pos (1024 : ℤ)
  apply F64.isFinite_of_ext a1 <;> rw [a2] <;> linarith

/-- Seconds is monotone on non-negative int64 durations. -/
theorem Seconds_mono {d1 d2 : ℤ} (h0 : 0 ≤ d1) (h : d1 ≤ d2) (h2 : d2 ≤ 9223372036854775807) :
    (Duration.Seconds d1).ext ≤ (Duration.Seconds d2).ext := by
  obtain ⟨_, e1, _⟩ := Seconds_spec h0 (le_trans h h2)
  obtain ⟨_, e2, _⟩ := Seconds_spec (le_trans h0 h) h2
  rw [e1, e2]
  apply rext_mono
  have hn1a : 0 ≤ d1 % 1000000000 := Int.emod_nonneg _ (by norm_num)
  have hn1b : d1 % 1000000000 < 1000000000 := Int.emod_lt_of_pos _ (by norm_num)
  have hn2a : 0 ≤ d2 % 1000000000 := Int.emod_nonneg _ (by norm_num)
  have hn2b : d2 % 1000000000 < 1000000000 := Int.emod_lt_of_pos _ (by norm_num)
  obtain ⟨_, _, p0, p1⟩ := frac_spec hn1a hn1b
  obtain ⟨_, _, q0, q1⟩ := frac_spec hn2a hn2b
  have hsec : d1 / 1000000000 ≤ d2 / 1000000000 := Int.ediv_le_ediv (by norm_num) h
  rcases lt_or_eq_of_le hsec with hlt | heq
  · have : ((d1 / 1000000000 : ℤ) : ℚ) + 1 ≤ ((d2 / 1000000000 : ℤ) : ℚ) := by
      exact_mod_cast hlt
    linarith
  · rw [heq]
    have hn : d1 % 1000000000 ≤ d2 % 1000000000 := by omega
    have : ((d1 % 1000000000 : ℤ) : ℚ) / 1000000000 ≤ ((d2 % 1000000000 : ℤ) : ℚ) / 1000000000 := by
      apply div_le_div_of_nonneg_right _ (by norm_num)
      exact_mod_cast hn
    have := rext_mono this
    linarith

/-- The seconds count of a positive duration is a positive number. -/
theorem Seconds_pos {d : ℤ} (h0 : 0 < d) :
    F64.lt F64.zero (Duration.Seconds d) = true := by
  rw [Seconds_def, Int.tdiv_eq_ediv h0.le (by norm_num), Int.tmod_eq_emod h0.le (by norm_num)]
  have hs0 : 0 ≤ d / 1000000000 := Int.ediv_nonneg h0.le (by norm_num)
  have hn0 : 0 ≤ d % 1000000000 := Int.emod_nonneg _ (by norm_num)
  have hn1 : d % 1000000000 < 1000000000 := Int.emod_lt_of_pos _ (by norm_num)
  obtain ⟨f1, f2, f3, f4⟩ := frac_spec hn0 hn1
  have hAn := F64.ofInt_isNaN (d / 1000000000)
  have hAe := F64.ofInt_ext (d / 1000000000)
  have hsq0 : (0 : ℚ) ≤ ((d / 1000000000 : ℤ) : ℚ) := by exact_mod_cast hs0
  have hA0 : 0 ≤ (F64.ofInt (d / 1000000000)).ext := by
    rw [hAe]; exact rext_nonneg hsq0
  have hp := two_zpow_pos (1024 : ℤ)
  have h30 := two_zpow_pos (-30 : ℤ)
  rw [F64.lt_iff, F64.zero_ext]
  refine ⟨rfl, ?_⟩
  cases hA : F64.ofInt (d / 1000000000) with
  | nan => rw [hA] at hAn; simp [F64.isNaN] at hAn
  | inf a =>
    rw [hA] at hA0
    cases a with
    | true => simp [F64.ext] at hA0; linarith
    | false =>
      cases hB : F64.div (F64.ofInt (d % 1000000000)) (F64.ofInt 1000000000) with
      | nan => rw [hB] at f1; simp [F64.isFinite] at f1
      | inf b => rw [hB] at f1; simp [F64.isFinite] at f1
      | fin b e m =>
        refine ⟨rfl, ?_⟩
        simp only [F64.add, F64.ext, Bool.false_eq_true, if_false]
        exact hp
  | fin a e m =>
    have hAf : (F64.ofInt (d / 1000000000)).isFinite = true := by rw [hA]; rfl
    rw [← hA]
    obtain ⟨a1, a2⟩ := F64.add_fin hAf f1
    refine ⟨a1, ?_⟩
    rw [a2, f2]
    -- the exact sum is at least 2 ^ (-30)
    have hsum : (2 : ℚ) ^ (-30 : ℤ) ≤ (F64.ofInt (d / 1000000000)).ext
        + rext (((d % 1000000000 : ℤ) : ℚ) / 1000000000) := by
      rcases lt_or_ge 0 (d / 1000000000) with hpos | hzero
      · have h1 : (1 : ℚ) ≤ ((d / 1000000000 : ℤ) : ℚ) := by exact_mod_cast hpos
        have := rext_mono h1
        rw [F64.rext_one, ← hAe] at this
        have : (2 : ℚ) ^ (-30 : ℤ) ≤ 1 := by norm_num
        linarith
      · have hnpos : 1 ≤ d % 1000000000 := by omega
        have h1 : (2 : ℚ) ^ (-30 : ℤ) ≤ ((d % 1000000000 : ℤ) : ℚ) / 1000000000 := by
          have : (1 : ℚ) ≤ ((d % 1000000000 : ℤ) : ℚ) := by exact_mod_cast hnpos
          rw [le_div_iff₀ (by norm_num)]
          norm_num
          linarith
        have := rext_mono h1
        rw [F64.rext_two_zpow (by norm_num) (by norm_num)] at this
        linarith
    have := rext_mono hsum
    rw [F64.rext_two_zpow (by norm_num) (by norm_num)] at this
    linarith

/-! ### Token accrual -/

theorem not_le_zero {x : F64} (hn : x.isNaN = false) (h : ¬ F64.le x F64.zero = true) :
    0 < x.ext := by
  rw [F64.le_iff, F64.zero_ext] at h
  exact not_le.mp (fun hle => h ⟨hn, rfl, hle⟩)

theorem sign_of_pos {a : Bool} {e : Fin 2047} {m : Fin 4503599627370496}
    (h : 0 < (F64.fin a e m).ext) : a = false := by
  rw [F64.ext_fin] at h
  have := F64.toRat_neg_iff a e m h.ne'
  cases a
  · rfl
  · exact absurd (this.mpr rfl) (not_lt.mpr h.le)

theorem tokensFormDuration_open {limit : Limit} (h : ¬ F64.le limit F64.zero = true)
    (d : Duration) : tokensFormDuration limit d = F64.mul (Duration.Seconds d) limit := by
  unfold tokensFormDuration; rw [if_neg h]

/-- The tokens accrued over a non-negative duration are a non-negative number, for every
rate that is not NaN (for the infinite rate, over a positive duration). -/
theorem tokensFormDuration_nonneg {limit : Limit} (hl : limit.isNaN = false) {d : ℤ}
    (h0 : 0 ≤ d) (h1 : d ≤ 9223372036854775807)
    (hinf : limit = F64.inf false → 0 < d) :
    (tokensFormDuration limit d).isNaN = false ∧ 0 ≤ (tokensFormDuration limit d).ext := by
  by_cases hc : F64.le limit F64.zero = true
  · rw [tokensFormDuration_closed hc]
    exact ⟨rfl, by rw [F64.zero_ext]⟩
  · rw [tokensFormDuration_open hc]
    have hpos := not_le_zero hl hc
    obtain ⟨s1, s2, s3⟩ := Seconds_spec h0 h1
    have hp := two_zpow_pos (1024 : ℤ)
    cases hL : limit with
    | nan => rw [hL] at hl; simp [F64.isNaN] at hl
    | inf a =>
      rw [hL] at hpos
      cases a with
      | true => simp [F64.ext] at hpos; linarith
      | false =>
        have hd := hinf hL
        have hS := Seconds_pos hd
        rw [F64.lt_iff, F64.zero_ext] at hS
        cases hSd : Duration.Seconds d with
        | nan => rw [hSd] at s1; simp [F64.isFinite] at s1
        | inf b => rw [hSd] at s1; simp [F64.isFinite] at s1
        | fin b e m =>
          rw [hSd] at hS
          have hb := sign_of_pos hS.2.2
          subst hb
          have hz : (F64.fin false e m).isZero = false := by
            cases hh : (F64.fin false e m).isZero
            · rfl
            · have := (F64.isZero_iff_ext (x := F64.fin false e m) rfl).mp hh
              rw [this] at hS
              exact absurd hS.2.2 (lt_irrefl _)
          simp only [F64.mul, hz, Bool.false_eq_true, if_false, Bool.xor_false]
          refine ⟨rfl, ?_⟩
          simp only [F64.ext, Bool.false_eq_true, if_false]
          exact hp.le
    | fin a e m =>
      have hLf : limit.isFinite = true := by rw [hL]; rfl
      rw [← hL]
      obtain ⟨m1, m2⟩ := F64.mul_fin s1 hLf
      refine ⟨m1, ?_⟩
      rw [m2]
      exact rext_nonneg (mul_nonneg s3 hpos.le)

/-- Accrual is monotone in the elapsed duration, for every rate other than NaN and
plus infinity. -/
theorem tokensFormDuration_mono {limit : Limit} (hl : limit.isNaN = false)
    (hl2 : limit ≠ F64.inf false) {d1 d2 : ℤ} (h0 : 0 ≤ d1) (h : d1 ≤ d2)
    (h2 : d2 ≤ 9223372036854775807) :
    (tokensFormDuration limit d1).ext ≤ (tokensFormDuration limit d2).ext := by
  by_cases hc : F64.le limit F64.zero = true
  · rw [tokensFormDuration_closed hc, tokensFormDuration_closed hc]
  · rw [tokensFormDuration_open hc, tokensFormDuration_open hc]
    have hpos := not_le_zero hl hc
    obtain ⟨s1, _, _⟩ := Seconds_spec h0 (le_trans h h2)
    obtain ⟨t1, _, _⟩ := Seconds_spec (le_trans h0 h) h2
    have hS := Seconds_mono h0 h h2
    have hp := two_zpow_pos (1024 : ℤ)
    cases hL : limit with
    | nan => rw [hL] at hl; simp [F64.isNaN] at hl
    | inf a =>
      rw [hL] at hpos
      cases a with
      | true => simp [F64.ext] at hpos; linarith
      | false => exact absurd hL hl2
    | fin a e m =>
      have hLf : limit.isFinite = true := by rw [hL]; rfl
      rw [← hL]
      obtain ⟨_, m2⟩ := F64.mul_fin s1 hLf
      obtain ⟨_, n2⟩ := F64.mul_fin t1 hLf
      rw [m2, n2]
      exact rext_mono (mul_le_mul_of_nonneg_right hS hpos.le)

namespace F64

/-- Adding a non-negative number to a finite value does not decrease it. -/
theorem add_nonneg_ge {x y : F64} (hx : x.isFinite = true) (hy : y.isNaN = false)
    (hy0 : 0 ≤ y.ext) :
    (add x y).isNaN = false ∧ x.ext ≤ (add x y).ext ∧
      (x.isZero = true → x.sign = false → (add x y).isZero = true →
        (add x y).sign = false) := by
  have hp := two_zpow_pos (1024 : ℤ)
  cases x with
  | nan => simp [isFinite] at hx
  | inf a => simp [isFinite] at hx
  | fin a e m =>
    cases y with
    | nan => simp [isNaN] at hy
    | inf b =>
      cases b with
      | true => simp [ext] at hy0; linarith
      | false =>
        refine ⟨rfl, ?_, ?_⟩
        · simp only [add, ext, Bool.false_eq_true, if_false]
          exact (toRat_lt_top a e m).le
        · intro _ _ h; simp [add, isZero] at h
    | fin b e2 m2 =>
      have hadd : add (fin a e m) (fin b e2 m2)
          = round (a && b) ((fin a e m).toRat + (fin b e2 m2).toRat) := rfl
      rw [hadd]
      rw [ext_fin] at hy0
      refine ⟨round_isNaN _ _, ?_, ?_⟩
      · rw [round_ext, ext_fin]
        have := rext_mono (show (fin a e m).toRat ≤ (fin a e m).toRat + (fin b e2 m2).toRat
          by linarith)
        rwa [rext_toRat] at this
      · intro hz hs _
        simp only [sign] at hs
        subst hs
        have h0 := (isZero_iff_toRat false e m).mp hz
        rw [h0, zero_add, Bool.false_and]
        rcases eq_or_lt_of_le hy0 with h1 | h1
        · rw [← h1]; exact round_sign_zero false
        · exact round_sign_of_pos false h1

/-- Addition is monotone in a non-negative right operand. -/
theorem add_mono_right {x y1 y2 : F64} (hx : x.isNaN = false) (hx2 : x ≠ inf true)
    (h1 : y1.isNaN = false) (h2 : y2.isNaN = false) (h10 : 0 ≤ y1.ext) (h20 : 0 ≤ y2.ext)
    (h : y1.ext ≤ y2.ext) :
    (add x y1).isNaN = false ∧ (add x y2).isNaN = false ∧
      (add x y1).ext ≤ (add x y2).ext := by
  have hp := two_zpow_pos (1024 : ℤ)
  have key : ∀ y : F64, y.isNaN = false → 0 ≤ y.ext →
      (add x y).isNaN = false ∧
        (add x y).ext = (if x.isFinite = true ∧ y.isFinite = true
          then rext (x.ext + y.ext) else (2 : ℚ) ^ (1024 : ℤ)) := by
    intro y hy hy0
    cases x with
    | nan => simp [isNaN] at hx
    | inf a =>
      cases a with
      | true => exact absurd rfl hx2
      | false =>
        cases y with
        | nan => simp [isNaN] at hy
        | inf b =>
          cases b with
          | true => simp [ext] at hy0; linarith
          | false => simp [add, isNaN, ext, isFinite]
        | fin b e2 m2 => simp [add, isNaN, ext, isFinite]
    | fin a e m =>
      cases y with
      | nan => simp [isNaN] at hy
      | inf b =>
        cases b with
        | true => simp [ext] at hy0; linarith
        | false => simp [add, isNaN, ext, isFinite]
      | fin b e2 m2 =>
        have := add_fin (x := fin a e m) (y := fin b e2 m2) rfl rfl
        refine ⟨this.1, ?_⟩
        rw [this.2]
        simp [isFinite]
  obtain ⟨a1, a2⟩ := key y1 h1 h10
  obtain ⟨b1, b2⟩ := key y2 h2 h20
  refine ⟨a1, b1, ?_⟩
  rw [a2, b2]
  by_cases c2 : x.isFinite = true ∧ y2.isFinite = true
  · have c1 : x.isFinite = true ∧ y1.isFinite = true := by
      refine ⟨c2.1, ?_⟩
      have := (ext_of_isFinite c2.2).2.2
      exact isFinite_of_ext h1 (by linarith) (by linarith)
    rw [if_pos c1, if_pos c2]
    exact rext_mono (by linarith)
  · rw [if_neg c2]
    split_ifs
    · exact rext_le_top _
    · exact le_rfl

end F64

theorem advance_spec_ext (lim : Limiter) (t : Time)
    (h : (F64.add lim.tokens (tokensFormDuration lim.limit
            (t.Sub (if t.Before lim.last = true then t else lim.last)))).isNaN = false) :
    (lim.advance t).isNaN = false ∧
      (lim.advance t).ext = min
        (F64.add lim.tokens (tokensFormDuration lim.limit
            (t.Sub (if t.Before lim.last = true then t else lim.last)))).ext
        (F64.ofInt lim.burst.val).ext := by
  rw [advance_eq_spec]
  unfold advanceSpec
  exact F64.fmin_spec h (F64.ofInt_isNaN _)

theorem burst_isFinite (b : GoInt) : (F64.ofInt b.val).isFinite = true :=
  (F64.ofInt_bounds b.property.1 b.property.2).1

/-- C2 (as amended). The bucket starts full: for every rate r that is not NaN and every
burst b, NewLimiter(r, b).TokensAt(t) is float64(b), hence == b, for every query time
t (for the rate plus infinity: for every t after the zero time); the same holds of
Tokens(), which is TokensAt at the current time. -/
theorem C2_bucket_starts_full (r : Limit) (b : GoInt) (t : Time) (hr : r.isNaN = false)
    (hinf : r = F64.inf false → 0 < t.ns) :
    ((NewLimiter r b).TokensAt t).1 = F64.ofInt b.val ∧
      F64.eq ((NewLimiter r b).TokensAt t).1 (F64.ofInt b.val) = true ∧
      F64.eq ((NewLimiter r b).Tokens t).1 (F64.ofInt b.val) = true := by
  have hB := burst_isFinite b
  have hBn := F64.ofInt_isNaN b.val
  have main : ((NewLimiter r b).TokensAt t).1 = F64.ofInt b.val := by
    rw [TokensAt_fst, advance_def]
    show (if F64.gt (F64.add (F64.ofInt b.val) (tokensFormDuration r
            (t.Sub (if t.Before ⟨0⟩ = true then t else ⟨0⟩)))) (F64.ofInt b.val) = true
          then F64.ofInt b.val
          else F64.add (F64.ofInt b.val) (tokensFormDuration r
            (t.Sub (if t.Before ⟨0⟩ = true then t else ⟨0⟩)))) = F64.ofInt b.val
    have hd0 := elapsed_nonneg ⟨0⟩ t
    have hd1 := elapsed_le ⟨0⟩ t
    have hdp : r = F64.inf false → 0 < t.Sub (if t.Before ⟨0⟩ = true then t else ⟨0⟩) :=
      fun h => elapsed_pos ⟨0⟩ t (hinf h)
    obtain ⟨d1, d2⟩ := tokensFormDuration_nonneg hr hd0 hd1 hdp
    obtain ⟨a1, a2, a3⟩ := F64.add_nonneg_ge hB d1 d2
    generalize F64.add (F64.ofInt b.val) (tokensFormDuration r
            (t.Sub (if t.Before ⟨0⟩ = true then t else ⟨0⟩))) = X at a1 a2 a3 ⊢
    by_cases hgt : F64.gt X (F64.ofInt b.val) = true
    · rw [if_pos hgt]
    · rw [if_neg hgt]
      rw [F64.gt_iff] at hgt
      have hle : ¬ (F64.ofInt b.val).ext < X.ext := fun h => hgt ⟨a1, hBn, h⟩
      have heq := le_antisymm (not_lt.mp hle) a2
      by_cases hz : X.isZero = true ∧ (F64.ofInt b.val).isZero = true
      · apply F64.eq_of_isZero hz.1 hz.2
        rw [a3 hz.2 (F64.ofInt_zero_sign _ hz.2) hz.1, F64.ofInt_zero_sign _ hz.2]
      · exact F64.ext_inj a1 hBn heq hz
  have heq : F64.eq ((NewLimiter r b).TokensAt t).1 (F64.ofInt b.val) = true := by
    rw [main, F64.eq_iff]
    exact ⟨hBn, hBn, rfl⟩
  exact ⟨main, heq, heq⟩

/-- C3 (as amended). For every limiter state and every time t, TokensAt(t) > burst is
false and TokensAt(t) <= burst holds whenever TokensAt(t) is not NaN; it is not NaN, so
that TokensAt(t) <= burst, for every state whose limit is neither NaN nor plus infinity
and whose stored tokens are neither NaN nor minus infinity. -/
theorem C3_tokensAt_le_burst (lim : Limiter) (t : Time) :
    F64.gt (lim.TokensAt t).1 (F64.ofInt lim.burst.val) = false ∧
      ((lim.TokensAt t).1.isNaN = false →
        F64.le (lim.TokensAt t).1 (F64.ofInt lim.burst.val) = true) ∧
      (lim.limit.isNaN = false → lim.limit ≠ F64.inf false →
        lim.tokens.isNaN = false → lim.tokens ≠ F64.inf true →
        F64.le (lim.TokensAt t).1 (F64.ofInt lim.burst.val) = true) := by
  have hB := F64.ofInt_isNaN lim.burst.val
  have part1 : F64.gt (lim.TokensAt t).1 (F64.ofInt lim.burst.val) = false ∧
      ((lim.TokensAt t).1.isNaN = false →
        F64.le (lim.TokensAt t).1 (F64.ofInt lim.burst.val) = true) := by
    rw [TokensAt_fst, advance_def]
    generalize F64.add lim.tokens (tokensFormDuration lim.limit
            (t.Sub (if t.Before lim.last = true then t else lim.last))) = X
    by_cases h : F64.gt X (F64.ofInt lim.burst.val) = true
    · rw [if_pos h]
      constructor
      · cases hh : F64.gt (F64.ofInt lim.burst.val) (F64.ofInt lim.burst.val)
        · rfl
        · rw [F64.gt_iff] at hh; exact absurd hh.2.2 (lt_irrefl _)
      · intro _
        rw [F64.le_iff]; exact ⟨hB, hB, le_rfl⟩
    · rw [if_neg h]
      constructor
      · simpa using h
      · intro hn
        rw [F64.le_iff]
        refine ⟨hn, hB, ?_⟩
        rw [F64.gt_iff] at h
        exact not_lt.mp (fun hlt => h ⟨hn, hB, hlt⟩)
  refine ⟨part1.1, part1.2, ?_⟩
  intro hl hl2 ht ht2
  apply part1.2
  have e1a := elapsed_nonneg lim.last t
  have e1b := elapsed_le lim.last t
  obtain ⟨p1, p2⟩ := tokensFormDuration_nonneg hl e1a e1b (fun hh => absurd hh hl2)
  obtain ⟨a1, _, _⟩ := F64.add_mono_right ht ht2 p1 p1 p2 p2 le_rfl
  rw [TokensAt_fst]
  exact (advance_spec_ext lim t a1).1

theorem fmin_isNaN_left {x y : F64} (h : (F64.fmin x y).isNaN = false) :
    x.isNaN = false := by
  cases hx : x.isNaN
  · rfl
  · unfold F64.fmin at h
    rw [hx] at h
    simp [F64.isNaN] at h

theorem add_isNaN_args {x y : F64} (h : (F64.add x y).isNaN = false) :
    x.isNaN = false ∧ y.isNaN = false := by
  cases x <;> cases y <;> simp [F64.add, F64.isNaN] at h ⊢

theorem mul_nan_right (x : F64) : F64.mul x F64.nan = F64.nan := by
  cases x <;> rfl

/-- The sum tokens + accrual never decreases with the query time, whenever it is a
number at both times. -/
theorem sum_mono (lim : Limiter) {t1 t2 : Time} (h : t1.ns ≤ t2.ns)
    (n1 : (F64.add lim.tokens (tokensFormDuration lim.limit
            (t1.Sub (if t1.Before lim.last = true then t1 else lim.last)))).isNaN = false)
    (n2 : (F64.add lim.tokens (tokensFormDuration lim.limit
            (t2.Sub (if t2.Before lim.last = true then t2 else lim.last)))).isNaN = false) :
    (F64.add lim.tokens (tokensFormDuration lim.limit
            (t1.Sub (if t1.Before lim.last = true then t1 else lim.last)))).ext
      ≤ (F64.add lim.tokens (tokensFormDuration lim.limit
            (t2.Sub (if t2.Before lim.last = true then t2 else lim.last)))).ext := by
  have e1a := elapsed_nonneg lim.last t1
  have e1b := elapsed_le lim.last t1
  have e2a := elapsed_nonneg lim.last t2
  have e2b := elapsed_le lim.last t2
  have em := elapsed_mono lim.last h
  generalize t1.Sub (if t1.Before lim.last = true then t1 else lim.last) = d1
    at n1 e1a e1b em ⊢
  generalize t2.Sub (if t2.Before lim.last = true then t2 else lim.last) = d2
    at n2 e2a e2b em ⊢
  obtain ⟨ht, p1⟩ := add_isNaN_args n1
  obtain ⟨_, q1⟩ := add_isNaN_args n2
  have hp := two_zpow_pos (1024 : ℤ)
  by_cases hc : F64.le lim.limit F64.zero = true
  · rw [tokensFormDuration_closed hc, tokensFormDuration_closed hc]
  · have hl : lim.limit.isNaN = false := by
      cases hh : lim.limit.isNaN
      · rfl
      · have := F64.isNaN_eq_true hh
        rw [tokensFormDuration_open hc, this, mul_nan_right] at p1
        simp [F64.isNaN] at p1
    by_cases hi : lim.limit = F64.inf false
    · -- infinite rate: the accrual is plus infinity at both times
      have key : ∀ d : ℤ, 0 ≤ d → d ≤ 9223372036854775807 →
          (tokensFormDuration lim.limit d).isNaN = false →
          tokensFormDuration lim.limit d = F64.inf false := by
        intro d hd0 hd1 hn
        rw [tokensFormDuration_open hc] at hn ⊢
        rw [hi] at hn ⊢
        obtain ⟨s1, _, s3⟩ := Seconds_spec hd0 hd1
        cases hS : Duration.Seconds d with
        | nan => rw [hS] at s1; simp [F64.isFinite] at s1
        | inf b => rw [hS] at s1; simp [F64.isFinite] at s1
        | fin b e m =>
          rw [hS] at hn s3
          have hz : (F64.fin b e m).isZero = false := by
            cases hh : (F64.fin b e m).isZero
            · rfl
            · simp [F64.mul, hh, F64.isNaN] at hn
          have hpos : 0 < (F64.fin b e m).ext := by
            rcases eq_or_lt_of_le s3 with h0 | h0
            · have := (F64.isZero_iff_ext (x := F64.fin b e m) rfl).mpr h0.symm
              rw [hz] at this; simp at this
            · exact h0
          have hb : b = false := sign_of_pos hpos
          subst hb
          simp [F64.mul, hz]
      rw [key d1 e1a e1b p1, key d2 e2a e2b q1]
    · obtain ⟨_, p2⟩ := tokensFormDuration_nonneg hl e1a e1b (fun hh => absurd hh hi)
      obtain ⟨_, q2⟩ := tokensFormDuration_nonneg hl e2a e2b (fun hh => absurd hh hi)
      have hm := tokensFormDuration_mono hl hi e1a em e2b
      by_cases hneg : lim.tokens = F64.inf true
      · -- minus infinity stays minus infinity
        have key : ∀ y : F64, (F64.add (F64.inf true) y).isNaN = false →
            F64.add (F64.inf true) y = F64.inf true := by
          intro y hy
          cases y with
          | nan => simp [F64.add, F64.isNaN] at hy
          | inf b =>
            cases b with
            | true => rfl
            | false => simp [F64.add, F64.isNaN] at hy
          | fin b e m => rfl
        rw [hneg] at n1 n2 ⊢
        rw [key _ n1, key _ n2]
      · exact (F64.add_mono_right ht hneg p1 q1 p2 q2 hm).2.2

/-- C4 (as amended). Monotonic accrual: for every limiter state and all times t1 < t2,
TokensAt(t2) < TokensAt(t1) is false; and TokensAt(t2) >= TokensAt(t1) holds for every
state whose limit is neither NaN nor plus infinity and whose stored tokens are neither
NaN nor minus infinity. -/
theorem C4_monotonic_accrual (lim : Limiter) (t1 t2 : Time) (h : t1.ns < t2.ns) :
    F64.lt (lim.TokensAt t2).1 (lim.TokensAt t1).1 = false ∧
      (lim.limit.isNaN = false → lim.limit ≠ F64.inf false →
        lim.tokens.isNaN = false → lim.tokens ≠ F64.inf true →
        F64.ge (lim.TokensAt t2).1 (lim.TokensAt t1).1 = true) := by
  rw [TokensAt_fst, TokensAt_fst]
  constructor
  · cases hlt : F64.lt (lim.advance t2) (lim.advance t1)
    · rfl
    · exfalso
      rw [F64.lt_iff] at hlt
      obtain ⟨m2, m1, hlt⟩ := hlt
      have n1 : (F64.add lim.tokens (tokensFormDuration lim.limit
            (t1.Sub (if t1.Before lim.last = true then t1 else lim.last)))).isNaN = false := by
        rw [advance_eq_spec] at m1
        exact fmin_isNaN_left m1
      have n2 : (F64.add lim.tokens (tokensFormDuration lim.limit
            (t2.Sub (if t2.Before lim.last = true then t2 else lim.last)))).isNaN = false := by
        rw [advance_eq_spec] at m2
        exact fmin_isNaN_left m2
      have hs := sum_mono lim h.le n1 n2
      rw [(advance_spec_ext lim t1 n1).2, (advance_spec_ext lim t2 n2).2] at hlt
      exact absurd (min_le_min_right _ hs) (not_le.mpr hlt)
  · intro hl hl2 ht ht2
    have e1a := elapsed_nonneg lim.last t1
    have e1b := elapsed_le lim.last t1
    have e2a := elapsed_nonneg lim.last t2
    have e2b := elapsed_le lim.last t2
    obtain ⟨p1, p2⟩ := tokensFormDuration_nonneg hl e1a e1b (fun hh => absurd hh hl2)
    obtain ⟨q1, q2⟩ := tokensFormDuration_nonneg hl e2a e2b (fun hh => absurd hh hl2)
    obtain ⟨a1, a2, _⟩ := F64.add_mono_right ht ht2 p1 q1 p2 q2
      (tokensFormDuration_mono hl hl2 e1a (elapsed_mono lim.last h.le) e2b)
    obtain ⟨u1, u2⟩ := advance_spec_ext lim t1 a1
    obtain ⟨v1, v2⟩ := advance_spec_ext lim t2 a2
    rw [F64.ge_iff]
    refine ⟨v1, u1, ?_⟩
    rw [u2, v2]
    exact min_le_min_right _ (sum_mono lim h.le a1 a2)

/-- C7. For every rate and every duration d, tokensFormDuration(rate, d) returns 0 when
rate <= 0 and otherwise returns d.Seconds() multiplied by the rate (as float64). -/
theorem C7_tokensFormDuration (limit : Limit) (d : Duration) :
    (F64.le limit F64.zero = true → tokensFormDuration limit d = F64.zero) ∧
      (F64.le limit F64.zero = false →
        tokensFormDuration limit d = F64.mul (Duration.Seconds d) limit) := by
  constructor
  · intro h
    exact tokensFormDuration_closed h d
  · intro h
    exact tokensFormDuration_open (by rw [h]; simp) d

/-! ### durationFormTokens -/

theorem toInt64_fin (oor : Int) (a : Bool) (e : Fin 2047) (m : Fin 4503599627370496) :
    F64.toInt64 oor (F64.fin a e m) =
      if -9223372036854775808 ≤ F64.truncQ (F64.fin a e m).toRat
          ∧ F64.truncQ (F64.fin a e m).toRat ≤ 9223372036854775807 then
        F64.truncQ (F64.fin a e m).toRat
      else oor := rfl

theorem durationFormTokens_def (oor : Int) (limit : Limit) (tokens : F64) :
    durationFormTokens oor limit tokens =
      if F64.le limit F64.zero = true then InfDuration
      else if F64.gt (F64.mul (F64.div tokens limit) (F64.ofInt Second))
          (F64.ofInt MaxInt64) = true then InfDuration
      else F64.toInt64 oor (F64.mul (F64.div tokens limit) (F64.ofInt Second)) := rfl

/-- The float64 of math.MaxInt64 is 2 ^ 63: the conversion rounds up. -/
theorem maxInt64_ext : (F64.ofInt MaxInt64).ext = (2 : ℚ) ^ (63 : ℤ) := by
  decide!

theorem maxInt64_isNaN : (F64.ofInt MaxInt64).isNaN = false := F64.ofInt_isNaN _

theorem second_isFinite : (F64.ofInt Second).isFinite = true := billion_isFinite

theorem second_ext : (F64.ofInt Second).ext = 1000000000 := billion_ext

/-- The quotient tokens / limit of a non-negative token count by a positive rate is a
non-negative number, unless both are infinite. -/
theorem quotient_nonneg {limit tokens : F64} (hl : limit.isNaN = false)
    (hpos : 0 < limit.ext) (ht : tokens.isNaN = false) (ht0 : 0 ≤ tokens.ext)
    (hinf : ¬ (tokens = F64.inf false ∧ limit = F64.inf false)) :
    (F64.div tokens limit).isNaN = false ∧ 0 ≤ (F64.div tokens limit).ext := by
  have hp := two_zpow_pos (1024 : ℤ)
  cases hT : tokens with
  | nan => rw [hT] at ht; simp [F64.isNaN] at ht
  | inf b =>
    rw [hT] at ht0
    cases b with
    | true => simp [F64.ext] at ht0; linarith
    | false =>
      cases hL : limit with
      | nan => rw [hL] at hl; simp [F64.isNaN] at hl
      | inf a =>
        rw [hL] at hpos
        cases a with
        | true => simp [F64.ext] at hpos; linarith
        | false => exact absurd ⟨hT, hL⟩ hinf
      | fin a e m =>
        rw [hL] at hpos
        have ha : a = false := sign_of_pos hpos
        subst ha
        refine ⟨rfl, ?_⟩
        simp only [F64.div, F64.ext, Bool.xor_false, Bool.false_eq_true, if_false]
        exact hp.le
  | fin b e m =>
    cases hL : limit with
    | nan => rw [hL] at hl; simp [F64.isNaN] at hl
    | inf a =>
      refine ⟨rfl, ?_⟩
      simp only [F64.div]
      rw [F64.ext_fin, F64.toRat_mk_sub _ 0 (by decide)]
      simp
    | fin a e2 m2 =>
      rw [hL] at hpos
      rw [hT] at ht0
      obtain ⟨d1, d2⟩ := F64.div_fin (x := F64.fin b e m) (y := F64.fin a e2 m2) rfl rfl
        hpos.ne'
      exact ⟨d1, by rw [d2]; exact rext_nonneg (div_nonneg ht0 hpos.le)⟩

/-- Scaling a non-negative number of seconds to nanoseconds gives a non-negative number. -/
theorem scaled_nonneg {q : F64} (hq : q.isNaN = false) (hq0 : 0 ≤ q.ext) :
    (F64.mul q (F64.ofInt Second)).isNaN = false ∧
      0 ≤ (F64.mul q (F64.ofInt Second)).ext := by
  have hp := two_zpow_pos (1024 : ℤ)
  have hG := second_isFinite
  have hGe := second_ext
  cases q with
  | nan => simp [F64.isNaN] at hq
  | inf b =>
    cases b with
    | true => simp [F64.ext] at hq0; linarith
    | false =>
      cases hS : F64.ofInt Second with
      | nan => rw [hS] at hG; simp [F64.isFinite] at hG
      | inf c => rw [hS] at hG; simp [F64.isFinite] at hG
      | fin c e m =>
        rw [hS] at hGe
        have hc : c = false := sign_of_pos (by rw [hGe]; norm_num)
        subst hc
        have hz : (F64.fin false e m).isZero = false := by
          cases hh : (F64.fin false e m).isZero
          · rfl
          · have := (F64.isZero_iff_ext (x := F64.fin false e m) rfl).mp hh
            rw [this] at hGe
            norm_num at hGe
        simp only [F64.mul, hz, Bool.false_eq_true, if_false, Bool.xor_false]
        refine ⟨rfl, ?_⟩
        simp only [F64.ext, Bool.false_eq_true, if_false]
        exact hp.le
  | fin b e m =>
    obtain ⟨m1, m2⟩ := F64.mul_fin (x := F64.fin b e m) rfl hG
    refine ⟨m1, ?_⟩
    rw [m2, hGe]
    exact rext_nonneg (mul_nonneg hq0 (by norm_num))

/-- C8 (evaluation at the failing input). With limit 1e9 and tokens float64(MaxInt64),
the product tokens / limit * 1e9 is exactly 2 ^ 63 nanoseconds, which is more than
MaxInt64 nanoseconds; the test duration > float64(MaxInt64) is nevertheless false, and
the function returns the out-of-range conversion result instead of InfDuration. -/
theorem C8_boundary_not_clamped (oor : Int) :
    (F64.mul (F64.div (F64.ofInt 9223372036854775807) (F64.ofInt 1000000000))
        (F64.ofInt Second)).ext = (2 : ℚ) ^ (63 : ℤ) ∧
      durationFormTokens oor (F64.ofInt 1000000000) (F64.ofInt 9223372036854775807) = oor := by
  have hdur : F64.mul (F64.div (F64.ofInt 9223372036854775807) (F64.ofInt 1000000000))
      (F64.ofInt Second)
      = F64.fin false (mkFin 2047 (by decide) 1086) (mkFin 4503599627370496 (by decide) 0) := by
    decide!
  have hval : (F64.fin false (mkFin 2047 (by decide) 1086)
      (mkFin 4503599627370496 (by decide) 0)).ext = (2 : ℚ) ^ (63 : ℤ) := by
    decide!
  have hle : ¬ F64.le (F64.ofInt 1000000000) F64.zero = true := by
    decide!
  have hgt : ¬ F64.gt (F64.fin false (mkFin 2047 (by decide) 1086)
      (mkFin 4503599627370496 (by decide) 0)) (F64.ofInt MaxInt64) = true := by
    decide!
  have hconv : ¬ (-9223372036854775808 ≤ F64.truncQ (F64.fin false (mkFin 2047 (by decide) 1086)
        (mkFin 4503599627370496 (by decide) 0)).toRat
      ∧ F64.truncQ (F64.fin false (mkFin 2047 (by decide) 1086)
        (mkFin 4503599627370496 (by decide) 0)).toRat ≤ 9223372036854775807) := by
    decide!
  refine ⟨by rw [hdur]; exact hval, ?_⟩
  rw [durationFormTokens_def, if_neg hle, hdur, if_neg hgt, toInt64_fin, if_neg hconv]

/-- C9 (as amended). For every rate that is not NaN and every token count >= 0 (not
NaN, and not both infinite), unless the product tokens / rate * 1e9 is exactly 2 ^ 63,
the duration d returned by durationFormTokens satisfies 0 <= d <= InfDuration, and it
is InfDuration for a rate <= 0 and otherwise the integer part of the product clamped
at MaxInt64, whatever an out-of-range conversion would give. -/
theorem C9_duration_in_range (oor : Int) (limit : Limit) (tokens : F64)
    (hl : limit.isNaN = false) (ht : tokens.isNaN = false) (ht0 : 0 ≤ tokens.ext)
    (hinf : ¬ (tokens = F64.inf false ∧ limit = F64.inf false))
    (hb : (F64.mul (F64.div tokens limit) (F64.ofInt Second)).ext ≠ (2 : ℚ) ^ (63 : ℤ)) :
    0 ≤ durationFormTokens oor limit tokens ∧
      durationFormTokens oor limit tokens ≤ InfDuration ∧
      durationFormTokens oor limit tokens =
        (if F64.le limit F64.zero = true then InfDuration
         else min ⌊(F64.mul (F64.div tokens limit) (F64.ofInt Second)).ext⌋ MaxInt64) := by
  rw [durationFormTokens_def]
  by_cases hc : F64.le limit F64.zero = true
  · rw [if_pos hc, if_pos hc]
    unfold InfDuration MaxInt64
    exact ⟨by norm_num, le_rfl, rfl⟩
  · rw [if_neg hc, if_neg hc]
    have hpos := not_le_zero hl hc
    obtain ⟨q1, q2⟩ := quotient_nonneg hl hpos ht ht0 hinf
    obtain ⟨d1, d2⟩ := scaled_nonneg q1 q2
    generalize F64.mul (F64.div tokens limit) (F64.ofInt Second) = dur at hb d1 d2 ⊢
    have h63 : ((9223372036854775808 : ℤ) : ℚ) = (2 : ℚ) ^ (63 : ℤ) := by norm_num
    by_cases hgt : F64.gt dur (F64.ofInt MaxInt64) = true
    · rw [if_pos hgt]
      rw [F64.gt_iff, maxInt64_ext] at hgt
      have hfl : (9223372036854775808 : ℤ) ≤ ⌊dur.ext⌋ := by
        rw [Int.le_floor, h63]; exact hgt.2.2.le
      have hmin : (9223372036854775807 : ℤ) ≤ ⌊dur.ext⌋ := by omega
      unfold InfDuration MaxInt64
      refine ⟨by norm_num, le_rfl, ?_⟩
      rw [min_eq_right hmin]
    · rw [if_neg hgt]
      rw [F64.gt_iff, maxInt64_ext] at hgt
      have hle : dur.ext ≤ (2 : ℚ) ^ (63 : ℤ) :=
        not_lt.mp (fun h => hgt ⟨d1, maxInt64_isNaN, h⟩)
      have hlt : dur.ext < (2 : ℚ) ^ (63 : ℤ) := lt_of_le_of_ne hle hb
      have hp : (2 : ℚ) ^ (63 : ℤ) < (2 : ℚ) ^ (1024 : ℤ) := two_zpow_lt (by norm_num)
      have hp0 := two_zpow_pos (1024 : ℤ)
      have hfin := F64.isFinite_of_ext d1 (by linarith) (by linarith)
      cases dur with
      | nan => simp [F64.isNaN] at d1
      | inf a => simp [F64.isFinite] at hfin
      | fin a e m =>
        rw [F64.ext_fin] at d2 hlt
        have htr : F64.truncQ (F64.fin a e m).toRat = ⌊(F64.fin a e m).toRat⌋ := by
          unfold F64.truncQ; rw [if_pos d2]
        have hf0 : 0 ≤ ⌊(F64.fin a e m).toRat⌋ := Int.floor_nonneg.mpr d2
        have hf1 : ⌊(F64.fin a e m).toRat⌋ < 9223372036854775808 := by
          rw [Int.floor_lt, h63]; exact hlt
        have hf2 : ⌊(F64.fin a e m).toRat⌋ ≤ (9223372036854775807 : ℤ) := by omega
        rw [toInt64_fin, htr, if_pos ⟨by omega, by omega⟩, F64.ext_fin]
        unfold InfDuration MaxInt64
        refine ⟨hf0, hf2, ?_⟩
        rw [min_eq_left hf2]

/-! ### Every -/

theorem one_isFinite : (F64.ofInt 1).isFinite = true :=
  F64.ofInt_isFinite_of_small (by norm_num) (by norm_num)

/-- C10. For every interval <= 0, Every(interval) returns the unlimited rate Inf without
dividing; for every interval > 0 it returns 1 / interval.Seconds(), where the divisor is a
number greater than zero; in both cases the result is a number (not NaN). -/
theorem C10_every (interval : Duration) :
    (interval ≤ 0 → Every interval = Inf) ∧
      (0 < interval →
        Every interval = F64.div (F64.ofInt 1) (Duration.Seconds interval) ∧
          F64.lt F64.zero (Duration.Seconds interval) = true) ∧
      (Every interval).isNaN = false := by
  have h1 : interval ≤ 0 → Every interval = Inf := by
    intro h; unfold Every; rw [if_pos h]
  have h2 : 0 < interval →
      Every interval = F64.div (F64.ofInt 1) (Duration.Seconds interval) := by
    intro h; unfold Every; rw [if_neg (not_le.mpr h)]
  refine ⟨h1, fun h => ⟨h2 h, Seconds_pos h⟩, ?_⟩
  rcases le_or_lt interval 0 with h | h
  · rw [h1 h]; rfl
  · rw [h2 h]
    have hS := Seconds_pos h
    rw [F64.lt_iff, F64.zero_ext] at hS
    have h1f := one_isFinite
    cases hO : F64.ofInt 1 with
    | nan => rw [hO] at h1f; simp [F64.isFinite] at h1f
    | inf a => rw [hO] at h1f; simp [F64.isFinite] at h1f
    | fin a e m =>
      cases hSd : Duration.Seconds interval with
      | nan => rw [hSd] at hS; simp [F64.isNaN] at hS
      | inf b => rfl
      | fin b e2 m2 =>
        rw [hSd] at hS
        exact (F64.div_fin (x := F64.fin a e m) (y := F64.fin b e2 m2) rfl rfl hS.2.2.ne').1

/-! ### Closed statements: counterexamples to the claims as stated, and instances of the
theorems that carry hypotheses -/

/-- C2, counterexample. With a NaN rate the new limiter does not report a full bucket:
NewLimiter(NaN, 1).TokensAt(t) == 1 is false one nanosecond after the zero time. -/
theorem C2_counterexample :
    ¬ (F64.eq ((NewLimiter F64.nan burstOne).TokensAt ⟨1⟩).1 (F64.ofInt burstOne.val) = true) := by
  decide!

/-- C2, instance: rate 2 per second, burst 3, five seconds after the zero time. -/
theorem C2_witness :
    (F64.ofInt 2).isNaN = false ∧
      ((NewLimiter (F64.ofInt 2) burstThree).TokensAt ⟨5000000000⟩).1
        = F64.ofInt burstThree.val :=
  ⟨F64.ofInt_isNaN 2,
    (C2_bucket_starts_full (F64.ofInt 2) burstThree ⟨5000000000⟩ (F64.ofInt_isNaN 2)
      (fun _ => by decide)).1⟩

/-- C3, counterexample. For NewLimiter(NaN, 1) the comparison TokensAt(t) <= burst is
false: the projected balance is NaN. -/
theorem C3_counterexample :
    ¬ (F64.le (nanLimiter.TokensAt ⟨1⟩).1 (F64.ofInt nanLimiter.burst.val) = true) := by
  decide!

/-- C4, counterexample. For NewLimiter(NaN, 1) and the times 0 < 1 the comparison
TokensAt(1) >= TokensAt(0) is false. -/
theorem C4_counterexample :
    (⟨0⟩ : Time).ns < (⟨1⟩ : Time).ns ∧
      ¬ (F64.ge (nanLimiter.TokensAt ⟨1⟩).1 (nanLimiter.TokensAt ⟨0⟩).1 = true) := by
  decide!

/-- C4, instance: rate 2 per second, burst 3, empty at the zero time, queried at the
zero time and one second later. -/
theorem C4_witness :
    (⟨0⟩ : Time).ns < (⟨1000000000⟩ : Time).ns ∧
      F64.lt (sampleLimiter.TokensAt ⟨1000000000⟩).1 (sampleLimiter.TokensAt ⟨0⟩).1 = false ∧
      F64.ge (sampleLimiter.TokensAt ⟨1000000000⟩).1 (sampleLimiter.TokensAt ⟨0⟩).1 = true :=
  ⟨by decide,
    (C4_monotonic_accrual sampleLimiter ⟨0⟩ ⟨1000000000⟩ (by decide)).1,
    (C4_monotonic_accrual sampleLimiter ⟨0⟩ ⟨1000000000⟩ (by decide)).2
      (by decide!) (by decide!) (by decide!) (by decide!)⟩

/-- C6, instance: the closed rate 0 with one stored token of a burst of three. -/
theorem C6_witness :
    F64.le closedLimiter.limit F64.zero = true ∧
      F64.same (closedLimiter.TokensAt ⟨7000000000⟩).1
        (F64.fmin closedLimiter.tokens (F64.ofInt closedLimiter.burst.val)) = true :=
  ⟨by decide!, (C6_closed_gate closedLimiter ⟨7000000000⟩ (by decide!)).1⟩

/-- C9, counterexample. A negative token count gives a negative duration:
durationFormTokens(1, -1) is minus one second. -/
theorem C9_counterexample :
    durationFormTokens MinInt64 (F64.ofInt 1) (F64.ofInt (-1)) = -1000000000 ∧
      ¬ (0 ≤ durationFormTokens MinInt64 (F64.ofInt 1) (F64.ofInt (-1))) := by
  decide!

/-- C9, instance: ten tokens at three per second take 3333333333 nanoseconds. -/
theorem C9_witness :
    (F64.ofInt 3).isNaN = false ∧ (F64.ofInt 10).isNaN = false ∧
      0 ≤ (F64.ofInt 10).ext ∧
      0 ≤ durationFormTokens MinInt64 (F64.ofInt 3) (F64.ofInt 10) ∧
      durationFormTokens MinInt64 (F64.ofInt 3) (F64.ofInt 10) ≤ InfDuration :=
  ⟨by decide!, by decide!, by decide!,
    (C9_duration_in_range MinInt64 (F64.ofInt 3) (F64.ofInt 10) (by decide!) (by decide!)
      (by decide!) (by decide!) (by decide!)).1,
    (C9_duration_in_range MinInt64 (F64.ofInt 3) (F64.ofInt 10) (by decide!) (by decide!)
      (by decide!) (by decide!) (by decide!)).2.1⟩

/-! ### Construction and accessors -/

/-- C12 (as amended). NewLimiter neither rejects nor coerces: for every rate r (NaN
included) and every burst b (negative included) it returns a limiter that holds exactly
r and b, with tokens float64(b), the zero time in last and lastEvent, and a free
mutex. -/
theorem C12_newLimiter_accepts (r : Limit) (b : GoInt) :
    (NewLimiter r b).limit = r ∧ (NewLimiter r b).burst = b ∧
      (NewLimiter r b).tokens = F64.ofInt b.val ∧
      (NewLimiter r b).last = ⟨0⟩ ∧ (NewLimiter r b).lastEvent = ⟨0⟩ ∧
      (NewLimiter r b).mu = false := by
  unfold NewLimiter
  exact ⟨rfl, rfl, rfl, rfl, rfl, rfl⟩

/-- C13. The accessors return the current configuration: NewLimiter(r, b).Limit() is r
(and == r when r is not NaN) and NewLimiter(r, b).Burst() is b; for every limiter state
Limit() and Burst() return the stored limit and burst, keep the fields limit, burst,
tokens, last and lastEvent, release the mutex, and leave a limiter whose mutex was free
unchanged as a whole. -/
theorem C13_accessors (r : Limit) (b : GoInt) (lim : Limiter) :
    ((NewLimiter r b).Limit).1 = r ∧ ((NewLimiter r b).Burst).1 = b ∧
      (r.isNaN = false → F64.eq ((NewLimiter r b).Limit).1 r = true) ∧
      (lim.Limit).1 = lim.limit ∧ (lim.Burst).1 = lim.burst ∧
      ((lim.Limit).2.limit = lim.limit ∧ (lim.Limit).2.burst = lim.burst ∧
        (lim.Limit).2.tokens = lim.tokens ∧ (lim.Limit).2.last = lim.last ∧
        (lim.Limit).2.lastEvent = lim.lastEvent ∧ (lim.Limit).2.mu = false) ∧
      ((lim.Burst).2.limit = lim.limit ∧ (lim.Burst).2.burst = lim.burst ∧
        (lim.Burst).2.tokens = lim.tokens ∧ (lim.Burst).2.last = lim.last ∧
        (lim.Burst).2.lastEvent = lim.lastEvent ∧ (lim.Burst).2.mu = false) ∧
      (lim.mu = false → (lim.Limit).2 = lim ∧ (lim.Burst).2 = lim) := by
  refine ⟨rfl, rfl, ?_, rfl, rfl, ⟨rfl, rfl, rfl, rfl, rfl, rfl⟩,
    ⟨rfl, rfl, rfl, rfl, rfl, rfl⟩, ?_⟩
  · intro hr
    have e : ((NewLimiter r b).Limit).1 = r := rfl
    rw [e, F64.eq_iff]
    exact ⟨hr, hr, rfl⟩
  · intro h
    cases lim
    simp only [Limiter.Limit, Limiter.Burst, Limiter.Lock, Limiter.Unlock] at h ⊢
    rw [h]
    exact ⟨rfl, rfl⟩

/-! ### Stale query times -/

theorem Seconds_zero : Duration.Seconds 0 = F64.zero := by
  decide!

/-- Over a zero duration nothing accrues, for every rate other than NaN and plus
infinity. -/
theorem tokensFormDuration_zero {limit : Limit} (hl : limit.isNaN = false)
    (hl2 : limit ≠ F64.inf false) : tokensFormDuration limit 0 = F64.zero := by
  by_cases hc : F64.le limit F64.zero = true
  · exact tokensFormDuration_closed hc 0
  · rw [tokensFormDuration_open hc, Seconds_zero]
    have hpos := not_le_zero hl hc
    have hp := two_zpow_pos (1024 : ℤ)
    cases hL : limit with
    | nan => rw [hL] at hl; simp [F64.isNaN] at hl
    | inf a =>
      rw [hL] at hpos
      cases a with
      | true => simp [F64.ext] at hpos; linarith
      | false => exact absurd hL hl2
    | fin a e m =>
      rw [hL] at hpos
      have ha : a = false := sign_of_pos hpos
      subst ha
      have hm : F64.mul F64.zero (F64.fin false e m)
          = F64.round false (F64.zero.toRat * (F64.fin false e m).toRat) := rfl
      have hz : F64.zero.toRat = 0 := F64.zero_ext
      rw [hm, hz, zero_mul, F64.round_def, if_pos rfl]
      rfl

/-- When nothing accrues, the projected balance is the value min(tokens, burst). -/
theorem advance_of_no_accrual (lim : Limiter) (t : Time)
    (h : tokensFormDuration lim.limit
        (t.Sub (if t.Before lim.last = true then t else lim.last)) = F64.zero) :
    F64.same (lim.advance t) (F64.fmin lim.tokens (F64.ofInt lim.burst.val)) = true ∧
      (lim.tokens.isNaN = false →
        F64.eq (lim.advance t) (F64.fmin lim.tokens (F64.ofInt lim.burst.val)) = true) := by
  have hB := F64.ofInt_isNaN lim.burst.val
  have hadd := F64.add_zero_spec lim.tokens
  have key : lim.advance t
      = F64.fmin (F64.add lim.tokens F64.zero) (F64.ofInt lim.burst.val) := by
    rw [advance_eq_spec]
    unfold advanceSpec
    rw [h]
  have hnum : lim.tokens.isNaN = false →
      F64.eq (lim.advance t) (F64.fmin lim.tokens (F64.ofInt lim.burst.val)) = true := by
    intro hx
    rw [key, F64.eq_iff]
    have hx2 : (F64.add lim.tokens F64.zero).isNaN = false := by rw [hadd.1, hx]
    obtain ⟨a1, a2⟩ := F64.fmin_spec hx2 hB
    obtain ⟨b1, b2⟩ := F64.fmin_spec hx hB
    exact ⟨a1, b1, by rw [a2, b2, hadd.2]⟩
  refine ⟨?_, hnum⟩
  cases hx : lim.tokens.isNaN
  · have := hnum hx
    rw [F64.eq_iff] at this
    rw [F64.same_iff]
    exact Or.inr this
  · rw [key, F64.same_iff]
    left
    have e1 := F64.isNaN_eq_true hx
    have e2 : F64.add lim.tokens F64.zero = F64.nan :=
      F64.isNaN_eq_true (by rw [hadd.1, hx])
    rw [e2, e1, F64.fmin_nan_left]
    exact ⟨rfl, rfl⟩

/-- C14 (as amended). For every limiter state whose limit is neither NaN nor plus
infinity: at every query time t at or before last, TokensAt(t) is the value
min(tokens, burst) (== when the stored tokens are not NaN), whatever the sign of the
limit; and at every query time whatsoever TokensAt(t) >= min(tokens, burst), when the
stored tokens are neither NaN nor minus infinity. -/
theorem C14_stale_time (lim : Limiter) (t : Time) (hl : lim.limit.isNaN = false)
    (hl2 : lim.limit ≠ F64.inf false) :
    (t.ns ≤ lim.last.ns →
      F64.same (lim.TokensAt t).1 (F64.fmin lim.tokens (F64.ofInt lim.burst.val)) = true ∧
      (lim.tokens.isNaN = false →
        F64.eq (lim.TokensAt t).1 (F64.fmin lim.tokens (F64.ofInt lim.burst.val)) = true)) ∧
    (lim.tokens.isNaN = false → lim.tokens ≠ F64.inf true →
      F64.ge (lim.TokensAt t).1 (F64.fmin lim.tokens (F64.ofInt lim.burst.val)) = true) := by
  rw [TokensAt_fst]
  constructor
  · intro hst
    apply advance_of_no_accrual
    rw [elapsed_stale lim.last t hst]
    exact tokensFormDuration_zero hl hl2
  · intro ht ht2
    have hB := F64.ofInt_isNaN lim.burst.val
    have e1a := elapsed_nonneg lim.last t
    have e1b := elapsed_le lim.last t
    obtain ⟨p1, p2⟩ := tokensFormDuration_nonneg hl e1a e1b (fun hh => absurd hh hl2)
    obtain ⟨_, a2, a3⟩ := F64.add_mono_right ht ht2 F64.zero_isNaN p1
      (by rw [F64.zero_ext]) p2 (by rw [F64.zero_ext]; exact p2)
    rw [(F64.add_zero_spec lim.tokens).2] at a3
    obtain ⟨u1, u2⟩ := advance_spec_ext lim t a2
    obtain ⟨v1, v2⟩ := F64.fmin_spec ht hB
    rw [F64.ge_iff]
    refine ⟨u1, v1, ?_⟩
    rw [u2, v2]
    exact min_le_min_right _ a3

/-! ### The unlimited rate -/

/-- The seconds count of a positive int64 duration lies between 2 ^ (-30) and 2 ^ 34. -/
theorem Seconds_bounds {d : ℤ} (h0 : 0 < d) (h1 : d ≤ 9223372036854775807) :
    (2 : ℚ) ^ (-30 : ℤ) ≤ (Duration.Seconds d).ext ∧
      (Duration.Seconds d).ext ≤ (2 : ℚ) ^ (34 : ℤ) := by
  obtain ⟨_, e, _⟩ := Seconds_spec h0.le h1
  have hs0 : 0 ≤ d / 1000000000 := Int.ediv_nonneg h0.le (by norm_num)
  have hs1 : d / 1000000000 ≤ 9223372036 := by omega
  have hn0 : 0 ≤ d % 1000000000 := Int.emod_nonneg _ (by norm_num)
  have hn1 : d % 1000000000 < 1000000000 := Int.emod_lt_of_pos _ (by norm_num)
  obtain ⟨_, _, f3, f4⟩ := frac_spec hn0 hn1
  have hsq0 : (0 : ℚ) ≤ ((d / 1000000000 : ℤ) : ℚ) := by exact_mod_cast hs0
  have hsq1 : ((d / 1000000000 : ℤ) : ℚ) ≤ 9223372036 := by exact_mod_cast hs1
  rw [e]
  constructor
  · have hsum : (2 : ℚ) ^ (-30 : ℤ) ≤ ((d / 1000000000 : ℤ) : ℚ)
        + rext (((d % 1000000000 : ℤ) : ℚ) / 1000000000) := by
      rcases lt_or_ge 0 (d / 1000000000) with hpos | hzero
      · have h1 : (1 : ℚ) ≤ ((d / 1000000000 : ℤ) : ℚ) := by exact_mod_cast hpos
        have : (2 : ℚ) ^ (-30 : ℤ) ≤ 1 := by norm_num
        linarith
      · have hnpos : 1 ≤ d % 1000000000 := by omega
        have h1 : (2 : ℚ) ^ (-30 : ℤ) ≤ ((d % 1000000000 : ℤ) : ℚ) / 1000000000 := by
          have : (1 : ℚ) ≤ ((d % 1000000000 : ℤ) : ℚ) := by exact_mod_cast hnpos
          rw [le_div_iff₀ (by norm_num)]
          norm_num
          linarith
        have := rext_mono h1
        rw [F64.rext_two_zpow (by norm_num) (by norm_num)] at this
        linarith
    have := rext_mono hsum
    rwa [F64.rext_two_zpow (by norm_num) (by norm_num)] at this
  · have : ((d / 1000000000 : ℤ) : ℚ) + rext (((d % 1000000000 : ℤ) : ℚ) / 1000000000)
        ≤ (2 : ℚ) ^ (34 : ℤ) := by norm_num; linarith
    have := rext_mono this
    rwa [F64.rext_two_zpow (by norm_num) (by norm_num)] at this

theorem Inf_isFinite : F64.isFinite Inf = true := rfl

theorem Inf_ext_ge : (2 : ℚ) ^ (1023 : ℤ) ≤ F64.ext Inf := by
  decide!

theorem Inf_not_closed : ¬ F64.le Inf F64.zero = true := by
  decide!

theorem negMaxInt64_ext : (F64.ofInt (-MaxInt64)).ext = -(2 : ℚ) ^ (63 : ℤ) := by
  decide!

/-- At the rate Inf, the accrual over at least one nanosecond is at least 2 ^ 993. -/
theorem unlimited_accrual {d : ℤ} (h0 : 0 < d) (h1 : d ≤ 9223372036854775807) :
    (tokensFormDuration Inf d).isNaN = false ∧
      (2 : ℚ) ^ (993 : ℤ) ≤ (tokensFormDuration Inf d).ext := by
  rw [tokensFormDuration_open Inf_not_closed]
  obtain ⟨s1, _, _⟩ := Seconds_spec h0.le h1
  obtain ⟨b1, _⟩ := Seconds_bounds h0 h1
  obtain ⟨m1, m2⟩ := F64.mul_fin s1 Inf_isFinite
  refine ⟨m1, ?_⟩
  rw [m2]
  have h30 := two_zpow_pos (-30 : ℤ)
  have hprod : (2 : ℚ) ^ (993 : ℤ) ≤ (Duration.Seconds d).ext * F64.ext Inf := by
    have e : (2 : ℚ) ^ (993 : ℤ) = (2 : ℚ) ^ (-30 : ℤ) * (2 : ℚ) ^ (1023 : ℤ) := by
      rw [← two_zpow_add]; norm_num
    rw [e]
    exact mul_le_mul b1 Inf_ext_ge (two_zpow_pos _).le (le_trans h30.le b1)
  have := rext_mono hprod
  rwa [F64.rext_two_zpow (by norm_num) (by norm_num)] at this

/-- Adding an accrual of at least 2 ^ 993 to a balance of at least -2 ^ 63 gives at
least 2 ^ 992. -/
theorem add_huge {x y : F64} (hx : x.isNaN = false) (hx0 : -(2 : ℚ) ^ (63 : ℤ) ≤ x.ext)
    (hy : y.isNaN = false) (hy0 : (2 : ℚ) ^ (993 : ℤ) ≤ y.ext) :
    (F64.add x y).isNaN = false ∧ (2 : ℚ) ^ (992 : ℤ) ≤ (F64.add x y).ext := by
  have hp := two_zpow_pos (1024 : ℤ)
  have h63 : (2 : ℚ) ^ (63 : ℤ) < (2 : ℚ) ^ (1024 : ℤ) := two_zpow_lt (by norm_num)
  have h992 : (2 : ℚ) ^ (992 : ℤ) ≤ (2 : ℚ) ^ (1024 : ℤ) := two_zpow_le (by norm_num)
  have h993 := two_zpow_pos (993 : ℤ)
  cases x with
  | nan => simp [F64.isNaN] at hx
  | inf a =>
    cases a with
    | true =>
      have e : (F64.inf true).ext = -(2 : ℚ) ^ (1024 : ℤ) := rfl
      rw [e] at hx0; linarith
    | false =>
      cases y with
      | nan => simp [F64.isNaN] at hy
      | inf b =>
        cases b with
        | true =>
          have e : (F64.inf true).ext = -(2 : ℚ) ^ (1024 : ℤ) := rfl
          rw [e] at hy0; linarith
        | false =>
          refine ⟨rfl, ?_⟩
          simp only [F64.add, F64.ext, if_true, Bool.false_eq_true, if_false]
          exact h992
      | fin b e m =>
        refine ⟨rfl, ?_⟩
        simp only [F64.add, F64.ext, Bool.false_eq_true, if_false]
        exact h992
  | fin a e m =>
    cases y with
    | nan => simp [F64.isNaN] at hy
    | inf b =>
      cases b with
      | true =>
        have e : (F64.inf true).ext = -(2 : ℚ) ^ (1024 : ℤ) := rfl
        rw [e] at hy0; linarith
      | false =>
        refine ⟨rfl, ?_⟩
        simp only [F64.add, F64.ext, Bool.false_eq_true, if_false]
        exact h992
    | fin b e2 m2 =>
      obtain ⟨a1, a2⟩ := F64.add_fin (x := F64.fin a e m) (y := F64.fin b e2 m2) rfl rfl
      refine ⟨a1, ?_⟩
      rw [a2]
      have hsum : (2 : ℚ) ^ (992 : ℤ) ≤ (F64.fin a e m).ext + (F64.fin b e2 m2).ext := by
        have e1 : (2 : ℚ) ^ (993 : ℤ) = 2 * (2 : ℚ) ^ (992 : ℤ) := by
          rw [← two_zpow_succ]; norm_num
        have e2 : (2 : ℚ) ^ (63 : ℤ) ≤ (2 : ℚ) ^ (992 : ℤ) := two_zpow_le (by norm_num)
        linarith
      have := rext_mono hsum
      rwa [F64.rext_two_zpow (by norm_num) (by norm_num)] at this

/-- C15. Unlimited rate: for every limiter state with limit == Inf (MaxFloat64), every
burst, stored tokens >= -MaxInt64, and every query time t at least one nanosecond after
last, TokensAt(t) is float64(burst), so TokensAt(t) == burst: the bucket is full. -/
theorem C15_unlimited_rate (lim : Limiter) (t : Time) (hl : lim.limit = Inf)
    (ht : F64.ge lim.tokens (F64.ofInt (-MaxInt64)) = true)
    (h : lim.last.ns + 1 ≤ t.ns) :
    (lim.TokensAt t).1 = F64.ofInt lim.burst.val ∧
      F64.eq (lim.TokensAt t).1 (F64.ofInt lim.burst.val) = true := by
  have hBn := F64.ofInt_isNaN lim.burst.val
  have hB := F64.ofInt_bounds lim.burst.property.1 lim.burst.property.2
  rw [F64.ge_iff, negMaxInt64_ext] at ht
  have main : (lim.TokensAt t).1 = F64.ofInt lim.burst.val := by
    rw [TokensAt_fst, advance_def, hl]
    have d0 := elapsed_pos lim.last t (by omega)
    have d1 := elapsed_le lim.last t
    obtain ⟨p1, p2⟩ := unlimited_accrual d0 d1
    obtain ⟨a1, a2⟩ := add_huge ht.1 ht.2.2 p1 p2
    rw [if_pos]
    rw [F64.gt_iff]
    refine ⟨a1, hBn, ?_⟩
    have : (2 : ℚ) ^ (63 : ℤ) < (2 : ℚ) ^ (992 : ℤ) := two_zpow_lt (by norm_num)
    linarith [hB.2.2]
  refine ⟨main, ?_⟩
  rw [main, F64.eq_iff]
  exact ⟨hBn, hBn, rfl⟩

/-- C18. At the unlimited rate the wait is zero: for limit == Inf (MaxFloat64) and every
token count with 0 <= tokens <= MaxInt64, the product tokens / Inf * 1e9 is a number
below one nanosecond, the overflow test duration > float64(MaxInt64) is false, and
durationFormTokens(Inf, tokens) == 0 (whatever an out-of-range conversion gives). -/
theorem C18_unlimited_wait (oor : Int) (tokens : F64)
    (h0 : F64.le F64.zero tokens = true)
    (h1 : F64.le tokens (F64.ofInt MaxInt64) = true) :
    durationFormTokens oor Inf tokens = 0 ∧
      F64.lt (F64.mul (F64.div tokens Inf) (F64.ofInt Second)) (F64.ofInt 1) = true ∧
      F64.gt (F64.mul (F64.div tokens Inf) (F64.ofInt Second)) (F64.ofInt MaxInt64)
        = false := by
  rw [F64.le_iff, F64.zero_ext] at h0
  rw [F64.le_iff, maxInt64_ext] at h1
  have hp := two_zpow_pos (1024 : ℤ)
  have h63 : (2 : ℚ) ^ (63 : ℤ) < (2 : ℚ) ^ (1024 : ℤ) := two_zpow_lt (by norm_num)
  have hT := F64.isFinite_of_ext h0.2.1 (by linarith [h0.2.2]) (by linarith [h1.2.2])
  have hI := Inf_ext_ge
  have hIpos : (0 : ℚ) < F64.ext Inf := lt_of_lt_of_le (two_zpow_pos _) hI
  -- the quotient
  obtain ⟨q1, q2⟩ := F64.div_fin hT Inf_isFinite hIpos.ne'
  have hq0 : 0 ≤ (F64.div tokens Inf).ext := by
    rw [q2]; exact rext_nonneg (div_nonneg h0.2.2 hIpos.le)
  have hq1 : (F64.div tokens Inf).ext ≤ (2 : ℚ) ^ (-960 : ℤ) := by
    rw [q2]
    have : tokens.ext / F64.ext Inf ≤ (2 : ℚ) ^ (-960 : ℤ) := by
      rw [div_le_iff₀ hIpos]
      have e : (2 : ℚ) ^ (63 : ℤ) = (2 : ℚ) ^ (-960 : ℤ) * (2 : ℚ) ^ (1023 : ℤ) := by
        rw [← two_zpow_add]; norm_num
      calc tokens.ext ≤ (2 : ℚ) ^ (63 : ℤ) := h1.2.2
        _ = (2 : ℚ) ^ (-960 : ℤ) * (2 : ℚ) ^ (1023 : ℤ) := e
        _ ≤ (2 : ℚ) ^ (-960 : ℤ) * F64.ext Inf :=
            mul_le_mul_of_nonneg_left hI (two_zpow_pos _).le
    have := rext_mono this
    rwa [F64.rext_two_zpow (by norm_num) (by norm_num)] at this
  have h960 : (2 : ℚ) ^ (-960 : ℤ) < (2 : ℚ) ^ (1024 : ℤ) := two_zpow_lt (by norm_num)
  have hQ := F64.isFinite_of_ext q1 (by linarith) (by linarith)
  -- the product with 1e9
  obtain ⟨m1, m2⟩ := F64.mul_fin hQ second_isFinite
  rw [second_ext] at m2
  have hd0 : 0 ≤ (F64.mul (F64.div tokens Inf) (F64.ofInt Second)).ext := by
    rw [m2]; exact rext_nonneg (mul_nonneg hq0 (by norm_num))
  have hd1 : (F64.mul (F64.div tokens Inf) (F64.ofInt Second)).ext
      ≤ (2 : ℚ) ^ (-930 : ℤ) := by
    rw [m2]
    have : (F64.div tokens Inf).ext * 1000000000 ≤ (2 : ℚ) ^ (-930 : ℤ) := by
      have e : (2 : ℚ) ^ (-930 : ℤ) = (2 : ℚ) ^ (-960 : ℤ) * (2 : ℚ) ^ (30 : ℤ) := by
        rw [← two_zpow_add]; norm_num
      rw [e]
      exact mul_le_mul hq1 (by norm_num) (by norm_num) (two_zpow_pos _).le
    have := rext_mono this
    rwa [F64.rext_two_zpow (by norm_num) (by norm_num)] at this
  have h930 : (2 : ℚ) ^ (-930 : ℤ) < 1 := by
    have := two_zpow_lt (a := -930) (b := 0) (by norm_num)
    simpa using this
  have hone : (F64.ofInt 1).ext = 1 := by
    rw [F64.ofInt_ext_of_small (by norm_num) (by norm_num)]; norm_num
  have hlt1 : F64.lt (F64.mul (F64.div tokens Inf) (F64.ofInt Second)) (F64.ofInt 1)
      = true := by
    rw [F64.lt_iff, hone]
    exact ⟨m1, F64.ofInt_isNaN 1, by linarith⟩
  have hgt : ¬ F64.gt (F64.mul (F64.div tokens Inf) (F64.ofInt Second))
      (F64.ofInt MaxInt64) = true := by
    rw [F64.gt_iff, maxInt64_ext]
    intro hh
    have h63' : (1 : ℚ) < (2 : ℚ) ^ (63 : ℤ) := by norm_num
    linarith [hh.2.2]
  refine ⟨?_, hlt1, by simpa using hgt⟩
  rw [durationFormTokens_def, if_neg Inf_not_closed, if_neg hgt]
  have h1024 : (1 : ℚ) < (2 : ℚ) ^ (1024 : ℤ) := by linarith [h63]
  have hfin := F64.isFinite_of_ext m1 (by linarith) (by linarith)
  generalize F64.mul (F64.div tokens Inf) (F64.ofInt Second) = dur at hd0 hd1 hfin
  cases dur with
  | nan => simp [F64.isFinite] at hfin
  | inf a => simp [F64.isFinite] at hfin
  | fin a e m =>
    rw [F64.ext_fin] at hd0 hd1
    have htr : F64.truncQ (F64.fin a e m).toRat = 0 := by
      unfold F64.truncQ
      rw [if_pos hd0, Int.floor_eq_iff]
      exact ⟨by simpa using hd0, by simp; linarith⟩
    rw [toInt64_fin, htr, if_pos ⟨by norm_num, by norm_num⟩]

/-! ### The error of one rounding -/

theorem rne_sub_le (x : ℚ) : (rne x : ℚ) ≤ x + 1 / 2 ∧ x - 1 / 2 ≤ (rne x : ℚ) := by
  have h1 := Int.floor_le x
  have h2 := Int.lt_floor_add_one x
  unfold rne
  split_ifs with a b c
  · constructor <;> linarith
  · push_cast; constructor <;> linarith
  · have : x - (⌊x⌋ : ℚ) = 1 / 2 := le_antisymm (not_lt.mp b) (not_lt.mp a)
    constructor <;> linarith
  · have : x - (⌊x⌋ : ℚ) = 1 / 2 := le_antisymm (not_lt.mp b) (not_lt.mp a)
    push_cast; constructor <;> linarith

theorem unitRoundoff_eq : unitRoundoff = (2 : ℚ) ^ (-53 : ℤ) := by
  unfold unitRoundoff; norm_num

theorem unitRoundoff_pos : 0 < unitRoundoff := by
  unfold unitRoundoff; norm_num

theorem unitRoundoff_lt : unitRoundoff < 1 / 1000000 := by
  unfold unitRoundoff; norm_num

/-- Rounding a positive number of the normal range changes it by at most the relative
error 2 ^ (-53). -/
theorem rext_rel {q : ℚ} (h1 : (2 : ℚ) ^ (-1022 : ℤ) ≤ q) (h2 : q ≤ (2 : ℚ) ^ (1023 : ℤ)) :
    q * (1 - unitRoundoff) ≤ rext q ∧ rext q ≤ q * (1 + unitRoundoff) := by
  have hq : 0 < q := lt_of_lt_of_le (two_zpow_pos _) h1
  have hn : -1022 ≤ ilog2 q := le_ilog2 hq h1
  have he : expOf q = ilog2 q := max_eq_left hn
  have he2 : expOf q ≤ 1023 := by
    rw [he]
    by_contra hc
    have := (ilog2_spec hq).1
    have h3 : (2 : ℚ) ^ (1023 : ℤ) < (2 : ℚ) ^ (ilog2 q) := two_zpow_lt (by omega)
    linarith
  have hbot := magVal_ge_bot hq hn
  have htop : magVal q ≤ (2 : ℚ) ^ (1024 : ℤ) :=
    le_trans (magVal_le_top hq) (two_zpow_le (by omega))
  have hr : rext q = magVal q := by
    unfold rext
    rw [if_neg hq.ne', if_neg (not_lt.mpr hq.le)]
    exact min_eq_left htop
  have hp := two_zpow_pos (expOf q - 52)
  obtain ⟨r1, r2⟩ := rne_sub_le (q / (2 : ℚ) ^ (expOf q - 52))
  have hscale : q / (2 : ℚ) ^ (expOf q - 52) * (2 : ℚ) ^ (expOf q - 52) = q :=
    div_mul_cancel₀ q hp.ne'
  have hhalf : (1 / 2 : ℚ) * (2 : ℚ) ^ (expOf q - 52) ≤ q * unitRoundoff := by
    have e1 : (2 : ℚ) ^ (expOf q) = 4503599627370496 * (2 : ℚ) ^ (expOf q - 52) := by
      have := zp52 (expOf q); push_cast at this; exact this
    have e2 : (2 : ℚ) ^ (expOf q) ≤ q := by rw [he]; exact (ilog2_spec hq).1
    unfold unitRoundoff
    have : (1 / 2 : ℚ) * (2 : ℚ) ^ (expOf q - 52)
        = (2 : ℚ) ^ (expOf q) * (1 / 9007199254740992) := by rw [e1]; ring
    rw [this]
    exact mul_le_mul_of_nonneg_right e2 (by norm_num)
  have hmv : magVal q = (rne (q / (2 : ℚ) ^ (expOf q - 52)) : ℚ) * (2 : ℚ) ^ (expOf q - 52) :=
    rfl
  have up : magVal q ≤ q + (1 / 2 : ℚ) * (2 : ℚ) ^ (expOf q - 52) := by
    rw [hmv]
    have := mul_le_mul_of_nonneg_right r1 hp.le
    rw [add_mul, hscale] at this
    exact this
  have lo : q - (1 / 2 : ℚ) * (2 : ℚ) ^ (expOf q - 52) ≤ magVal q := by
    rw [hmv]
    have := mul_le_mul_of_nonneg_right r2 hp.le
    rw [sub_mul, hscale] at this
    exact this
  rw [hr]
  constructor
  · have : q * (1 - unitRoundoff) = q - q * unitRoundoff := by ring
    rw [this]; linarith
  · have : q * (1 + unitRoundoff) = q + q * unitRoundoff := by ring
    rw [this]; linarith

/-- The same bound relative to a reference value c, when q lies between c * lo and
c * hi. -/
theorem rext_encl {q c lo hi : ℚ} (h1 : c * lo ≤ q) (h2 : q ≤ c * hi)
    (n1 : (2 : ℚ) ^ (-1022 : ℤ) ≤ c * lo) (n2 : c * hi ≤ (2 : ℚ) ^ (1023 : ℤ)) :
    c * (lo * (1 - unitRoundoff)) ≤ rext q ∧ rext q ≤ c * (hi * (1 + unitRoundoff)) := by
  have hu := unitRoundoff_pos
  have hu1 := unitRoundoff_lt
  obtain ⟨a, b⟩ := rext_rel (le_trans n1 h1) (le_trans h2 n2)
  constructor
  · calc c * (lo * (1 - unitRoundoff)) = c * lo * (1 - unitRoundoff) := by ring
      _ ≤ q * (1 - unitRoundoff) := mul_le_mul_of_nonneg_right h1 (by linarith)
      _ ≤ rext q := a
  · calc rext q ≤ q * (1 + unitRoundoff) := b
      _ ≤ c * hi * (1 + unitRoundoff) := mul_le_mul_of_nonneg_right h2 (by linarith)
      _ = c * (hi * (1 + unitRoundoff)) := by ring

/-! ### The accuracy of Duration.Seconds -/

/-- The seconds count of a positive int64 duration d is d / 1e9 up to two roundings. -/
theorem Seconds_rel {d : ℤ} (h0 : 0 < d) (h1 : d ≤ 9223372036854775807) :
    (d : ℚ) / 1000000000 * ((1 - unitRoundoff) * (1 - unitRoundoff))
        ≤ (Duration.Seconds d).ext ∧
      (Duration.Seconds d).ext
        ≤ (d : ℚ) / 1000000000 * ((1 + unitRoundoff) * (1 + unitRoundoff)) := by
  have hu := unitRoundoff_pos
  have hu1 := unitRoundoff_lt
  obtain ⟨_, e, _⟩ := Seconds_spec h0.le h1
  have hs0 : 0 ≤ d / 1000000000 := Int.ediv_nonneg h0.le (by norm_num)
  have hs1 : d / 1000000000 ≤ 9223372036 := by omega
  have hn0 : 0 ≤ d % 1000000000 := Int.emod_nonneg _ (by norm_num)
  have hn1 : d % 1000000000 < 1000000000 := Int.emod_lt_of_pos _ (by norm_num)
  have hsplit : (d : ℚ) / 1000000000
      = ((d / 1000000000 : ℤ) : ℚ) + ((d % 1000000000 : ℤ) : ℚ) / 1000000000 := by
    have := Int.ediv_add_emod d 1000000000
    have h2 : (d : ℚ) = 1000000000 * ((d / 1000000000 : ℤ) : ℚ) + ((d % 1000000000 : ℤ) : ℚ) := by
      exact_mod_cast this.symm
    rw [h2]; field_simp; ring
  have hsq0 : (0 : ℚ) ≤ ((d / 1000000000 : ℤ) : ℚ) := by exact_mod_cast hs0
  have hsq1 : ((d / 1000000000 : ℤ) : ℚ) ≤ 9223372036 := by exact_mod_cast hs1
  have hnq0 : (0 : ℚ) ≤ ((d % 1000000000 : ℤ) : ℚ) := by exact_mod_cast hn0
  have hnq1 : ((d % 1000000000 : ℤ) : ℚ) < 1000000000 := by exact_mod_cast hn1
  set sec : ℚ := ((d / 1000000000 : ℤ) : ℚ) with hsec
  set fr : ℚ := ((d % 1000000000 : ℤ) : ℚ) / 1000000000 with hfr
  have hfr0 : 0 ≤ fr := div_nonneg hnq0 (by norm_num)
  have hfr1 : fr ≤ 1 := by rw [hfr, div_le_one (by norm_num)]; exact hnq1.le
  have hD : (0 : ℚ) < (d : ℚ) / 1000000000 := by
    apply div_pos _ (by norm_num); exact_mod_cast h0
  -- the fraction after its rounding
  have hf : fr * (1 - unitRoundoff) ≤ rext fr ∧ rext fr ≤ fr * (1 + unitRoundoff) := by
    rcases eq_or_lt_of_le hn0 with hz | hpos
    · have : fr = 0 := by rw [hfr, ← hz]; simp
      rw [this, rext_zero]; simp
    · have hge : (1 : ℚ) ≤ ((d % 1000000000 : ℤ) : ℚ) := by exact_mod_cast hpos
      apply rext_rel
      · have : (2 : ℚ) ^ (-1022 : ℤ) ≤ (2 : ℚ) ^ (-30 : ℤ) := two_zpow_le (by norm_num)
        refine le_trans this ?_
        rw [hfr, le_div_iff₀ (by norm_num)]
        norm_num; linarith
      · have : (1 : ℚ) ≤ (2 : ℚ) ^ (1023 : ℤ) := by
          have := two_zpow_le (a := 0) (b := 1023) (by norm_num)
          simpa using this
        linarith
  rw [e, hsplit]
  -- the sum lies within one rounding of d / 1e9
  have hsum1 : (sec + fr) * (1 - unitRoundoff) ≤ sec + rext fr := by
    have : sec * (1 - unitRoundoff) ≤ sec := by nlinarith
    nlinarith [hf.1]
  have hsum2 : sec + rext fr ≤ (sec + fr) * (1 + unitRoundoff) := by
    have : sec ≤ sec * (1 + unitRoundoff) := by nlinarith
    nlinarith [hf.2]
  rw [← hsplit] at hsum1 hsum2 ⊢
  have key := @rext_encl (sec + rext fr) ((d : ℚ) / 1000000000)
    (1 - unitRoundoff) (1 + unitRoundoff) hsum1 hsum2
  apply key
  · -- at least 2 ^ (-1022)
    have h30 : (2 : ℚ) ^ (-1022 : ℤ) ≤ (2 : ℚ) ^ (-31 : ℤ) := two_zpow_le (by norm_num)
    refine le_trans h30 ?_
    have hd1 : (1 : ℚ) ≤ (d : ℚ) := by exact_mod_cast h0
    have : (1 : ℚ) / 1000000000 ≤ (d : ℚ) / 1000000000 :=
      div_le_div_of_nonneg_right hd1 (by norm_num)
    have h31 : (2 : ℚ) ^ (-31 : ℤ) ≤ 1 / 1000000000 * (1 / 2) := by norm_num
    calc (2 : ℚ) ^ (-31 : ℤ) ≤ 1 / 1000000000 * (1 / 2) := h31
      _ ≤ (d : ℚ) / 1000000000 * (1 - unitRoundoff) :=
          mul_le_mul this (by linarith) (by norm_num) hD.le
  · have hd2 : (d : ℚ) ≤ 9223372036854775807 := by exact_mod_cast h1
    have : (d : ℚ) / 1000000000 ≤ 9223372037 := by
      rw [div_le_iff₀ (by norm_num)]; linarith
    have h40 : (9223372037 : ℚ) * 2 ≤ (2 : ℚ) ^ (1023 : ℤ) := by
      have := two_zpow_le (a := 40) (b := 1023) (by norm_num)
      have h2 : (9223372037 : ℚ) * 2 ≤ (2 : ℚ) ^ (40 : ℤ) := by norm_num
      linarith
    calc (d : ℚ) / 1000000000 * (1 + unitRoundoff) ≤ 9223372037 * 2 :=
          mul_le_mul this (by linarith) (by linarith) (by norm_num)
      _ ≤ (2 : ℚ) ^ (1023 : ℤ) := h40

/-! ### One interval at the rate Every(interval) -/

theorem one_ext : (F64.ofInt 1).ext = 1 := by
  rw [F64.ofInt_ext_of_small (by norm_num) (by norm_num)]; norm_num

theorem predOne_ext : predOne.ext = 1 - unitRoundoff := by
  decide!

theorem rext_below_one : rext (1 - unitRoundoff) = 1 - unitRoundoff := by
  decide!

theorem rext_above_one : rext (1 + unitRoundoff) = 1 := by
  decide!

/-- No float64 lies strictly between 1 - 2 ^ (-53) and 1. -/
theorem gap_below_one {x : F64} (hx : x.isFinite = true) (h1 : 1 / 2 ≤ x.ext)
    (h2 : x.ext < 1) : x.ext ≤ 1 - unitRoundoff := by
  have hq : (0 : ℚ) < x.ext := by linarith
  have hfix := F64.rext_ext hx
  have hlog : ilog2 x.ext = -1 := by
    apply ilog2_unique hq
    · norm_num; linarith
    · norm_num; exact h2
  have hexp : expOf x.ext = -1 := by
    unfold expOf; rw [hlog]; norm_num
  have htop : magVal x.ext ≤ (2 : ℚ) ^ (1024 : ℤ) := by
    have := magVal_le_top hq
    rw [hexp] at this
    exact le_trans this (two_zpow_le (by norm_num))
  have hmv : rext x.ext = magVal x.ext := by
    unfold rext
    rw [if_neg hq.ne', if_neg (not_lt.mpr hq.le)]
    exact min_eq_left htop
  rw [hmv] at hfix
  unfold magVal at hfix
  rw [hexp] at hfix
  set R : ℤ := rne (x.ext / (2 : ℚ) ^ ((-1 : ℤ) - 52)) with hR
  have hpow : (2 : ℚ) ^ ((-1 : ℤ) - 52) = 1 / 9007199254740992 := by norm_num
  rw [hpow] at hfix
  have hRlt : (R : ℚ) < 9007199254740992 := by
    have : (R : ℚ) * (1 / 9007199254740992) < 1 := by rw [hfix]; exact h2
    linarith
  have hRle : R ≤ 9007199254740991 := by
    have : R < 9007199254740992 := by exact_mod_cast hRlt
    omega
  have hRq : (R : ℚ) ≤ 9007199254740991 := by exact_mod_cast hRle
  rw [← hfix]
  unfold unitRoundoff
  linarith

/-- The rate Every(interval) is the reciprocal of the seconds count up to one
rounding. -/
theorem Every_rel {d : ℤ} (h0 : 0 < d) (h1 : d ≤ 9223372036854775807) :
    (Every d).isFinite = true ∧
      1 / (Duration.Seconds d).ext * (1 - unitRoundoff) ≤ (Every d).ext ∧
      (Every d).ext ≤ 1 / (Duration.Seconds d).ext * (1 + unitRoundoff) := by
  have hu := unitRoundoff_pos
  have hu1 := unitRoundoff_lt
  obtain ⟨s1, _, _⟩ := Seconds_spec h0.le h1
  obtain ⟨b1, b2⟩ := Seconds_bounds h0 h1
  have hx : (0 : ℚ) < (Duration.Seconds d).ext := lt_of_lt_of_le (two_zpow_pos _) b1
  have hE : Every d = F64.div (F64.ofInt 1) (Duration.Seconds d) := by
    unfold Every; rw [if_neg (not_le.mpr h0)]
  obtain ⟨q1, q2⟩ := F64.div_fin one_isFinite s1 hx.ne'
  rw [one_ext] at q2
  rw [hE, q2]
  have hlo : (2 : ℚ) ^ (-34 : ℤ) ≤ 1 / (Duration.Seconds d).ext := by
    rw [le_div_iff₀ hx]
    calc (2 : ℚ) ^ (-34 : ℤ) * (Duration.Seconds d).ext
        ≤ (2 : ℚ) ^ (-34 : ℤ) * (2 : ℚ) ^ (34 : ℤ) :=
          mul_le_mul_of_nonneg_left b2 (two_zpow_pos _).le
      _ = 1 := by rw [← two_zpow_add]; norm_num
  have hhi : 1 / (Duration.Seconds d).ext ≤ (2 : ℚ) ^ (30 : ℤ) := by
    rw [div_le_iff₀ hx]
    calc (1 : ℚ) = (2 : ℚ) ^ (30 : ℤ) * (2 : ℚ) ^ (-30 : ℤ) := by
          rw [← two_zpow_add]; norm_num
      _ ≤ (2 : ℚ) ^ (30 : ℤ) * (Duration.Seconds d).ext :=
          mul_le_mul_of_nonneg_left b1 (two_zpow_pos _).le
  obtain ⟨r1, r2⟩ := rext_rel (le_trans (two_zpow_le (by norm_num)) hlo)
    (le_trans hhi (two_zpow_le (by norm_num)))
  refine ⟨?_, r1, r2⟩
  have hp := two_zpow_pos (1024 : ℤ)
  have h31 : (2 : ℚ) ^ (30 : ℤ) * 2 < (2 : ℚ) ^ (1024 : ℤ) := by
    have := two_zpow_lt (a := 31) (b := 1024) (by norm_num)
    have e : (2 : ℚ) ^ (31 : ℤ) = (2 : ℚ) ^ (30 : ℤ) * 2 := by norm_num
    linarith
  have hpos : 0 ≤ rext (1 / (Duration.Seconds d).ext) := rext_nonneg (by positivity)
  have hup : rext (1 / (Duration.Seconds d).ext) ≤ (2 : ℚ) ^ (30 : ℤ) * 2 :=
    le_trans r2 (mul_le_mul hhi (by linarith) (by linarith) (two_zpow_pos _).le)
  rw [← q2] at hpos hup
  exact F64.isFinite_of_ext q1 (by linarith) (by linarith)

/-- Over one interval the rate Every(interval) accrues 1 or the float64 just below 1. -/
theorem accrual_of_interval {d : ℤ} (h0 : 0 < d) (h1 : d ≤ 9223372036854775807) :
    (tokensFormDuration (Every d) d).isFinite = true ∧
      ((tokensFormDuration (Every d) d).ext = 1 ∨
        (tokensFormDuration (Every d) d).ext = 1 - unitRoundoff) := by
  have hu := unitRoundoff_pos
  have hu1 := unitRoundoff_lt
  obtain ⟨s1, _, _⟩ := Seconds_spec h0.le h1
  obtain ⟨b1, b2⟩ := Seconds_bounds h0 h1
  have hx : (0 : ℚ) < (Duration.Seconds d).ext := lt_of_lt_of_le (two_zpow_pos _) b1
  obtain ⟨y1, y2, y3⟩ := Every_rel h0 h1
  have hy : 0 < (Every d).ext :=
    lt_of_lt_of_le (mul_pos (by positivity) (by linarith)) y2
  have hopen : ¬ F64.le (Every d) F64.zero = true := by
    rw [F64.le_iff, F64.zero_ext]
    intro hh; linarith [hh.2.2]
  rw [tokensFormDuration_open hopen]
  obtain ⟨m1, m2⟩ := F64.mul_fin s1 y1
  -- the exact product lies within one rounding error of 1
  have hp1 : 1 - unitRoundoff ≤ (Duration.Seconds d).ext * (Every d).ext := by
    have := mul_le_mul_of_nonneg_left y2 hx.le
    have e : (Duration.Seconds d).ext * (1 / (Duration.Seconds d).ext * (1 - unitRoundoff))
        = 1 - unitRoundoff := by field_simp
    rw [e] at this; exact this
  have hp2 : (Duration.Seconds d).ext * (Every d).ext ≤ 1 + unitRoundoff := by
    have := mul_le_mul_of_nonneg_left y3 hx.le
    have e : (Duration.Seconds d).ext * (1 / (Duration.Seconds d).ext * (1 + unitRoundoff))
        = 1 + unitRoundoff := by field_simp
    rw [e] at this; exact this
  have lo := rext_mono hp1
  have hi := rext_mono hp2
  rw [rext_below_one, ← m2] at lo
  rw [rext_above_one, ← m2] at hi
  have hp := two_zpow_pos (1024 : ℤ)
  have h1024 : (1 : ℚ) < (2 : ℚ) ^ (1024 : ℤ) := by
    have := two_zpow_lt (a := 0) (b := 1024) (by norm_num)
    simpa using this
  have hfin := F64.isFinite_of_ext m1 (by linarith) (by linarith)
  refine ⟨hfin, ?_⟩
  rcases eq_or_lt_of_le hi with heq | hlt
  · exact Or.inl heq
  · right
    exact le_antisymm (gap_below_one hfin (by linarith) hlt) lo

/-- C11 (as amended). For every interval with 0 < interval <= MaxInt64 nanoseconds,
tokensFormDuration(Every(interval), interval) is 1 or the float64 just below 1, which is
1 - 2 ^ (-53); and a limiter with limit Every(interval), burst >= 1 and stored tokens 0
at time last has TokensAt(last + interval) equal to that accrued value. -/
theorem C11_one_token_per_interval (interval : Duration) (lim : Limiter) (t : Time)
    (h0 : 0 < interval) (h1 : interval ≤ 9223372036854775807) :
    (tokensFormDuration (Every interval) interval = F64.ofInt 1 ∨
        tokensFormDuration (Every interval) interval = predOne) ∧
      (lim.limit = Every interval → lim.tokens = F64.zero → 1 ≤ lim.burst.val →
        t.ns = lim.last.ns + interval →
        (lim.TokensAt t).1 = tokensFormDuration (Every interval) interval) := by
  obtain ⟨hfin, hval⟩ := accrual_of_interval h0 h1
  have hu := unitRoundoff_pos
  have hu1 := unitRoundoff_lt
  have hn := (F64.ext_of_isFinite hfin).1
  have hpos : 0 < (tokensFormDuration (Every interval) interval).ext := by
    rcases hval with h | h <;> rw [h] <;> linarith
  have hle1 : (tokensFormDuration (Every interval) interval).ext ≤ 1 := by
    rcases hval with h | h
    · rw [h]
    · rw [h]; linarith
  have hnz : (tokensFormDuration (Every interval) interval).isZero ≠ true := by
    intro hz
    have := (F64.isZero_iff_ext hfin).mp hz
    linarith
  constructor
  · rcases hval with h | h
    · left
      exact F64.ext_inj hn (F64.ofInt_isNaN 1) (by rw [h, one_ext]) (fun hz => hnz hz.1)
    · right
      exact F64.ext_inj hn rfl (by rw [h, predOne_ext]) (fun hz => hnz hz.1)
  · intro hl ht hb htime
    rw [TokensAt_fst, advance_def, hl, ht]
    have hel : t.Sub (if t.Before lim.last = true then t else lim.last) = interval := by
      rw [elapsed_eq, min_def, max_def]
      unfold Duration at *
      split_ifs <;> omega
    rw [hel]
    generalize tokensFormDuration (Every interval) interval = T at hfin hn hpos hle1
    cases T with
    | nan => simp [F64.isNaN] at hn
    | inf a => simp [F64.isFinite] at hfin
    | fin a e m =>
      have ha : a = false := sign_of_pos hpos
      subst ha
      have hadd : F64.add F64.zero (F64.fin false e m) = F64.fin false e m := by
        have e1 : F64.add F64.zero (F64.fin false e m)
            = F64.round false (F64.zero.toRat + (F64.fin false e m).toRat) := rfl
        have hz : F64.zero.toRat = 0 := F64.zero_ext
        rw [e1, hz, zero_add, F64.round_toRat]
      rw [hadd]
      have hB : (1 : ℚ) ≤ (F64.ofInt lim.burst.val).ext := by
        rw [F64.ofInt_ext]
        have : (1 : ℚ) ≤ (lim.burst.val : ℚ) := by exact_mod_cast hb
        have := rext_mono this
        rwa [F64.rext_one] at this
      rw [if_neg]
      rw [F64.gt_iff]
      intro hh
      linarith [hh.2.2]

/-! ### Durations computed from tokens -/

/-- The conversion to int64 of a finite value in [0, 2 ^ 63) is its integer part. -/
theorem toInt64_floor (oor : Int) {x : F64} (hx : x.isFinite = true) (h0 : 0 ≤ x.ext)
    (h1 : x.ext < 9223372036854775808) : F64.toInt64 oor x = ⌊x.ext⌋ := by
  cases x with
  | nan => simp [F64.isFinite] at hx
  | inf a => simp [F64.isFinite] at hx
  | fin a e m =>
    rw [F64.ext_fin] at h0 h1 ⊢
    have htr : F64.truncQ (F64.fin a e m).toRat = ⌊(F64.fin a e m).toRat⌋ := by
      unfold F64.truncQ; rw [if_pos h0]
    have hf0 : 0 ≤ ⌊(F64.fin a e m).toRat⌋ := Int.floor_nonneg.mpr h0
    have hf1 : ⌊(F64.fin a e m).toRat⌋ < 9223372036854775808 := by
      rw [Int.floor_lt]; exact_mod_cast h1
    rw [toInt64_fin, htr, if_pos ⟨by omega, by omega⟩]

/-- When the exact quotient tokens / limit, in nanoseconds, is within the relative
bounds lo and hi of an integer d between 1 and 2 ^ 50, durationFormTokens returns d or
d - 1. -/
theorem duration_near (oor : Int) {limit tokens : F64} {d : ℤ} {lo hi : ℚ}
    (hL : limit.isFinite = true) (hLpos : 0 < limit.ext) (hT : tokens.isFinite = true)
    (hd0 : 1 ≤ d) (hd1 : d ≤ 1125899906842624)
    (hlo : 1 / 2 ≤ lo) (hhi : hi ≤ 2)
    (e1 : (d : ℚ) * lo ≤ tokens.ext / limit.ext * 1000000000)
    (e2 : tokens.ext / limit.ext * 1000000000 ≤ (d : ℚ) * hi)
    (k1 : 1 - 1 / 1125899906842624 < lo * (1 - unitRoundoff) * (1 - unitRoundoff))
    (k2 : hi * (1 + unitRoundoff) * (1 + unitRoundoff) < 1 + 1 / 1125899906842624) :
    durationFormTokens oor limit tokens = d ∨
      durationFormTokens oor limit tokens = d - 1 := by
  have hu := unitRoundoff_pos
  have hu1 := unitRoundoff_lt
  have hp := two_zpow_pos (1024 : ℤ)
  have hdq0 : (1 : ℚ) ≤ (d : ℚ) := by exact_mod_cast hd0
  have hdq1 : (d : ℚ) ≤ 1125899906842624 := by exact_mod_cast hd1
  have hlohi : lo ≤ hi := by
    have := le_trans e1 e2
    exact le_of_mul_le_mul_left this (by linarith)
  have hclosed : ¬ F64.le limit F64.zero = true := by
    rw [F64.le_iff, F64.zero_ext]; intro hh; linarith [hh.2.2]
  rw [durationFormTokens_def, if_neg hclosed]
  -- the quotient
  obtain ⟨q1, q2⟩ := F64.div_fin hT hL hLpos.ne'
  have hr1 : (d : ℚ) / 1000000000 * lo ≤ tokens.ext / limit.ext := by
    rw [div_mul_eq_mul_div, div_le_iff₀ (by norm_num)]; exact e1
  have hr2 : tokens.ext / limit.ext ≤ (d : ℚ) / 1000000000 * hi := by
    rw [div_mul_eq_mul_div, le_div_iff₀ (by norm_num)]; exact e2
  have hc0 : (1 : ℚ) / 1000000000 ≤ (d : ℚ) / 1000000000 :=
    div_le_div_of_nonneg_right hdq0 (by norm_num)
  have hc1 : (d : ℚ) / 1000000000 ≤ 1125900 := by
    rw [div_le_iff₀ (by norm_num)]; linarith
  have n1 : (2 : ℚ) ^ (-1022 : ℤ) ≤ (d : ℚ) / 1000000000 * lo := by
    have h31 : (2 : ℚ) ^ (-1022 : ℤ) ≤ (2 : ℚ) ^ (-31 : ℤ) := two_zpow_le (by norm_num)
    have h31b : (2 : ℚ) ^ (-31 : ℤ) ≤ 1 / 1000000000 * (1 / 2) := by norm_num
    calc (2 : ℚ) ^ (-1022 : ℤ) ≤ 1 / 1000000000 * (1 / 2) := le_trans h31 h31b
      _ ≤ (d : ℚ) / 1000000000 * lo := mul_le_mul hc0 hlo (by norm_num) (by linarith)
  have n2 : (d : ℚ) / 1000000000 * hi ≤ (2 : ℚ) ^ (1023 : ℤ) := by
    have h22 : (1125900 : ℚ) * 2 ≤ (2 : ℚ) ^ (1023 : ℤ) := by
      have := two_zpow_le (a := 22) (b := 1023) (by norm_num)
      have h2 : (1125900 : ℚ) * 2 ≤ (2 : ℚ) ^ (22 : ℤ) := by norm_num
      linarith
    calc (d : ℚ) / 1000000000 * hi ≤ 1125900 * 2 :=
          mul_le_mul hc1 hhi (by linarith) (by norm_num)
      _ ≤ (2 : ℚ) ^ (1023 : ℤ) := h22
  obtain ⟨a1, a2⟩ := rext_encl hr1 hr2 n1 n2
  rw [← q2] at a1 a2
  have hq0 : 0 ≤ (F64.div tokens limit).ext := by
    refine le_trans ?_ a1
    apply mul_nonneg (by linarith) (mul_nonneg (by linarith) (by linarith))
  have hqtop : (F64.div tokens limit).ext < (2 : ℚ) ^ (1024 : ℤ) := by
    have h24 : (1125900 : ℚ) * (2 * 2) < (2 : ℚ) ^ (1024 : ℤ) := by
      have := two_zpow_lt (a := 24) (b := 1024) (by norm_num)
      have h2 : (1125900 : ℚ) * (2 * 2) ≤ (2 : ℚ) ^ (24 : ℤ) := by norm_num
      linarith
    calc (F64.div tokens limit).ext ≤ (d : ℚ) / 1000000000 * (hi * (1 + unitRoundoff)) := a2
      _ ≤ 1125900 * (2 * 2) :=
          mul_le_mul hc1 (mul_le_mul hhi (by linarith) (by linarith) (by norm_num))
            (mul_nonneg (by linarith) (by linarith)) (by norm_num)
      _ < (2 : ℚ) ^ (1024 : ℤ) := h24
  have hQ := F64.isFinite_of_ext q1 (by linarith) hqtop
  -- the product with 1e9
  obtain ⟨m1, m2⟩ := F64.mul_fin hQ second_isFinite
  rw [second_ext] at m2
  have hp1 : (d : ℚ) * (lo * (1 - unitRoundoff))
      ≤ (F64.div tokens limit).ext * 1000000000 := by
    have := mul_le_mul_of_nonneg_right a1 (show (0 : ℚ) ≤ 1000000000 by norm_num)
    calc (d : ℚ) * (lo * (1 - unitRoundoff))
        = (d : ℚ) / 1000000000 * (lo * (1 - unitRoundoff)) * 1000000000 := by
          field_simp
      _ ≤ (F64.div tokens limit).ext * 1000000000 := this
  have hp2 : (F64.div tokens limit).ext * 1000000000
      ≤ (d : ℚ) * (hi * (1 + unitRoundoff)) := by
    have := mul_le_mul_of_nonneg_right a2 (show (0 : ℚ) ≤ 1000000000 by norm_num)
    calc (F64.div tokens limit).ext * 1000000000
        ≤ (d : ℚ) / 1000000000 * (hi * (1 + unitRoundoff)) * 1000000000 := this
      _ = (d : ℚ) * (hi * (1 + unitRoundoff)) := by field_simp
  have n3 : (2 : ℚ) ^ (-1022 : ℤ) ≤ (d : ℚ) * (lo * (1 - unitRoundoff)) := by
    have h2 : (2 : ℚ) ^ (-1022 : ℤ) ≤ (2 : ℚ) ^ (-2 : ℤ) := two_zpow_le (by norm_num)
    have h3 : (2 : ℚ) ^ (-2 : ℤ) = 1 * (1 / 2 * (1 / 2)) := by norm_num
    calc (2 : ℚ) ^ (-1022 : ℤ) ≤ 1 * (1 / 2 * (1 / 2)) := by rw [← h3]; exact h2
      _ ≤ (d : ℚ) * (lo * (1 - unitRoundoff)) :=
          mul_le_mul hdq0 (mul_le_mul hlo (by linarith) (by norm_num) (by linarith))
            (by norm_num) (by linarith)
  have n4 : (d : ℚ) * (hi * (1 + unitRoundoff)) ≤ (2 : ℚ) ^ (1023 : ℤ) := by
    have h53 : (1125899906842624 : ℚ) * (2 * 2) ≤ (2 : ℚ) ^ (1023 : ℤ) := by
      have := two_zpow_le (a := 52) (b := 1023) (by norm_num)
      have h2 : (1125899906842624 : ℚ) * (2 * 2) ≤ (2 : ℚ) ^ (52 : ℤ) := by norm_num
      linarith
    calc (d : ℚ) * (hi * (1 + unitRoundoff)) ≤ 1125899906842624 * (2 * 2) :=
          mul_le_mul hdq1 (mul_le_mul hhi (by linarith) (by linarith) (by norm_num))
            (mul_nonneg (by linarith) (by linarith)) (by norm_num)
      _ ≤ (2 : ℚ) ^ (1023 : ℤ) := h53
  obtain ⟨c1, c2⟩ := rext_encl hp1 hp2 n3 n4
  rw [← m2] at c1 c2
  generalize F64.mul (F64.div tokens limit) (F64.ofInt Second) = dur at m1 c1 c2 ⊢
  -- the duration lies strictly between d - 1 and d + 1
  have hlow : (d : ℚ) - 1 < dur.ext := by
    have h1 : (d : ℚ) * (1 - 1 / 1125899906842624)
        ≤ (d : ℚ) * (lo * (1 - unitRoundoff) * (1 - unitRoundoff)) :=
      mul_le_mul_of_nonneg_left k1.le (by linarith)
    have h2 : (d : ℚ) - 1 ≤ (d : ℚ) * (1 - 1 / 1125899906842624) := by
      have : (d : ℚ) * (1 / 1125899906842624) ≤ 1 := by
        rw [mul_one_div, div_le_one (by norm_num)]; exact hdq1
      linarith
    have h3 : (d : ℚ) * (1 - 1 / 1125899906842624)
        < (d : ℚ) * (lo * (1 - unitRoundoff) * (1 - unitRoundoff)) :=
      mul_lt_mul_of_pos_left k1 (by linarith)
    linarith
  have hhigh : dur.ext < (d : ℚ) + 1 := by
    have h3 : (d : ℚ) * (hi * (1 + unitRoundoff) * (1 + unitRoundoff))
        < (d : ℚ) * (1 + 1 / 1125899906842624) :=
      mul_lt_mul_of_pos_left k2 (by linarith)
    have h2 : (d : ℚ) * (1 + 1 / 1125899906842624) ≤ (d : ℚ) + 1 := by
      have : (d : ℚ) * (1 / 1125899906842624) ≤ 1 := by
        rw [mul_one_div, div_le_one (by norm_num)]; exact hdq1
      linarith
    linarith
  have hd63 : dur.ext < 9223372036854775808 := by linarith
  have h1024 : (9223372036854775808 : ℚ) < (2 : ℚ) ^ (1024 : ℤ) := by
    have := two_zpow_lt (a := 63) (b := 1024) (by norm_num)
    norm_num at this ⊢
  have hfin := F64.isFinite_of_ext m1 (by linarith) (by linarith)
  have hgt : ¬ F64.gt dur (F64.ofInt MaxInt64) = true := by
    rw [F64.gt_iff, maxInt64_ext]; intro hh
    have : (2 : ℚ) ^ (63 : ℤ) = 9223372036854775808 := by norm_num
    linarith [hh.2.2]
  have hd0 : (0 : ℚ) ≤ dur.ext := by linarith
  rw [if_neg hgt, toInt64_floor oor hfin hd0 hd63]
  have f1 : d - 1 ≤ ⌊dur.ext⌋ := by
    rw [Int.le_floor]; push_cast; linarith
  have f2 : ⌊dur.ext⌋ < d + 1 := by
    rw [Int.floor_lt]; push_cast; linarith
  unfold Duration
  omega

/-! ### Every and the spacing of events -/

/-- The rate Every(interval) is a finite number greater than zero, for every interval. -/
theorem Every_pos {d : ℤ} (h1 : d ≤ 9223372036854775807) :
    (Every d).isFinite = true ∧ 0 < (Every d).ext := by
  by_cases h0 : d ≤ 0
  · have hE : Every d = Inf := by unfold Every; rw [if_pos h0]
    rw [hE]
    exact ⟨Inf_isFinite, lt_of_lt_of_le (two_zpow_pos _) Inf_ext_ge⟩
  · have h0 : 0 < d := not_le.mp h0
    obtain ⟨e1, e2, _⟩ := Every_rel h0 h1
    obtain ⟨b1, _⟩ := Seconds_bounds h0 h1
    have hx : (0 : ℚ) < (Duration.Seconds d).ext := lt_of_lt_of_le (two_zpow_pos _) b1
    have hu1 := unitRoundoff_lt
    refine ⟨e1, lt_of_lt_of_le ?_ e2⟩
    exact mul_pos (by positivity) (by linarith)

/-- The exact quotient 1 / Every(d), in nanoseconds, is d up to three roundings. -/
theorem Every_spacing_encl {d : ℤ} (h0 : 0 < d) (h1 : d ≤ 9223372036854775807) :
    (d : ℚ) * ((1 - unitRoundoff) * (1 - unitRoundoff) / (1 + unitRoundoff))
        ≤ (F64.ofInt 1).ext / (Every d).ext * 1000000000 ∧
      (F64.ofInt 1).ext / (Every d).ext * 1000000000
        ≤ (d : ℚ) * ((1 + unitRoundoff) * (1 + unitRoundoff) / (1 - unitRoundoff)) := by
  have hu := unitRoundoff_pos
  have hu1 := unitRoundoff_lt
  obtain ⟨_, hy⟩ := Every_pos (d := d) h1
  obtain ⟨_, y1, y2⟩ := Every_rel h0 h1
  obtain ⟨b1, _⟩ := Seconds_bounds h0 h1
  obtain ⟨x1, x2⟩ := Seconds_rel h0 h1
  have hx : (0 : ℚ) < (Duration.Seconds d).ext := lt_of_lt_of_le (two_zpow_pos _) b1
  have hdq : (0 : ℚ) < (d : ℚ) := by exact_mod_cast h0
  generalize (Every d).ext = y at hy y1 y2 ⊢
  generalize (Duration.Seconds d).ext = x at hx y1 y2 x1 x2
  have A1 : 1 - unitRoundoff ≤ y * x := by
    have := mul_le_mul_of_nonneg_right y1 hx.le
    have e : 1 / x * (1 - unitRoundoff) * x = 1 - unitRoundoff := by field_simp
    linarith
  have A2 : y * x ≤ 1 + unitRoundoff := by
    have := mul_le_mul_of_nonneg_right y2 hx.le
    have e : 1 / x * (1 + unitRoundoff) * x = 1 + unitRoundoff := by field_simp
    linarith
  have B1 : (d : ℚ) * ((1 - unitRoundoff) * (1 - unitRoundoff)) ≤ 1000000000 * x := by
    have := mul_le_mul_of_nonneg_left x1 (show (0 : ℚ) ≤ 1000000000 by norm_num)
    have e : (1000000000 : ℚ) * ((d : ℚ) / 1000000000 *
        ((1 - unitRoundoff) * (1 - unitRoundoff)))
        = (d : ℚ) * ((1 - unitRoundoff) * (1 - unitRoundoff)) := by field_simp
    linarith
  have B2 : 1000000000 * x ≤ (d : ℚ) * ((1 + unitRoundoff) * (1 + unitRoundoff)) := by
    have := mul_le_mul_of_nonneg_left x2 (show (0 : ℚ) ≤ 1000000000 by norm_num)
    have e : (1000000000 : ℚ) * ((d : ℚ) / 1000000000 *
        ((1 + unitRoundoff) * (1 + unitRoundoff)))
        = (d : ℚ) * ((1 + unitRoundoff) * (1 + unitRoundoff)) := by field_simp
    linarith
  have hp1 : (0 : ℚ) < 1 + unitRoundoff := by linarith
  have hm1 : (0 : ℚ) < 1 - unitRoundoff := by linarith
  rw [one_ext, div_mul_eq_mul_div, one_mul]
  constructor
  · rw [le_div_iff₀ hy]
    apply le_of_mul_le_mul_right _ hx
    have hnn : (0 : ℚ) ≤ (d : ℚ) * ((1 - unitRoundoff) * (1 - unitRoundoff) /
        (1 + unitRoundoff)) := by positivity
    calc (d : ℚ) * ((1 - unitRoundoff) * (1 - unitRoundoff) / (1 + unitRoundoff)) * y * x
        = (d : ℚ) * ((1 - unitRoundoff) * (1 - unitRoundoff) / (1 + unitRoundoff))
            * (y * x) := by ring
      _ ≤ (d : ℚ) * ((1 - unitRoundoff) * (1 - unitRoundoff) / (1 + unitRoundoff))
            * (1 + unitRoundoff) := mul_le_mul_of_nonneg_left A2 hnn
      _ = (d : ℚ) * ((1 - unitRoundoff) * (1 - unitRoundoff)) := by field_simp
      _ ≤ 1000000000 * x := B1
  · rw [div_le_iff₀ hy]
    apply le_of_mul_le_mul_right _ hx
    have hnn : (0 : ℚ) ≤ (d : ℚ) * ((1 + unitRoundoff) * (1 + unitRoundoff) /
        (1 - unitRoundoff)) := by positivity
    calc (1000000000 : ℚ) * x ≤ (d : ℚ) * ((1 + unitRoundoff) * (1 + unitRoundoff)) := B2
      _ = (d : ℚ) * ((1 + unitRoundoff) * (1 + unitRoundoff) / (1 - unitRoundoff))
            * (1 - unitRoundoff) := by field_simp
      _ ≤ (d : ℚ) * ((1 + unitRoundoff) * (1 + unitRoundoff) / (1 - unitRoundoff))
            * (y * x) := mul_le_mul_of_nonneg_left A1 hnn
      _ = (d : ℚ) * ((1 + unitRoundoff) * (1 + unitRoundoff) / (1 - unitRoundoff)) * y * x := by
          ring

/-- C16. For every interval (of the int64 range) Every(interval) is strictly positive; and
for every interval > 0 of at most 2 ^ 50 ns, durationFormTokens(Every(interval), 1) is
interval or interval - 1 nanoseconds. -/
theorem C16_every_spacing (oor : Int) (interval : Duration)
    (h1 : interval ≤ 9223372036854775807) :
    F64.gt (Every interval) F64.zero = true ∧
      (0 < interval → interval ≤ 1125899906842624 →
        (durationFormTokens oor (Every interval) (F64.ofInt 1) = interval ∨
          durationFormTokens oor (Every interval) (F64.ofInt 1) = interval - 1)) := by
  obtain ⟨p1, p2⟩ := Every_pos (d := interval) h1
  refine ⟨?_, fun h0 h2 => ?_⟩
  · rw [F64.gt_iff, F64.zero_ext]
    exact ⟨(F64.ext_of_isFinite p1).1, rfl, p2⟩
  · obtain ⟨e1, e2⟩ := Every_spacing_encl h0 h1
    exact duration_near oor p1 p2 one_isFinite h0 h2
      (by unfold unitRoundoff; norm_num) (by unfold unitRoundoff; norm_num) e1 e2
      (by unfold unitRoundoff; norm_num) (by unfold unitRoundoff; norm_num)

/-! ### Round trip of the two conversions -/

/-- Zero tokens take zero time at a positive finite rate. -/
theorem duration_of_zero (oor : Int) {limit : F64} (hL : limit.isFinite = true)
    (hLpos : 0 < limit.ext) : durationFormTokens oor limit F64.zero = 0 := by
  have hp := two_zpow_pos (1024 : ℤ)
  have hclosed : ¬ F64.le limit F64.zero = true := by
    rw [F64.le_iff, F64.zero_ext]; intro hh; linarith [hh.2.2]
  have hz : F64.zero.isFinite = true := rfl
  rw [durationFormTokens_def, if_neg hclosed]
  obtain ⟨q1, q2⟩ := F64.div_fin hz hL hLpos.ne'
  rw [F64.zero_ext, zero_div, rext_zero] at q2
  have hQ := F64.isFinite_of_ext q1 (by linarith) (by linarith)
  obtain ⟨m1, m2⟩ := F64.mul_fin hQ second_isFinite
  rw [q2, zero_mul, rext_zero] at m2
  generalize F64.mul (F64.div F64.zero limit) (F64.ofInt Second) = dur at m1 m2 ⊢
  have hfin := F64.isFinite_of_ext m1 (by linarith) (by linarith)
  have hgt : ¬ F64.gt dur (F64.ofInt MaxInt64) = true := by
    rw [F64.gt_iff, maxInt64_ext, m2]; intro hh
    linarith [hh.2.2, two_zpow_pos (63 : ℤ)]
  rw [if_neg hgt, toInt64_floor oor hfin (by linarith) (by linarith), m2]
  simp

/-- The exact quotient tokensFormDuration(limit, d) / limit, in nanoseconds, is d up to
three roundings, for a rate between 2 ^ -900 and 2 ^ 900. -/
theorem round_trip_encl {limit : F64} {d : ℤ} (hn : limit.isNaN = false)
    (l1 : (2 : ℚ) ^ (-900 : ℤ) ≤ limit.ext) (l2 : limit.ext ≤ (2 : ℚ) ^ (900 : ℤ))
    (h0 : 0 < d) (h1 : d ≤ 9223372036854775807) :
    (tokensFormDuration limit d).isFinite = true ∧
      (d : ℚ) * ((1 - unitRoundoff) * (1 - unitRoundoff) * (1 - unitRoundoff))
        ≤ (tokensFormDuration limit d).ext / limit.ext * 1000000000 ∧
      (tokensFormDuration limit d).ext / limit.ext * 1000000000
        ≤ (d : ℚ) * ((1 + unitRoundoff) * (1 + unitRoundoff) * (1 + unitRoundoff)) := by
  have hu := unitRoundoff_pos
  have hu1 := unitRoundoff_lt
  have hp := two_zpow_pos (1024 : ℤ)
  have hLpos : 0 < limit.ext := lt_of_lt_of_le (two_zpow_pos _) l1
  have hL : limit.isFinite = true :=
    F64.isFinite_of_ext hn (by linarith)
      (lt_of_le_of_lt l2 (two_zpow_lt (by norm_num)))
  have hclosed : ¬ F64.le limit F64.zero = true := by
    rw [F64.le_iff, F64.zero_ext]; intro hh; linarith [hh.2.2]
  obtain ⟨s1, _, _⟩ := Seconds_spec h0.le h1
  obtain ⟨b1, b2⟩ := Seconds_bounds h0 h1
  obtain ⟨x1, x2⟩ := Seconds_rel h0 h1
  have hx : (0 : ℚ) < (Duration.Seconds d).ext := lt_of_lt_of_le (two_zpow_pos _) b1
  obtain ⟨m1, m2⟩ := F64.mul_fin s1 hL
  rw [tokensFormDuration_open hclosed]
  have n1 : (2 : ℚ) ^ (-1022 : ℤ) ≤ (Duration.Seconds d).ext * limit.ext := by
    calc (2 : ℚ) ^ (-1022 : ℤ) ≤ (2 : ℚ) ^ (-30 + -900 : ℤ) := two_zpow_le (by norm_num)
      _ = (2 : ℚ) ^ (-30 : ℤ) * (2 : ℚ) ^ (-900 : ℤ) := two_zpow_add _ _
      _ ≤ (Duration.Seconds d).ext * limit.ext :=
          mul_le_mul b1 l1 (two_zpow_pos _).le hx.le
  have n2 : (Duration.Seconds d).ext * limit.ext ≤ (2 : ℚ) ^ (1023 : ℤ) := by
    calc (Duration.Seconds d).ext * limit.ext
        ≤ (2 : ℚ) ^ (34 : ℤ) * (2 : ℚ) ^ (900 : ℤ) :=
          mul_le_mul b2 l2 hLpos.le (two_zpow_pos _).le
      _ = (2 : ℚ) ^ (34 + 900 : ℤ) := (two_zpow_add _ _).symm
      _ ≤ (2 : ℚ) ^ (1023 : ℤ) := two_zpow_le (by norm_num)
  obtain ⟨r1, r2⟩ := rext_rel n1 n2
  rw [← m2] at r1 r2
  generalize F64.mul (Duration.Seconds d) limit = T at m1 r1 r2 ⊢
  generalize (Duration.Seconds d).ext = x at hx x1 x2 r1 r2 n1 n2
  generalize limit.ext = L at hLpos r1 r2 n1 n2
  have hm1 : (0 : ℚ) < 1 - unitRoundoff := by linarith
  have hT0 : 0 ≤ T.ext := le_trans (by positivity) r1
  have hT1 : T.ext < (2 : ℚ) ^ (1024 : ℤ) := by
    have h2 : x * L * (1 + unitRoundoff) ≤ (2 : ℚ) ^ (1023 : ℤ) * 2 :=
      mul_le_mul n2 (by linarith) (by linarith) (two_zpow_pos _).le
    have e : (2 : ℚ) ^ (1024 : ℤ) = 2 * (2 : ℚ) ^ (1023 : ℤ) := two_zpow_succ 1023
    have h3 := two_zpow_pos (1023 : ℤ)
    have h4 : x * L * (1 + unitRoundoff) < (2 : ℚ) ^ (1023 : ℤ) * 2 := by
      have : x * L * (1 + unitRoundoff) ≤ (2 : ℚ) ^ (1023 : ℤ) * (1 + unitRoundoff) :=
        mul_le_mul_of_nonneg_right n2 (by linarith)
      have h5 : (2 : ℚ) ^ (1023 : ℤ) * (1 + unitRoundoff) < (2 : ℚ) ^ (1023 : ℤ) * 2 :=
        mul_lt_mul_of_pos_left (by linarith) h3
      linarith
    linarith
  refine ⟨F64.isFinite_of_ext m1 (by linarith) hT1, ?_, ?_⟩
  · have t1 : x * (1 - unitRoundoff) ≤ T.ext / L := by
      rw [le_div_iff₀ hLpos]
      calc x * (1 - unitRoundoff) * L = x * L * (1 - unitRoundoff) := by ring
        _ ≤ T.ext := r1
    calc (d : ℚ) * ((1 - unitRoundoff) * (1 - unitRoundoff) * (1 - unitRoundoff))
        = (d : ℚ) / 1000000000 * ((1 - unitRoundoff) * (1 - unitRoundoff))
            * (1 - unitRoundoff) * 1000000000 := by ring
      _ ≤ x * (1 - unitRoundoff) * 1000000000 :=
          mul_le_mul_of_nonneg_right (mul_le_mul_of_nonneg_right x1 hm1.le) (by norm_num)
      _ ≤ T.ext / L * 1000000000 := mul_le_mul_of_nonneg_right t1 (by norm_num)
  · have t2 : T.ext / L ≤ x * (1 + unitRoundoff) := by
      rw [div_le_iff₀ hLpos]
      calc T.ext ≤ x * L * (1 + unitRoundoff) := r2
        _ = x * (1 + unitRoundoff) * L := by ring
    calc T.ext / L * 1000000000 ≤ x * (1 + unitRoundoff) * 1000000000 :=
          mul_le_mul_of_nonneg_right t2 (by norm_num)
      _ ≤ (d : ℚ) / 1000000000 * ((1 + unitRoundoff) * (1 + unitRoundoff))
            * (1 + unitRoundoff) * 1000000000 :=
          mul_le_mul_of_nonneg_right
            (mul_le_mul_of_nonneg_right x2 (by linarith)) (by norm_num)
      _ = (d : ℚ) * ((1 + unitRoundoff) * (1 + unitRoundoff) * (1 + unitRoundoff)) := by
          ring

/-- C17. For every limit <= 0 the composition durationFormTokens(limit,
tokensFormDuration(limit, d)) is InfDuration regardless of d; for every rate between
2 ^ -900 and 2 ^ 900 and every duration 0 <= d <= 2 ^ 50 ns the composition is d or d - 1
nanoseconds, and it is 0 for d = 0. -/
theorem C17_round_trip (oor : Int) (limit : Limit) (d : Duration) :
    (F64.le limit F64.zero = true →
        durationFormTokens oor limit (tokensFormDuration limit d) = InfDuration) ∧
      (limit.isNaN = false → (2 : ℚ) ^ (-900 : ℤ) ≤ limit.ext →
        limit.ext ≤ (2 : ℚ) ^ (900 : ℤ) → 0 ≤ d → d ≤ 1125899906842624 →
        (durationFormTokens oor limit (tokensFormDuration limit d) = d ∨
            durationFormTokens oor limit (tokensFormDuration limit d) = d - 1) ∧
          (d = 0 → durationFormTokens oor limit (tokensFormDuration limit d) = 0)) := by
  refine ⟨fun h => ?_, fun hn l1 l2 h0 h2 => ?_⟩
  · rw [durationFormTokens_def, if_pos h]
  · have hp := two_zpow_pos (1024 : ℤ)
    have hLpos : 0 < limit.ext := lt_of_lt_of_le (two_zpow_pos _) l1
    have hL : limit.isFinite = true :=
      F64.isFinite_of_ext hn (by linarith)
        (lt_of_le_of_lt l2 (two_zpow_lt (by norm_num)))
    have hne : limit ≠ F64.inf false := by
      intro hh; rw [hh] at hL; simp [F64.isFinite] at hL
    have hzero : d = 0 → durationFormTokens oor limit (tokensFormDuration limit d) = 0 := by
      intro hd
      rw [hd, tokensFormDuration_zero hn hne]
      exact duration_of_zero oor hL hLpos
    refine ⟨?_, hzero⟩
    rcases eq_or_lt_of_le h0 with hd | hd
    · left
      rw [hzero hd.symm]; exact hd
    · have h1 : d ≤ 9223372036854775807 := by unfold Duration at *; omega
      obtain ⟨tf, e1, e2⟩ := round_trip_encl hn l1 l2 hd h1
      exact duration_near oor hL hLpos tf hd h2
        (by unfold unitRoundoff; norm_num) (by unfold unitRoundoff; norm_num) e1 e2
        (by unfold unitRoundoff; norm_num) (by unfold unitRoundoff; norm_num)

/-! ### Closed statements: further counterexamples and instances -/

/-- C11, counterexample. With interval = 3ns the accrual over one interval is not 1:
tokensFormDuration(Every(3ns), 3ns) is the float64 just below 1, and so is TokensAt(last +
3ns) of a limiter with limit Every(3ns), burst 3 and no stored tokens. -/
theorem C11_counterexample :
    F64.eq (tokensFormDuration (Every 3) 3) (F64.ofInt 1) = false ∧
      tokensFormDuration (Every 3) 3 = predOne ∧
      1 ≤ everyThreeLimiter.burst.val ∧
      F64.eq (everyThreeLimiter.TokensAt ⟨3⟩).1 (F64.ofInt 1) = false := by
  decide!

/-- C11, instance: the rate Every(1s), one second after the last update. -/
theorem C11_witness :
    (0 : Duration) < 1000000000 ∧ (1000000000 : Duration) ≤ 9223372036854775807 ∧
      (tokensFormDuration (Every 1000000000) 1000000000 = F64.ofInt 1 ∨
        tokensFormDuration (Every 1000000000) 1000000000 = predOne) ∧
      (everyLimiter.TokensAt ⟨1000000000⟩).1
        = tokensFormDuration (Every 1000000000) 1000000000 :=
  ⟨by decide, by decide,
    (C11_one_token_per_interval 1000000000 everyLimiter ⟨1000000000⟩
      (by decide) (by decide)).1,
    (C11_one_token_per_interval 1000000000 everyLimiter ⟨1000000000⟩
      (by decide) (by decide)).2 rfl rfl (by decide) (by decide)⟩

/-- C12, counterexample. NewLimiter(1, -1) is a limiter holding the burst -1: Burst()
returns -1 and TokensAt answers -1; NewLimiter(NaN, 1) holds the rate NaN. -/
theorem C12_counterexample :
    (NewLimiter (F64.ofInt 1) burstNegOne).burst.val = -1 ∧
      ((NewLimiter (F64.ofInt 1) burstNegOne).Burst).1.val = -1 ∧
      ((NewLimiter (F64.ofInt 1) burstNegOne).TokensAt ⟨0⟩).1 = F64.ofInt (-1) ∧
      (NewLimiter F64.nan burstOne).limit = F64.nan := by
  decide!

/-- C13, instance: the accessors of NewLimiter(2, 3). -/
theorem C13_witness :
    ((NewLimiter (F64.ofInt 2) burstThree).Limit).1 = F64.ofInt 2 ∧
      ((NewLimiter (F64.ofInt 2) burstThree).Burst).1 = burstThree :=
  ⟨(C13_accessors (F64.ofInt 2) burstThree sampleLimiter).1,
    (C13_accessors (F64.ofInt 2) burstThree sampleLimiter).2.1⟩

/-- C14, counterexample. With the rate +Inf (IEEE infinity) and t at last, the accrual
is 0 * Inf = NaN: TokensAt(t) is NaN while min(tokens, burst) is 1. -/
theorem C14_counterexample :
    (⟨0⟩ : Time).ns ≤ infLimiter.last.ns ∧
      (infLimiter.TokensAt ⟨0⟩).1 = F64.nan ∧
      F64.fmin infLimiter.tokens (F64.ofInt infLimiter.burst.val) = F64.ofInt 1 ∧
      F64.eq (infLimiter.TokensAt ⟨0⟩).1
        (F64.fmin infLimiter.tokens (F64.ofInt infLimiter.burst.val)) = false ∧
      F64.ge (infLimiter.TokensAt ⟨0⟩).1
        (F64.fmin infLimiter.tokens (F64.ofInt infLimiter.burst.val)) = false := by
  decide!

/-- C14, instance: rate 2 per second, burst 3, queried five nanoseconds before last. -/
theorem C14_witness :
    sampleLimiter.limit.isNaN = false ∧ sampleLimiter.limit ≠ F64.inf false ∧
      (⟨-5⟩ : Time).ns ≤ sampleLimiter.last.ns ∧
      F64.same (sampleLimiter.TokensAt ⟨-5⟩).1
        (F64.fmin sampleLimiter.tokens (F64.ofInt sampleLimiter.burst.val)) = true :=
  ⟨by decide!, by decide!, by decide,
    ((C14_stale_time sampleLimiter ⟨-5⟩ (by decide!) (by decide!)).1 (by decide)).1⟩

/-- C15, instance: the unlimited rate, burst 3, one nanosecond after last. -/
theorem C15_witness :
    unlimitedLimiter.limit = Inf ∧
      F64.ge unlimitedLimiter.tokens (F64.ofInt (-MaxInt64)) = true ∧
      unlimitedLimiter.last.ns + 1 ≤ (⟨1⟩ : Time).ns ∧
      (unlimitedLimiter.TokensAt ⟨1⟩).1 = F64.ofInt unlimitedLimiter.burst.val :=
  ⟨rfl, by decide!, by decide,
    (C15_unlimited_rate unlimitedLimiter ⟨1⟩ rfl (by decide!) (by decide)).1⟩

/-- C16, counterexample. With interval = 7000ns (7 microseconds),
durationFormTokens(Every(interval), 1) is 6999ns. -/
theorem C16_counterexample :
    (0 : Duration) < 7000 ∧
      durationFormTokens MinInt64 (Every 7000) (F64.ofInt 1) = 6999 ∧
      ¬ (durationFormTokens MinInt64 (Every 7000) (F64.ofInt 1) = 7000) := by
  decide!

/-- C16, instance: the interval of one second. -/
theorem C16_witness :
    (1000000000 : Duration) ≤ 9223372036854775807 ∧
      F64.gt (Every 1000000000) F64.zero = true ∧
      (durationFormTokens MinInt64 (Every 1000000000) (F64.ofInt 1) = 1000000000 ∨
        durationFormTokens MinInt64 (Every 1000000000) (F64.ofInt 1) = 1000000000 - 1) :=
  ⟨by decide, (C16_every_spacing MinInt64 1000000000 (by decide)).1,
    (C16_every_spacing MinInt64 1000000000 (by decide)).2 (by decide) (by decide)⟩

/-- C17, counterexample. With limit = 5 and d = 3ns the composition is 2ns. -/
theorem C17_counterexample :
    F64.gt (F64.ofInt 5) F64.zero = true ∧ (0 : Duration) ≤ 3 ∧
      durationFormTokens MinInt64 (F64.ofInt 5) (tokensFormDuration (F64.ofInt 5) 3) = 2 ∧
      ¬ (durationFormTokens MinInt64 (F64.ofInt 5) (tokensFormDuration (F64.ofInt 5) 3)
        = 3) := by
  decide!

/-- C17, instance: the rate 3 per second and a duration of five seconds. -/
theorem C17_witness :
    (2 : ℚ) ^ (-900 : ℤ) ≤ (F64.ofInt 3).ext ∧ (F64.ofInt 3).ext ≤ (2 : ℚ) ^ (900 : ℤ) ∧
      (durationFormTokens MinInt64 (F64.ofInt 3)
          (tokensFormDuration (F64.ofInt 3) 5000000000) = 5000000000 ∨
        durationFormTokens MinInt64 (F64.ofInt 3)
          (tokensFormDuration (F64.ofInt 3) 5000000000) = 5000000000 - 1) :=
  ⟨by decide!, by decide!,
    ((C17_round_trip MinInt64 (F64.ofInt 3) 5000000000).2 (by decide!) (by decide!)
      (by decide!) (by decide) (by decide)).1⟩

/-- C18, instance: three tokens at the unlimited rate. -/
theorem C18_witness :
    F64.le F64.zero (F64.ofInt 3) = true ∧
      F64.le (F64.ofInt 3) (F64.ofInt MaxInt64) = true ∧
      durationFormTokens MinInt64 Inf (F64.ofInt 3) = 0 :=
  ⟨by decide!, by decide!,
    (C18_unlimited_wait MinInt64 (F64.ofInt 3) (by decide!) (by decide!)).1⟩

end limiter
